import Mathlib

/-! The init command channel of the hyperd / runv hypervisor.

A shallow embedding of `hypervisor/init_comm.go` (the frame codec
`NewVmMessage` / `ReadVmMessage`, the dispatcher loop `waitCmdToInit` and the
version probe `getVMHyperstartAPIVersion`) and of `VmContext.loop` in
`hypervisor/hypervisor.go`, together with the properties of the specification
that concern them.

Modelling conventions
* a Go `byte` is a `Fin 256`, a `[]byte` a `List Byte`;
* a Go `uint32` is a `Nat` reduced `% 2 ^ 32` where the source converts;
* a Go `int` is taken to be 64 bits wide. The counter `got`, to which the
  dispatcher adds a count at every `NEXT`, is an `Int` reduced by `wrapInt` to
  the 64 bits of the Go `int` at each addition. The counters `index`, `read`
  and `needRead` are natural numbers: `index` only ever holds 0 or the count
  of one write, and `read` and `needRead` are bounded by the length of one
  frame, so none of them can overflow;
* the opcode values (`hyperstartapi`) and package `encoding/json` lie outside
  these sources and are parameters of the model (`Opcodes`, `Json`);
* a run-time panic (slice out of range) is the result `none`;
* a send on a channel (`cmd.result <- err`, `ctx.vm <- cmd`) is an action of
  the trace and is taken not to block.
-/

namespace hypervisor

/-- One octet. -/
abbrev Byte := Fin 256

/-- Equality of results is decidable when it is for values and for errors. -/
instance instDecidableEqExcept {ε α : Type} [DecidableEq ε] [DecidableEq α] :
    DecidableEq (Except ε α)
  | .ok a, .ok b => if h : a = b then isTrue (by rw [h]) else isFalse (fun e => h (by cases e; rfl))
  | .error a, .error b =>
      if h : a = b then isTrue (by rw [h]) else isFalse (fun e => h (by cases e; rfl))
  | .ok _, .error _ => isFalse (fun e => by cases e)
  | .error _, .ok _ => isFalse (fun e => by cases e)

/-! ## encoding/binary, big endian -/

/-- The octet number `k` (counted from the least significant one) of `v`. -/
def octet (v k : Nat) : Byte := ⟨(v / 2 ^ (8 * k)) % 256, Nat.mod_lt _ (by decide)⟩

/-- What `binary.BigEndian.PutUint32(b, v)` stores in `b[0..3]`, for `v` already a `uint32`. -/
def putUint32 (v : Nat) : List Byte := [octet v 3, octet v 2, octet v 1, octet v 0]

/-- The value `binary.BigEndian.Uint32(b)` of the first four octets of `b`;
`none` stands for the panic on a slice shorter than four octets. -/
def uint32BE : List Byte → Option Nat
  | b0 :: b1 :: b2 :: b3 :: _ =>
      some (b0.val * 2 ^ 24 + b1.val * 2 ^ 16 + b2.val * 2 ^ 8 + b3.val)
  | _ => none

/-! ## hyperstartapi.DecodedMessage -/

/-- The type `hyperstartapi.DecodedMessage`: `Code uint32`, `Message []byte`. -/
structure DecodedMessage where
  Code : Nat
  Message : List Byte
  deriving DecidableEq, Repr

/-- The function `NewVmMessage`: `length := len(m.Message) + 8`, a buffer of `length` octets,
the code and `uint32(length)` big endian in the first eight, then `copy(msg[8:], m.Message)`. -/
def NewVmMessage (m : DecodedMessage) : List Byte :=
  let length := m.Message.length + 8
  putUint32 (m.Code % 2 ^ 32) ++ putUint32 (length % 2 ^ 32) ++ m.Message

/-! ## The agent socket, read side -/

/-- The read side of the `*net.UnixConn`: the octets that the peer sends before it closes the
connection and that were not read yet, and for the successive `Read` calls how many octets the
kernel has ready (a short read). When `ready` is exhausted a `Read` returns as much as it was
asked for. -/
structure UnixConn where
  stream : List Byte
  ready : List Nat
  deriving DecidableEq, Repr

/-- Why `ReadVmMessage` returned no message. `EOF` is the error of `conn.Read` on an exhausted
stream; `stuck` marks a loop that used up its iteration budget, which never happens
(`ReadVmMessage_not_stuck`). -/
inductive ReadError where
  | EOF
  | stuck
  deriving DecidableEq, Repr

/-- The call `conn.Read(buf[:want])`: at most `want` octets, at most what the kernel has ready,
taken from the head of the stream; an error when the stream is exhausted. -/
def UnixConn.Read (conn : UnixConn) (want : Nat) : Except ReadError (List Byte × UnixConn) :=
  if conn.stream = [] then .error .EOF
  else
    let avail := match conn.ready with
      | [] => want
      | k :: _ => k
    let nr := min want (min avail conn.stream.length)
    .ok (conn.stream.take nr, { stream := conn.stream.drop nr, ready := conn.ready.tail })

/-- The loop `for read < needRead` of `ReadVmMessage` with its four variables; the first
argument bounds the number of iterations. After the loop the message is
`Code: Uint32(res[:4]), Message: res[8:]`. -/
def readLoop : Nat → UnixConn → Nat → Nat → Nat → List Byte →
    Except ReadError (DecodedMessage × UnixConn)
  | 0, _, _, _, _, _ => .error .stuck
  | fuel + 1, conn, needRead, length, read, res =>
    if read < needRead then
      let want := if needRead - read > 512 then 512 else needRead - read
      match conn.Read want with
      | .error e => .error e
      | .ok (got, conn1) =>
        let res1 := res ++ got
        let read1 := read + got.length
        if length = 0 ∧ read1 ≥ 8 then
          let length1 := (uint32BE (res1.drop 4)).getD 0
          if length1 > 8 then
            readLoop fuel conn1 length1 length1 read1 res1
          else
            readLoop fuel conn1 needRead length1 read1 res1
        else
          readLoop fuel conn1 needRead length read1 res1
    else
      .ok ({ Code := (uint32BE res).getD 0, Message := res.drop 8 }, conn)

/-- The function `ReadVmMessage`: `needRead := 8`, `length := 0`, `read := 0`, `res := []byte{}`,
then the loop. Every iteration that does not end the loop takes an octet off the stream or an
entry off `ready`, which bounds the number of iterations. -/
def ReadVmMessage (conn : UnixConn) : Except ReadError (DecodedMessage × UnixConn) :=
  readLoop (conn.stream.length + conn.ready.length + 1) conn 8 0 0 []

/-- Calling `ReadVmMessage` `k` times in a row on the same connection: the messages read, in
order, and the connection left; the first error ends the sequence. -/
def readMessages : Nat → UnixConn → Except ReadError (List DecodedMessage × UnixConn)
  | 0, conn => .ok ([], conn)
  | k + 1, conn =>
    match ReadVmMessage conn with
    | .error e => .error e
    | .ok (m, conn1) =>
      match readMessages k conn1 with
      | .error e => .error e
      | .ok (ms, conn2) => .ok (m :: ms, conn2)

/-- The octets of a sequence of messages framed one after the other. -/
def frames (ms : List DecodedMessage) : List Byte := (ms.map NewVmMessage).flatten

/-! ## The dispatcher `waitCmdToInit`: data -/

/-- The opcodes of package `hyperstartapi` that `init_comm.go` names. Their values are declared
outside these sources, so they are a parameter of the model. -/
structure Opcodes where
  INIT_VERSION : Nat
  INIT_DESTROYPOD : Nat
  INIT_EXECCMD : Nat
  INIT_READY : Nat
  INIT_ACK : Nat
  INIT_ERROR : Nat
  INIT_PING : Nat
  INIT_NEXT : Nat
  INIT_NEWCONTAINER : Nat
  INIT_PROCESSASYNCEVENT : Nat
  deriving DecidableEq, Repr

/-- The opcodes are `uint32` constants, different from one another. -/
def Opcodes.distinct (api : Opcodes) : Prop :=
  [api.INIT_VERSION, api.INIT_DESTROYPOD, api.INIT_EXECCMD, api.INIT_READY, api.INIT_ACK,
    api.INIT_ERROR, api.INIT_PING, api.INIT_NEXT, api.INIT_NEWCONTAINER,
    api.INIT_PROCESSASYNCEVENT].Nodup ∧
  ∀ c ∈ [api.INIT_VERSION, api.INIT_DESTROYPOD, api.INIT_EXECCMD, api.INIT_READY, api.INIT_ACK,
    api.INIT_ERROR, api.INIT_PING, api.INIT_NEXT, api.INIT_NEWCONTAINER,
    api.INIT_PROCESSASYNCEVENT], c < 2 ^ 32

instance (api : Opcodes) : Decidable api.distinct := by
  unfold Opcodes.distinct; exact inferInstance

/-- A table of opcodes to run the model on. -/
def sampleOpcodes : Opcodes where
  INIT_VERSION := 0
  INIT_DESTROYPOD := 4
  INIT_EXECCMD := 6
  INIT_READY := 8
  INIT_ACK := 9
  INIT_ERROR := 10
  INIT_PING := 12
  INIT_NEXT := 14
  INIT_NEWCONTAINER := 17
  INIT_PROCESSASYNCEVENT := 23

/-- The dynamic value in `hyperstartCmd.Message` (an `interface{}`): either a `[]byte`, or any
other value, `nil` included, which the model names by a number. -/
inductive Message where
  | raw (b : List Byte)
  | value (v : Nat)
  deriving DecidableEq, Repr

/-- The field `result chan<- error` of a command: `nil`, a channel of the caller, or the channel
that `defaultHyperstartResultChan` makes, whose reader forwards the outcome to `ctx.Hub`. -/
inductive ResultChan where
  | nil
  | chan (id : Nat)
  | hub
  deriving DecidableEq, Repr

/-- The type `hyperstartCmd`. The field `Event` is left out: the dispatcher never reads it. -/
structure hyperstartCmd where
  Code : Nat
  Message : Message
  retMsg : List Byte
  result : ResultChan
  deriving DecidableEq, Repr

/-- The three errors that the dispatcher makes with `fmt.Errorf`. -/
inductive DispatchError where
  | reply (retMsg : List Byte)
  | marshal (code : Nat)
  | handle4242 (code : Nat)
  deriving DecidableEq, Repr

/-- The octets of a text of ASCII characters. -/
def ascii (s : String) : List Byte := s.toList.map (fun c => octet c.toNat 0)

/-- The text of an error: `"Error: %s"` with `string(cmd.retMsg)`, `"marshal command %d failed"`
and `"handle 4242 command %d failed"` with the code in decimal. -/
def DispatchError.Error : DispatchError → List Byte
  | .reply retMsg => ascii "Error: " ++ retMsg
  | .marshal code => ascii "marshal command " ++ ascii (toString code) ++ ascii " failed"
  | .handle4242 code => ascii "handle 4242 command " ++ ascii (toString code) ++ ascii " failed"

/-- A generic decoded JSON document, what `json.Unmarshal` stores in an `interface{}`. A number
is kept as its literal. -/
inductive JVal where
  | null
  | bool (b : Bool)
  | number (literal : String)
  | string (s : String)
  | array (items : List JVal)
  | object (fields : List (String × JVal))

/-- A `map[string]interface{}`: the keys with their values; the `nil` map is the empty list. -/
abbrev JMap := List (String × JVal)

/-- Package `encoding/json` as the dispatcher uses it, a parameter of the model: `json.Marshal`
of a command's dynamic value, `json.Unmarshal(message, &msgMap)` and `json.Marshal(msgMap)`;
`none` is a returned error. -/
structure Json where
  Marshal : Nat → Option (List Byte)
  Unmarshal : List Byte → Option JMap
  MarshalMap : JMap → Option (List Byte)

/-- The statement `if p, ok := msgMap["process"].(map[string]interface{}); ok { delete(p, "id") }`:
the map under the key `process`, when there is one, loses its key `id`. -/
def deleteProcessId : JMap → JMap
  | [] => []
  | (k, v) :: rest =>
    if k = "process" then
      match v with
      | .object p => (k, .object (p.filter (fun kv => kv.1 ≠ "id"))) :: rest
      | _ => (k, v) :: rest
    else (k, v) :: deleteProcessId rest

/-- The value a Go `int` of 64 bits holds after an addition whose exact result is `x`: the sum
wraps around in two's complement, to the range from `-2 ^ 63` to `2 ^ 63 - 1`. -/
def wrapInt (x : Int) : Int := (x + 2 ^ 63) % 2 ^ 64 - 2 ^ 63

/-- The local variables of `waitCmdToInit`; a timer variable is `true` when it is not `nil`.
`got` is the Go `int` of line 174. -/
structure State where
  looping : Bool
  cmds : List hyperstartCmd
  data : List Byte
  timeout : Bool
  index : Nat
  got : Int
  pingTimer : Bool
  pongTimer : Bool
  deriving DecidableEq, Repr

/-- The variables as `waitCmdToInit` declares them. -/
def State.init : State where
  looping := true
  cmds := []
  data := []
  timeout := false
  index := 0
  got := 0
  pingTimer := false
  pongTimer := false

/-- What the dispatcher does, in the order in which it does it. A command in an action is the
command as it came off `ctx.vm` (after line 187), which stands for the pointer.
* `result cmd retMsg err`: lines 198-203, `cmds[0].retMsg = retMsg` and `cmds[0].result <- err`
  for the head `cmd` of `cmds`;
* `pop cmd`: line 205, the head `cmd` leaves `cmds`;
* `unsolicited`: line 225, a reply with nothing pending;
* `next count`: line 229, the count of a `NEXT`;
* `retire index`: lines 234-237, the window of `index` octets is retired;
* `delay cmd`: lines 243-245, `cmd` is to be sent to `ctx.vm` again after 2 ms;
* `failed cmd err`: lines 255 and 272, `cmd.result <- err` for a command that is not framed;
* `send cmd frame`: lines 277-283, `cmd` is appended to `cmds` and its frame to `data`;
* `write p wrote`: line 293, `init.Write(p)` returned `wrote`;
* the timer calls. -/
inductive Action where
  | result (cmd : hyperstartCmd) (retMsg : List Byte) (err : Option DispatchError)
  | pop (cmd : hyperstartCmd)
  | unsolicited
  | next (count : Nat)
  | retire (index : Nat)
  | delay (cmd : hyperstartCmd)
  | failed (cmd : hyperstartCmd) (err : DispatchError)
  | send (cmd : hyperstartCmd) (frame : List Byte)
  | write (p : List Byte) (wrote : Nat)
  | pongStop
  | pingStart
  | pingReset
  | pongStart
  | pingStop
  deriving DecidableEq, Repr

/-! ## The dispatcher `waitCmdToInit`: one iteration of the loop -/

/-- Lines 186-188: a command that comes without a result channel gets the default one. -/
def withResult (cmd : hyperstartCmd) : hyperstartCmd :=
  if cmd.result = .nil then { cmd with result := .hub } else cmd

/-- Lines 191-226, the branch of a reply `INIT_ACK` or `INIT_ERROR`: the head of `cmds` gets the
payload and its result and is popped, the timers are handled; with nothing pending the reply is
only logged. -/
def handleReply (api : Opcodes) (s : State) (cmd : hyperstartCmd) : State × List Action :=
  match s.cmds with
  | head :: rest =>
    let looping := if head.Code = api.INIT_DESTROYPOD then false else s.looping
    let delivered : List Action :=
      if cmd.Code = api.INIT_ACK then
        if head.Code ≠ api.INIT_PING then [Action.result head cmd.retMsg none] else []
      else [Action.result head cmd.retMsg (some (.reply cmd.retMsg))]
    let pong := if s.pongTimer then [Action.pongStop] else []
    let ping := if s.pingTimer then [Action.pingReset] else [Action.pingStart]
    ({ s with looping := looping, cmds := rest, pongTimer := false, pingTimer := true },
      delivered ++ [Action.pop head] ++ pong ++ ping)
  | [] => (s, [Action.unsolicited])

/-- Lines 229-238, the branch of `INIT_NEXT`: the count in the first four octets of the payload
is added to `got` (`got += int(...)`, an addition of Go `int`s, which wraps around), `timeout`
is cleared, and when `index == got` the window is retired. `none`
is a panic: of `cmd.retMsg[0:4]` on a payload of fewer than four octets (the model does not
keep the capacity of slices), or of `data[index:]` with `index > len(data)`. -/
def handleNext (s : State) (cmd : hyperstartCmd) : Option (State × List Action) :=
  match uint32BE cmd.retMsg with
  | none => none
  | some count =>
    let got := wrapInt (s.got + count)
    if (s.index : Int) = got then
      if s.index ≤ s.data.length then
        some ({ s with got := 0, timeout := false, data := s.data.drop s.index, index := 0 },
          [Action.next count, Action.retire s.index])
      else none
    else
      some ({ s with got := got, timeout := false }, [Action.next count])

/-- How the branch of an outbound command ends: with `continue` (the command was put off or
refused, the rest of the body is skipped) or by going on to the writer with the command framed. -/
inductive Outbound where
  | skip (acts : List Action)
  | framed (s : State) (acts : List Action)

/-- Lines 248-275: the payload of an outbound command, or the error that is sent on its result
when an encoding step fails. -/
def encodePayload (api : Opcodes) (json : Json) (version : Nat) (cmd : hyperstartCmd) :
    Except DispatchError (List Byte) :=
  let marshalled : Option (List Byte) :=
    match cmd.Message with
    | .raw b => some b
    | .value v => json.Marshal v
  match marshalled with
  | none => .error (.marshal cmd.Code)
  | some message =>
    if version ≤ 4242 then
      let decoded : Option JMap :=
        if cmd.Code = api.INIT_EXECCMD ∨ cmd.Code = api.INIT_NEWCONTAINER then
          (json.Unmarshal message).map deleteProcessId
        else some []
      match decoded with
      | none => .error (.handle4242 cmd.Code)
      | some msgMap =>
        if msgMap.length ≠ 0 then
          match json.MarshalMap msgMap with
          | some message1 => .ok message1
          | none => .error (.handle4242 cmd.Code)
        else .ok message
    else .ok message

/-- Lines 240-285, the branch of an outbound command: the version gate, the encoding of the
payload, then `cmds = append(cmds, cmd)`, `data = append(data, NewVmMessage(msg)...)` and
`timeout = true`. -/
def handleOutbound (api : Opcodes) (json : Json) (version : Nat) (s : State)
    (cmd : hyperstartCmd) : Outbound :=
  if version = 0 ∧ (cmd.Code = api.INIT_EXECCMD ∨ cmd.Code = api.INIT_NEWCONTAINER) then
    .skip [Action.delay cmd]
  else
    match encodePayload api json version cmd with
    | .error e => .skip [Action.failed cmd e]
    | .ok message =>
      let frame := NewVmMessage { Code := cmd.Code, Message := message }
      .framed { s with cmds := s.cmds ++ [cmd], data := s.data ++ frame, timeout := true }
        [Action.send cmd frame]

/-- Lines 287-296, the writer: with nothing in flight and octets to send, at most 512 octets
from the head of `data` go to `init.Write`, and the count it returns is added to `index`. -/
def writer (s : State) (wrote : Nat) : State × List Action :=
  if s.index = 0 ∧ s.data.length ≠ 0 then
    let end_ := if s.data.length > 512 then 512 else s.data.length
    ({ s with index := s.index + wrote }, [Action.write (s.data.take end_) wrote])
  else (s, [])

/-- Lines 298-305: the pong timer is started when `timeout` is set and no pong timer runs. -/
def armPong (s : State) : State × List Action :=
  if s.timeout ∧ s.pongTimer = false then ({ s with pongTimer := true }, [Action.pongStart])
  else (s, [])

/-- Lines 227-306 after the branch of a `NEXT` or of a framed command: the writer, then the
pong timer. -/
def afterDispatch (s : State) (acts : List Action) (wrote : Nat) : State × List Action :=
  let w := writer s wrote
  let p := armPong w.1
  (p.1, acts ++ w.2 ++ p.2)

/-- The body of the loop (lines 186-306) for a command `cmd` received from `ctx.vm`, with
`version` the value of `ctx.vmHyperstartAPIVersion` and `wrote` the count that `init.Write`
returns if the body calls it. `none` is a panic. -/
def iteration (api : Opcodes) (json : Json) (version : Nat) (s : State) (cmd0 : hyperstartCmd)
    (wrote : Nat) : Option (State × List Action) :=
  let cmd := withResult cmd0
  if cmd.Code = api.INIT_ACK ∨ cmd.Code = api.INIT_ERROR then
    some (handleReply api s cmd)
  else if cmd.Code = api.INIT_NEXT then
    match handleNext s cmd with
    | none => none
    | some (s1, acts) => some (afterDispatch s1 acts wrote)
  else
    match handleOutbound api json version s cmd with
    | .skip acts => some (s, acts)
    | .framed s1 acts => some (afterDispatch s1 acts wrote)

/-- Lines 309-314, after the loop: the timers that are not `nil` are stopped. -/
def stopTimers (s : State) : List Action :=
  (if s.pingTimer then [Action.pingStop] else []) ++
    (if s.pongTimer then [Action.pongStop] else [])

/-! ## The dispatcher `waitCmdToInit`: runs -/

/-- What happens to the dispatcher from outside: a command arrives on `ctx.vm` (with the count
that `init.Write` will return if the iteration writes), `ctx.vm` is closed,
`getVMHyperstartAPIVersion` stores the version it has learned in the context, or the callback
of the ping timer has run and has set `pingTimer = nil`. -/
inductive Input where
  | recv (cmd : hyperstartCmd) (wrote : Nat)
  | closed
  | version (v : Nat)
  | pingFired
  deriving DecidableEq, Repr

/-- The dispatcher at a point of its run: the context field it reads, its variables, what it
has done so far, and whether it has left the loop. -/
structure Config where
  vmHyperstartAPIVersion : Nat
  st : State
  trace : List Action
  exited : Bool
  deriving DecidableEq, Repr

/-- The dispatcher as `waitCmdToInit` starts it, the context holding version `v`, a `uint32`. -/
def Config.init (v : Nat) : Config where
  vmHyperstartAPIVersion := v % 2 ^ 32
  st := State.init
  trace := []
  exited := false

/-- One input. A dispatcher that has left the loop does nothing more; a received command runs
the body of the loop, after which the loop ends when `looping` is false; a closed channel ends
the loop. `none` is a panic. -/
def step (api : Opcodes) (json : Json) (c : Config) : Input → Option Config
  | .recv cmd wrote =>
    if c.exited then some c
    else
      match iteration api json c.vmHyperstartAPIVersion c.st cmd wrote with
      | none => none
      | some (s, acts) =>
        if s.looping then some { c with st := s, trace := c.trace ++ acts }
        else some { c with st := s, trace := c.trace ++ acts ++ stopTimers s, exited := true }
  | .closed =>
    if c.exited then some c
    else some { c with trace := c.trace ++ stopTimers c.st, exited := true }
  | .version v => some { c with vmHyperstartAPIVersion := v % 2 ^ 32 }
  | .pingFired =>
    if c.exited then some c else some { c with st := { c.st with pingTimer := false } }

/-- A run: the inputs one after the other. -/
def run (api : Opcodes) (json : Json) : Config → List Input → Option Config
  | c, [] => some c
  | c, i :: is =>
    match step api json c i with
    | none => none
    | some c1 => run api json c1 is

/-- The function `waitCmdToInit` on a context that holds version `v`: the loop from the
variables as declared, fed with the inputs; the dispatcher at the end, `none` after a panic. -/
def waitCmdToInit (api : Opcodes) (json : Json) (v : Nat) (ins : List Input) : Option Config :=
  run api json (Config.init v) ins

/-- An `encoding/json` to run the model on: it refuses every value and every document. -/
def noJson : Json where
  Marshal := fun _ => none
  Unmarshal := fun _ => none
  MarshalMap := fun _ => none

/-! ## Reading a trace -/

/-- The commands framed, in the order of framing. -/
def sendCmds (t : List Action) : List hyperstartCmd :=
  t.filterMap (fun a => match a with
    | .send cmd _ => some cmd
    | _ => none)

/-- The octets framed, in the order of framing. -/
def sendBytes (t : List Action) : List Byte :=
  (t.filterMap (fun a => match a with
    | .send _ frame => some frame
    | _ => none)).flatten

/-- The commands popped from `cmds`, in order. -/
def pops (t : List Action) : List hyperstartCmd :=
  t.filterMap (fun a => match a with
    | .pop cmd => some cmd
    | _ => none)

/-- The commands that got a value on their result channel from a reply, in order. -/
def results (t : List Action) : List hyperstartCmd :=
  t.filterMap (fun a => match a with
    | .result cmd _ _ => some cmd
    | _ => none)

/-- Every value sent on a result channel, with the command it went to: the results of replies
and the errors of commands that were not framed. -/
def deliveries (t : List Action) : List (hyperstartCmd × Option DispatchError) :=
  t.filterMap (fun a => match a with
    | .result cmd _ err => some (cmd, err)
    | .failed cmd err => some (cmd, some err)
    | _ => none)

/-- The calls of `init.Write`: the octets offered and the count returned. -/
def writes (t : List Action) : List (List Byte × Nat) :=
  t.filterMap (fun a => match a with
    | .write p wrote => some (p, wrote)
    | _ => none)

/-- The octets that went to the socket: of each write, as many as the call reported. -/
def written (t : List Action) : List Byte :=
  ((writes t).map (fun w => w.1.take w.2)).flatten

/-- The commands put off by the version gate. -/
def delays (t : List Action) : List hyperstartCmd :=
  t.filterMap (fun a => match a with
    | .delay cmd => some cmd
    | _ => none)

/-- The sum of the `NEXT` counts in a stretch of a trace. -/
def nextSum : List Action → Nat
  | [] => 0
  | .next count :: t => count + nextSum t
  | _ :: t => nextSum t

/-- No window is retired in a stretch of a trace. -/
def noRetire (t : List Action) : Bool :=
  t.all (fun a => match a with
    | .retire _ => false
    | _ => true)

/-- No call of `init.Write` in a stretch of a trace. -/
def noWrite (t : List Action) : Bool :=
  t.all (fun a => match a with
    | .write _ _ => false
    | _ => true)

/-- The counters `(index, got)` replayed over a stretch of a trace: a write adds its count to
`index`, a `NEXT` adds its count to `got`, a retirement clears both. -/
def tally : Nat × Int → List Action → Nat × Int
  | x, [] => x
  | x, .write _ wrote :: t => tally (x.1 + wrote, x.2) t
  | x, .next count :: t => tally (x.1, wrapInt (x.2 + count)) t
  | _, .retire _ :: t => tally (0, 0) t
  | x, _ :: t => tally x t

/-- The commands received from `ctx.vm` in a list of inputs, as the loop body sees them. -/
def received (ins : List Input) : List hyperstartCmd :=
  ins.filterMap (fun i => match i with
    | .recv cmd _ => some (withResult cmd)
    | _ => none)

/-- The actions that touch neither the queue, nor the buffer, nor a result channel: the timer
calls and the log line of an unsolicited reply. -/
def isTimer : Action → Bool
  | .pongStop => true
  | .pingStart => true
  | .pingReset => true
  | .pongStart => true
  | .pingStop => true
  | .unsolicited => true
  | _ => false

/-- What the writer did in an iteration, given `index` and `data` before it: nothing and
`index` stays, or one write of at most 512 octets from the head of `data`, after which `index`
is the count of the write. -/
def Wrote (index : Nat) (data : List Byte) (wrote : Nat) (w : List Action) (index1 : Nat) : Prop :=
  (w = [] ∧ index1 = index ∧ ¬ (index = 0 ∧ data.length ≠ 0)) ∨
  (w = [Action.write (data.take (min 512 data.length)) wrote] ∧ index1 = wrote ∧
    index = 0 ∧ data.length ≠ 0)

/-! ## Properties of traces and sample runs -/

/-- A command whose frame is 608 octets long. -/
def bigPing : hyperstartCmd := ⟨12, .raw (List.replicate 600 0), [], .chan 1⟩

/-- A stretch of trace replayed from the counters `(index, got)`: every write is made with
`index == 0`, and every retirement names the `index` it retires and comes with
`index == got`. -/
def windowsOk : Nat × Int → List Action → Prop
  | _, [] => True
  | x, .write _ wrote :: t => x.1 = 0 ∧ windowsOk (x.1 + wrote, x.2) t
  | x, .next count :: t => windowsOk (x.1, wrapInt (x.2 + count)) t
  | x, .retire i :: t => (i = x.1 ∧ (x.1 : Int) = x.2) ∧ windowsOk (0, 0) t
  | x, _ :: t => windowsOk x t

/-- The actions that move the counters `index` and `got`. -/
def isCounter : Action → Bool
  | .write _ _ => true
  | .next _ => true
  | .retire _ => true
  | _ => false

/-- A `NEXT` of five octets with nothing in flight, then a command whose frame of eight octets
is written whole, then a `NEXT` of three octets. -/
def strayNext : List Input :=
  [.recv ⟨14, .raw [], [0, 0, 0, 5], .nil⟩ 0, .recv ⟨12, .raw [], [], .chan 1⟩ 8,
    .recv ⟨14, .raw [], [0, 0, 0, 3], .nil⟩ 0]

/-- Whether a command is not a `PING`. -/
def nonPing (api : Opcodes) (cmd : hyperstartCmd) : Bool := decide (cmd.Code ≠ api.INIT_PING)

/-- Every write reported a count of at most the octets it was offered. -/
def honest (t : List Action) : Prop := ∀ w ∈ writes t, w.2 ≤ w.1.length

/-- Whether the writes of a trace are honest can be computed. -/
instance (t : List Action) : Decidable (honest t) :=
  inferInstanceAs (Decidable (∀ w ∈ writes t, w.2 ≤ w.1.length))

/-- An `INIT_EXECCMD` with its own result channel. -/
def gatedExec : hyperstartCmd := ⟨6, .raw [1], [], .chan 1⟩

/-- The `INIT_VERSION` command of `getVMHyperstartAPIVersion`. -/
def versionProbe : hyperstartCmd := ⟨0, .raw [], [], .chan 2⟩

/-- An `INIT_EXECCMD` arrives before the version is known, the version probe arrives after it,
the version is stored, and the `INIT_EXECCMD` comes back from its 2 ms timer. -/
def gateRun : List Input :=
  [.recv gatedExec 0, .recv versionProbe 8, .version 4243, .recv gatedExec 0]

/-- The number of values sent on the result channel of a command in a trace. -/
def valuesFor (cmd : hyperstartCmd) (t : List Action) : Nat :=
  ((deliveries t).filter (fun d => d.1 = cmd)).length

/-- An `INIT_DESTROYPOD`, then the version probe, then one `INIT_ACK`. -/
def destroyRun : List Input :=
  [.recv ⟨4, .raw [], [], .chan 1⟩ 8, .recv versionProbe 0, .recv ⟨9, .raw [], [], .nil⟩ 0]

/-- A payload of `2^32 - 8` octets: its frame is `2^32` octets long. -/
def oversize : List Byte := List.replicate (2 ^ 32 - 8) 0

/-- The errors that `getVMHyperstartAPIVersion` returns: the error it received on the result
channel, or `fmt.Errorf("unexpected version string: %v\n", vcmd.retMsg)`. -/
inductive VersionError where
  | result (err : DispatchError)
  | unexpected (retMsg : List Byte)
  deriving DecidableEq, Repr

/-- The command `vcmd` of `getVMHyperstartAPIVersion` (lines 146-150): code `INIT_VERSION`, no
message (the `nil` value, named 0), a result channel of its own. -/
def versionCmd (api : Opcodes) (result : Nat) : hyperstartCmd where
  Code := api.INIT_VERSION
  Message := .value 0
  retMsg := []
  result := .chan result

/-- The function `getVMHyperstartAPIVersion` from line 152 on, once the dispatcher has sent `err`
on the result channel of `vcmd` and has left `retMsg` in `vcmd.retMsg`: the error returned
(`none` is `nil`) and the value of `ctx.vmHyperstartAPIVersion` afterwards. -/
def getVMHyperstartAPIVersion (vmHyperstartAPIVersion : Nat) (retMsg : List Byte)
    (err : Option DispatchError) : Option VersionError × Nat :=
  match err with
  | some e => (some (.result e), vmHyperstartAPIVersion)
  | none =>
    if retMsg.length < 4 then (some (.unexpected retMsg), vmHyperstartAPIVersion)
    else (none, (uint32BE (retMsg.take 4)).getD 0)

/-- Which of the ping timer and the pong timer run after a stretch of trace, given which ran
before it. -/
def timersAfter : Bool × Bool → List Action → Bool × Bool
  | x, [] => x
  | x, .pingStart :: t => timersAfter (true, x.2) t
  | x, .pingReset :: t => timersAfter (true, x.2) t
  | x, .pingStop :: t => timersAfter (false, x.2) t
  | x, .pongStart :: t => timersAfter (x.1, true) t
  | x, .pongStop :: t => timersAfter (x.1, false) t
  | x, _ :: t => timersAfter x t

/-- Lines 248-257: the payload of a command before the compatibility rewrite, `none` when
`json.Marshal` refuses the dynamic value. -/
def marshalled (json : Json) (cmd : hyperstartCmd) : Option (List Byte) :=
  match cmd.Message with
  | .raw b => some b
  | .value v => json.Marshal v

/-- The encoding of the payload of an outbound command fails: `json.Marshal` refuses the
dynamic value; or, where the compatibility rewrite applies (version at most 4242, code
`INIT_EXECCMD` or `INIT_NEWCONTAINER`), the payload does not parse as an object, or the object,
which is not empty, does not serialise again. -/
def EncodingFails (api : Opcodes) (json : Json) (version : Nat) (cmd : hyperstartCmd) : Prop :=
  marshalled json cmd = none ∨
  (version ≤ 4242 ∧ (cmd.Code = api.INIT_EXECCMD ∨ cmd.Code = api.INIT_NEWCONTAINER) ∧
    ∃ payload, marshalled json cmd = some payload ∧
      (json.Unmarshal payload = none ∨
        ∃ m, json.Unmarshal payload = some m ∧ m ≠ [] ∧
          json.MarshalMap (deleteProcessId m) = none))

/-- An `encoding/json` that does not parse the octet 0 and accepts any other payload as an
object with one field. -/
def pickyJson : Json where
  Marshal := fun _ => some [1]
  Unmarshal := fun b => if b = [0] then none else some [("container", .string "c1")]
  MarshalMap := fun _ => some [1]

/-- What a receive `ev, ok := <-ctx.Hub` gives: the channel is closed (`ok` false), a `nil`
event, or an event, named by a number. -/
inductive HubRead where
  | closed
  | nilEvent
  | event (ev : Nat)
  deriving DecidableEq, Repr

/-- The fields of `VmContext` that `loop` uses and what the loop did. The type is declared
outside these sources: `handler` is the state function, named by a number, `none` for `nil`;
`handled` lists the calls `ctx.handler(ctx, ev)` made, and `returned` tells whether `loop` has
returned (it has not while it waits on the Hub). -/
structure VmContext where
  handler : Option Nat
  handled : List (Nat × Nat)
  returned : Bool
  deriving DecidableEq, Repr

/-- The method `VmContext.loop` on the successive receives from the Hub. The handlers are
declared outside these sources: `become h ev` is the value that the call of handler `h` on
event `ev` leaves in `ctx.handler`. -/
def VmContext.loop (become : Nat → Nat → Option Nat) (ctx : VmContext) :
    List HubRead → VmContext
  | [] =>
    match ctx.handler with
    | none => { ctx with returned := true }
    | some _ => ctx
  | r :: rest =>
    match ctx.handler with
    | none => { ctx with returned := true }
    | some h =>
      match r with
      | .closed => { ctx with returned := true }
      | .nilEvent => VmContext.loop become ctx rest
      | .event ev =>
        VmContext.loop become
          { ctx with handler := become h ev, handled := ctx.handled ++ [(h, ev)] } rest

/-- A command whose frame is 900 octets long. -/
def frame900 : hyperstartCmd := ⟨12, .raw (List.replicate 892 0), [], .chan 1⟩

/-- The command with a frame of 900 octets, of which the socket takes 512, then a `NEXT` of 512,
after which the socket takes the other 388, then a `NEXT` of 388. -/
def flowRun : List Input :=
  [.recv frame900 512, .recv ⟨14, .raw [], [0, 0, 2, 0], .nil⟩ 388,
    .recv ⟨14, .raw [], [0, 0, 1, 132], .nil⟩ 0]

/-- A dispatcher in the loop whose window of eight octets has been overshot: `index = 8`,
`got = 10`, three more octets waiting in `data`. -/
def overshot : Config where
  vmHyperstartAPIVersion := 4243
  st := { State.init with index := 8, got := 10, data := [0, 0, 0, 12, 0, 0, 0, 8, 1, 2, 3] }
  trace := []
  exited := false

/-- A `NEXT` of two octets, a command, an `ACK`, a `NEXT` of `2 ^ 32 - 1` octets, each with a
socket that would take every octet offered. -/
def overshotRun : List Input :=
  [.recv ⟨14, .raw [], [0, 0, 0, 2], .nil⟩ 512, .recv ⟨12, .raw [7], [], .chan 1⟩ 512,
    .recv ⟨9, .raw [], [], .nil⟩ 512, .recv ⟨14, .raw [], [255, 255, 255, 255], .nil⟩ 512]

/-- A `NEXT` of two octets, with a socket that takes three octets if written to. -/
def nextTwo : Input := .recv ⟨14, .raw [], [0, 0, 0, 2], .nil⟩ 3

/-- The dispatcher `overshot` with `g` in `got` and `t` as its trace. -/
def overshotAt (g : Int) (t : List Action) : Config :=
  { overshot with st := { overshot.st with got := g }, trace := t }

/-- A state whose window of eight octets has been overshot, with `got` at the largest Go
`int`. -/
def brimful : State := { State.init with index := 8, got := 2 ^ 63 - 1 }

/-- The document `{"container":"c1","process":{"id":"p1","args":["echo"]}}`. -/
def execDoc : List Byte :=
  ascii "\x7b\"container\":\"c1\",\"process\":\x7b\"id\":\"p1\",\"args\":[\"echo\"]\x7d\x7d"

/-- The document `{"container":"c1","process":{"args":["echo"]}}`. -/
def execDocStripped : List Byte :=
  ascii "\x7b\"container\":\"c1\",\"process\":\x7b\"args\":[\"echo\"]\x7d\x7d"

/-- The object of `execDoc`. -/
def execObject : JMap :=
  [("container", .string "c1"),
    ("process", .object [("id", .string "p1"), ("args", .array [.string "echo"])])]

/-- The object of `execDocStripped`. -/
def execObjectStripped : JMap :=
  [("container", .string "c1"), ("process", .object [("args", .array [.string "echo"])])]

/-- An `encoding/json` to run the model on: it parses the two documents `execDoc` and
`execDocStripped` and serialises the object of the second. -/
def execJson : Json where
  Marshal := fun _ => none
  Unmarshal := fun b =>
    if b = execDoc then some execObject
    else if b = execDocStripped then some execObjectStripped
    else none
  MarshalMap := fun m =>
    match m with
    | [("container", .string "c1"), ("process", .object [("args", .array [.string "echo"])])] =>
      some execDocStripped
    | _ => none

/-- An `INIT_EXECCMD` whose payload is the document `execDoc`. -/
def execCmd : hyperstartCmd := ⟨6, .raw execDoc, [], .chan 1⟩

/-! ## The frame codec: lemmas -/

theorem uint32BE_putUint32 (v : Nat) (hv : v < 2 ^ 32) (rest : List Byte) :
    uint32BE (putUint32 v ++ rest) = some v := by
  simp only [putUint32, octet, uint32BE, List.cons_append, List.nil_append, Option.some.injEq]
  norm_num
  omega

theorem length_putUint32 (v : Nat) : (putUint32 v).length = 4 := rfl

theorem length_NewVmMessage (m : DecodedMessage) :
    (NewVmMessage m).length = m.Message.length + 8 := by
  simp only [NewVmMessage, List.length_append, length_putUint32]
  omega

theorem NewVmMessage_code (m : DecodedMessage) (hc : m.Code < 2 ^ 32) (rest : List Byte) :
    uint32BE (NewVmMessage m ++ rest) = some m.Code := by
  simp only [NewVmMessage, List.append_assoc]
  rw [Nat.mod_eq_of_lt hc]
  exact uint32BE_putUint32 _ hc _

theorem NewVmMessage_length_field (m : DecodedMessage) (hl : 8 + m.Message.length < 2 ^ 32)
    (rest : List Byte) :
    uint32BE ((NewVmMessage m ++ rest).drop 4) = some (m.Message.length + 8) := by
  simp only [NewVmMessage, List.append_assoc]
  rw [List.drop_left' (length_putUint32 _), Nat.mod_eq_of_lt (by omega)]
  exact uint32BE_putUint32 _ (by omega) _

theorem NewVmMessage_payload (m : DecodedMessage) : (NewVmMessage m).drop 8 = m.Message := by
  simp only [NewVmMessage]
  exact List.drop_left' (by simp [length_putUint32])

theorem Read_spec (conn : UnixConn) (want : Nat) (hw : 0 < want) (h : conn.stream ≠ []) :
    ∃ nr, nr ≤ want ∧ nr ≤ conn.stream.length ∧
      (conn.stream.length - nr) + conn.ready.tail.length < conn.stream.length + conn.ready.length ∧
      conn.Read want =
        .ok (conn.stream.take nr, { stream := conn.stream.drop nr, ready := conn.ready.tail }) := by
  have hpos : 0 < conn.stream.length := List.length_pos.mpr h
  cases hr : conn.ready with
  | nil =>
    refine ⟨min want (min want conn.stream.length), by omega, by omega, ?_, ?_⟩
    · simp only [List.tail_nil, List.length_nil]; omega
    · simp [UnixConn.Read, h, hr]
  | cons k t =>
    refine ⟨min want (min k conn.stream.length), by omega, by omega, ?_, ?_⟩
    · simp only [List.tail_cons, List.length_cons]; omega
    · simp [UnixConn.Read, h, hr]

/-- The loop of `ReadVmMessage` started anywhere inside a frame that heads the stream reads to
the end of the frame, returns its message and leaves the octets after the frame. -/
theorem readLoop_frame (m : DecodedMessage) (hc : m.Code < 2 ^ 32)
    (hl : 8 + m.Message.length < 2 ^ 32) (rest : List Byte) :
    ∀ (fuel : Nat) (conn : UnixConn) (needRead length read : Nat) (res : List Byte),
      conn.stream.length + conn.ready.length < fuel →
      res = (NewVmMessage m).take read →
      conn.stream = (NewVmMessage m).drop read ++ rest →
      read ≤ needRead →
      ((length = 0 ∧ read < 8 ∧ needRead = 8) ∨
        (length = m.Message.length + 8 ∧ needRead = m.Message.length + 8 ∧ 8 ≤ read)) →
      ∃ k, readLoop fuel conn needRead length read res =
        .ok (m, { stream := rest, ready := conn.ready.drop k }) := by
  intro fuel
  induction fuel with
  | zero => intro conn _ _ _ _ h; omega
  | succ fuel ih =>
    intro conn needRead length read res hfuel hres hstream hle hph
    have hF := length_NewVmMessage m
    rw [readLoop]
    by_cases hlt : read < needRead
    · rw [if_pos hlt]
      have hneed : needRead ≤ m.Message.length + 8 := by
        rcases hph with ⟨_, _, h8⟩ | ⟨_, h8, _⟩ <;> omega
      have hslen : conn.stream.length = m.Message.length + 8 - read + rest.length := by
        rw [hstream, List.length_append, List.length_drop, hF]
      have hne : conn.stream ≠ [] := by
        intro h0; rw [h0] at hslen; simp at hslen; omega
      obtain ⟨nr, hnr1, hnr2, hmeas, hread⟩ := Read_spec conn
        (if needRead - read > 512 then 512 else needRead - read) (by split <;> omega) hne
      have hnr3 : nr ≤ needRead - read := by
        split at hnr1 <;> omega
      have htake : res ++ conn.stream.take nr = (NewVmMessage m).take (read + nr) := by
        rw [hres, hstream, List.take_add,
          List.take_append_of_le_length (by rw [List.length_drop, hF]; omega)]
      have hdrop : conn.stream.drop nr = (NewVmMessage m).drop (read + nr) ++ rest := by
        rw [hstream, List.drop_append_of_le_length (by rw [List.length_drop, hF]; omega),
          List.drop_drop]
      have hlen : (conn.stream.take nr).length = nr := by
        rw [List.length_take]; omega
      simp only [hread, hlen, htake]
      have hfuel1 : (conn.stream.drop nr).length + conn.ready.tail.length < fuel := by
        rw [List.length_drop]; omega
      have hk : ∀ k, (conn.ready.tail).drop k = conn.ready.drop (k + 1) := by
        intro k; cases conn.ready <;> simp
      rcases hph with ⟨h0, hr8, hn8⟩ | ⟨hL, hnL, hr8⟩
      · by_cases h8 : read + nr ≥ 8
        · rw [if_pos ⟨h0, h8⟩]
          have hrn : read + nr = 8 := by omega
          have hfield : uint32BE (((NewVmMessage m).take (read + nr)).drop 4) =
              some (m.Message.length + 8) := by
            have := NewVmMessage_length_field m hl []
            rw [List.append_nil] at this
            rw [hrn, List.drop_take]
            rw [← this]
            have h4 : ((NewVmMessage m).drop 4).length = m.Message.length + 4 := by
              rw [List.length_drop, hF]; omega
            generalize (NewVmMessage m).drop 4 = l at h4 ⊢
            match l, h4 with
            | b0 :: b1 :: b2 :: b3 :: t, _ => simp [uint32BE]
          simp only [hfield, Option.getD_some]
          by_cases hgt : m.Message.length + 8 > 8
          · rw [if_pos hgt]
            obtain ⟨k, hk1⟩ := ih ⟨conn.stream.drop nr, conn.ready.tail⟩ (m.Message.length + 8)
              (m.Message.length + 8) (read + nr) _ hfuel1 rfl hdrop (by omega)
              (Or.inr ⟨rfl, rfl, by omega⟩)
            exact ⟨k + 1, by rw [hk1, hk]⟩
          · rw [if_neg hgt]
            obtain ⟨k, hk1⟩ := ih ⟨conn.stream.drop nr, conn.ready.tail⟩ needRead
              (m.Message.length + 8) (read + nr) _ hfuel1 rfl hdrop (by omega)
              (Or.inr ⟨rfl, by omega, by omega⟩)
            exact ⟨k + 1, by rw [hk1, hk]⟩
        · rw [if_neg (fun h => h8 h.2)]
          obtain ⟨k, hk1⟩ := ih ⟨conn.stream.drop nr, conn.ready.tail⟩ needRead length
            (read + nr) _ hfuel1 rfl hdrop (by omega) (Or.inl ⟨h0, by omega, hn8⟩)
          exact ⟨k + 1, by rw [hk1, hk]⟩
      · rw [if_neg (fun h => by omega)]
        obtain ⟨k, hk1⟩ := ih ⟨conn.stream.drop nr, conn.ready.tail⟩ needRead length
          (read + nr) _ hfuel1 rfl hdrop (by omega) (Or.inr ⟨hL, hnL, by omega⟩)
        exact ⟨k + 1, by rw [hk1, hk]⟩
    · rw [if_neg hlt]
      rcases hph with ⟨_, hr8, hn8⟩ | ⟨hL, hnL, hr8⟩
      · omega
      · have hrd : read = m.Message.length + 8 := by omega
        have hres1 : res = NewVmMessage m := by
          rw [hres]; exact List.take_of_length_le (by omega)
        have hs1 : conn.stream = rest := by
          rw [hstream, List.drop_of_length_le (by omega), List.nil_append]
        refine ⟨0, ?_⟩
        have hcode := NewVmMessage_code m hc []
        rw [List.append_nil] at hcode
        rw [hres1, hcode, NewVmMessage_payload, List.drop_zero, ← hs1]
        rfl

/-- One call of `ReadVmMessage` on a stream that starts with a frame returns the message of the
frame and leaves the stream right after the frame. -/
theorem ReadVmMessage_frame (m : DecodedMessage) (hc : m.Code < 2 ^ 32)
    (hl : 8 + m.Message.length < 2 ^ 32) (rest : List Byte) (ready : List Nat) :
    ∃ k, ReadVmMessage { stream := NewVmMessage m ++ rest, ready := ready } =
      .ok (m, { stream := rest, ready := ready.drop k }) := by
  unfold ReadVmMessage
  exact readLoop_frame m hc hl rest _ { stream := NewVmMessage m ++ rest, ready := ready } 8 0 0 []
    (Nat.lt_succ_self _) (by simp) (by simp) (by omega) (Or.inl ⟨rfl, by omega, rfl⟩)

/-- The iteration budget of `readLoop` is never used up when it starts above the number of
octets and of short reads that the connection holds. -/
theorem readLoop_not_stuck :
    ∀ (fuel : Nat) (conn : UnixConn) (needRead length read : Nat) (res : List Byte),
      conn.stream.length + conn.ready.length < fuel →
      readLoop fuel conn needRead length read res ≠ .error .stuck := by
  intro fuel
  induction fuel with
  | zero => intro conn _ _ _ _ h; omega
  | succ fuel ih =>
    intro conn needRead length read res hfuel
    rw [readLoop]
    by_cases hlt : read < needRead
    · rw [if_pos hlt]
      by_cases hne : conn.stream = []
      · simp [UnixConn.Read, hne]
      · obtain ⟨nr, _, _, hmeas, hread⟩ := Read_spec conn
          (if needRead - read > 512 then 512 else needRead - read) (by split <;> omega) hne
        have hfuel1 : (conn.stream.drop nr).length + conn.ready.tail.length < fuel := by
          rw [List.length_drop]; omega
        simp only [hread]
        split
        · split
          · exact ih _ _ _ _ _ hfuel1
          · exact ih _ _ _ _ _ hfuel1
        · exact ih _ _ _ _ _ hfuel1
    · rw [if_neg hlt]; simp

/-- The function `ReadVmMessage` always comes back: with a message or with the error of a
`Read`. -/
theorem ReadVmMessage_not_stuck (conn : UnixConn) : ReadVmMessage conn ≠ .error .stuck :=
  readLoop_not_stuck _ conn 8 0 0 [] (Nat.lt_succ_self _)

/-! ## The frame codec: the properties -/

/-- C1. Round trip: for every `uint32` code and every payload, the empty one included, with
`8 + len(payload) < 2^32`, and for every way in which the socket hands out the octets in short
reads, `ReadVmMessage` on a stream that holds `NewVmMessage(code, payload)` returns, without
error, the message `(code, payload)`, and has read the whole stream. -/
theorem C1_round_trip (code : Nat) (payload : List Byte) (ready : List Nat)
    (hcode : code < 2 ^ 32) (hlen : 8 + payload.length < 2 ^ 32) :
    ∃ conn1, ReadVmMessage
        { stream := NewVmMessage { Code := code, Message := payload }, ready := ready } =
      .ok ({ Code := code, Message := payload }, conn1) ∧ conn1.stream = [] := by
  obtain ⟨k, hk⟩ := ReadVmMessage_frame { Code := code, Message := payload } hcode hlen [] ready
  rw [List.append_nil] at hk
  exact ⟨_, hk, rfl⟩

/-- C1, at the empty payload read one octet at a time. -/
theorem C1_round_trip_witness :
    ∃ conn1, ReadVmMessage
        { stream := NewVmMessage { Code := 9, Message := [] },
          ready := [1, 1, 1, 1, 1, 1, 1, 1] } =
      .ok ({ Code := 9, Message := [] }, conn1) ∧ conn1.stream = [] :=
  C1_round_trip 9 [] [1, 1, 1, 1, 1, 1, 1, 1] (by decide) (by decide)

/-- C2. Wire layout: for every `uint32` code and every payload with `8 + len(payload) < 2^32`,
`NewVmMessage` returns `8 + len(payload)` octets: the code big endian in octets 0..3, the total
length `8 + len(payload)` big endian in octets 4..7, and the payload from octet 8 on. -/
theorem C2_wire_layout (code : Nat) (payload : List Byte)
    (hcode : code < 2 ^ 32) (hlen : 8 + payload.length < 2 ^ 32) :
    (NewVmMessage { Code := code, Message := payload }).length = 8 + payload.length ∧
    ((NewVmMessage { Code := code, Message := payload }).take 8).map Fin.val =
      [code / 2 ^ 24 % 256, code / 2 ^ 16 % 256, code / 2 ^ 8 % 256, code % 256,
        (8 + payload.length) / 2 ^ 24 % 256, (8 + payload.length) / 2 ^ 16 % 256,
        (8 + payload.length) / 2 ^ 8 % 256, (8 + payload.length) % 256] ∧
    (NewVmMessage { Code := code, Message := payload }).drop 8 = payload := by
  refine ⟨by rw [length_NewVmMessage]; exact Nat.add_comm _ _, ?_, NewVmMessage_payload _⟩
  have h1 : payload.length + 8 = 8 + payload.length := by omega
  simp only [NewVmMessage, putUint32, octet, Nat.mod_eq_of_lt hcode, h1, Nat.mod_eq_of_lt hlen]
  simp

/-- C2, at code 9 with a payload of three octets. -/
theorem C2_wire_layout_witness :
    (NewVmMessage { Code := 9, Message := [1, 2, 3] }).length = 8 + 3 ∧
    ((NewVmMessage { Code := 9, Message := [1, 2, 3] }).take 8).map Fin.val =
      [9 / 2 ^ 24 % 256, 9 / 2 ^ 16 % 256, 9 / 2 ^ 8 % 256, 9 % 256,
        (8 + 3) / 2 ^ 24 % 256, (8 + 3) / 2 ^ 16 % 256, (8 + 3) / 2 ^ 8 % 256, (8 + 3) % 256] ∧
    (NewVmMessage { Code := 9, Message := [1, 2, 3] }).drop 8 = [1, 2, 3] :=
  C2_wire_layout 9 [1, 2, 3] (by decide) (by decide)

/-- C3, amended. Sequence round trip: for every finite list of messages with `uint32` codes and
`8 + len(payload) < 2^32` each, calling `ReadVmMessage` as many times as there are messages on a
stream that starts with their frames one after the other yields the messages in order, and
leaves exactly the octets that follow the last frame: no call reads into the next frame. -/
theorem C3_sequence_round_trip (ms : List DecodedMessage)
    (hms : ∀ m ∈ ms, m.Code < 2 ^ 32 ∧ 8 + m.Message.length < 2 ^ 32) :
    ∀ (rest : List Byte) (ready : List Nat),
      ∃ k, readMessages ms.length { stream := frames ms ++ rest, ready := ready } =
        .ok (ms, { stream := rest, ready := ready.drop k }) := by
  induction ms with
  | nil => intro rest ready; exact ⟨0, by simp [readMessages, frames]⟩
  | cons m ms ih =>
    intro rest ready
    have hm := hms m (List.mem_cons_self _ _)
    obtain ⟨k1, h1⟩ := ReadVmMessage_frame m hm.1 hm.2 (frames ms ++ rest) ready
    obtain ⟨k2, h2⟩ := ih (fun x hx => hms x (List.mem_cons_of_mem _ hx)) rest (ready.drop k1)
    refine ⟨k1 + k2, ?_⟩
    have hfr : frames (m :: ms) ++ rest = NewVmMessage m ++ (frames ms ++ rest) := by
      simp [frames]
    rw [List.length_cons, readMessages, hfr, h1]
    simp only [h2, List.drop_drop]

/-- C3, at two messages followed by one more octet, read three octets at a time. -/
theorem C3_sequence_round_trip_witness :
    ∃ k, readMessages [(⟨9, [1, 2, 3]⟩ : DecodedMessage), ⟨14, []⟩].length
        { stream := frames [⟨9, [1, 2, 3]⟩, ⟨14, []⟩] ++ [7], ready := [3, 3, 3, 3, 3, 3, 3] } =
      .ok ([⟨9, [1, 2, 3]⟩, ⟨14, []⟩],
        { stream := [7], ready := ([3, 3, 3, 3, 3, 3, 3] : List Nat).drop k }) :=
  C3_sequence_round_trip [⟨9, [1, 2, 3]⟩, ⟨14, []⟩] (by decide) [7] [3, 3, 3, 3, 3, 3, 3]

theorem oversize_length : oversize.length = 2 ^ 32 - 8 := List.length_replicate _ _

/-- A header whose length field is zero ends the read after eight octets. -/
theorem readLoop_zero_header (fuel : Nat) (t : List Byte) :
    readLoop (fuel + 2) { stream := [0, 0, 0, 0, 0, 0, 0, 0] ++ t, ready := [] } 8 0 0 [] =
      .ok ({ Code := 0, Message := [] }, { stream := t, ready := [] }) := by
  rw [readLoop]
  simp [UnixConn.Read, uint32BE]
  rw [readLoop]
  simp [uint32BE]

/-- A payload whose frame length is a multiple of `2^32` is framed with a length field of
zero; the read then stops after the header and leaves the payload on the stream. -/
theorem readMessages_wrapped (t : List Byte) (h : (t.length + 8) % 2 ^ 32 = 0) :
    readMessages 1 { stream := frames [{ Code := 0, Message := t }], ready := [] } =
      .ok ([{ Code := 0, Message := [] }], { stream := t, ready := [] }) := by
  have hfr : frames [{ Code := 0, Message := t }] = [0, 0, 0, 0, 0, 0, 0, 0] ++ t := by
    simp only [frames, List.map_cons, List.map_nil, List.flatten_cons, List.flatten_nil,
      List.append_nil, NewVmMessage, h]
    rfl
  have hfuel : ([0, 0, 0, 0, 0, 0, 0, 0] ++ t : List Byte).length +
      ([] : List Nat).length + 1 = (t.length + 7) + 2 := by
    simp only [List.length_append, List.length_cons, List.length_nil]
    omega
  rw [readMessages, hfr, ReadVmMessage]
  simp only [hfuel, readLoop_zero_header, readMessages]

theorem oversize_wraps : (oversize.length + 8) % 2 ^ 32 = 0 := by
  rw [oversize_length]; norm_num

theorem oversize_ne_nil : oversize ≠ [] := by
  intro h
  have h1 := congrArg List.length h
  rw [oversize_length] at h1
  simp at h1

/-- C3 as stated fails on a message whose frame is `2^32` octets long: the length field of the
frame wraps to zero, the read returns a message with an empty payload after eight octets, and
the payload stays on the stream, ahead of the next frame. -/
theorem C3_counterexample :
    readMessages 1 { stream := frames [{ Code := 0, Message := oversize }], ready := [] } =
      .ok ([{ Code := 0, Message := [] }], { stream := oversize, ready := [] }) ∧
    ({ Code := 0, Message := [] } : DecodedMessage) ≠ { Code := 0, Message := oversize } :=
  ⟨readMessages_wrapped oversize oversize_wraps,
    fun h => oversize_ne_nil (DecodedMessage.mk.inj h).2.symm⟩

/-! ## The dispatcher: lemmas -/

theorem withResult_Code (cmd : hyperstartCmd) : (withResult cmd).Code = cmd.Code := by
  unfold withResult; split <;> rfl

theorem withResult_retMsg (cmd : hyperstartCmd) : (withResult cmd).retMsg = cmd.retMsg := by
  unfold withResult; split <;> rfl

theorem withResult_Message (cmd : hyperstartCmd) : (withResult cmd).Message = cmd.Message := by
  unfold withResult; split <;> rfl

theorem distinct_ne (api : Opcodes) (h : api.distinct) :
    api.INIT_ACK ≠ api.INIT_ERROR ∧ api.INIT_NEXT ≠ api.INIT_ACK ∧
    api.INIT_NEXT ≠ api.INIT_ERROR ∧ api.INIT_EXECCMD ≠ api.INIT_ACK ∧
    api.INIT_EXECCMD ≠ api.INIT_ERROR ∧ api.INIT_EXECCMD ≠ api.INIT_NEXT ∧
    api.INIT_NEWCONTAINER ≠ api.INIT_ACK ∧ api.INIT_NEWCONTAINER ≠ api.INIT_ERROR ∧
    api.INIT_NEWCONTAINER ≠ api.INIT_NEXT := by
  have h1 := h.1
  simp only [List.nodup_cons, List.mem_cons, List.mem_singleton, not_or] at h1
  refine ⟨?_, ?_, ?_, ?_, ?_, ?_, ?_, ?_, ?_⟩ <;> intro e <;> simp_all

theorem sendCmds_append (a b : List Action) : sendCmds (a ++ b) = sendCmds a ++ sendCmds b :=
  List.filterMap_append _ _ _

theorem sendBytes_append (a b : List Action) :
    sendBytes (a ++ b) = sendBytes a ++ sendBytes b := by
  simp only [sendBytes, List.filterMap_append, List.flatten_append]

theorem pops_append (a b : List Action) : pops (a ++ b) = pops a ++ pops b :=
  List.filterMap_append _ _ _

theorem results_append (a b : List Action) : results (a ++ b) = results a ++ results b :=
  List.filterMap_append _ _ _

theorem deliveries_append (a b : List Action) :
    deliveries (a ++ b) = deliveries a ++ deliveries b :=
  List.filterMap_append _ _ _

theorem writes_append (a b : List Action) : writes (a ++ b) = writes a ++ writes b :=
  List.filterMap_append _ _ _

theorem written_append (a b : List Action) : written (a ++ b) = written a ++ written b := by
  simp only [written, writes_append, List.map_append, List.flatten_append]

theorem delays_append (a b : List Action) : delays (a ++ b) = delays a ++ delays b :=
  List.filterMap_append _ _ _

/-- The writer changes `index` only, and only by the count of the write. -/
theorem writer_spec (s : State) (wrote : Nat) :
    (writer s wrote = (s, []) ∧ ¬ (s.index = 0 ∧ s.data.length ≠ 0)) ∨
    (writer s wrote = ({ s with index := wrote },
        [Action.write (s.data.take (min 512 s.data.length)) wrote]) ∧
      s.index = 0 ∧ s.data.length ≠ 0) := by
  unfold writer
  by_cases h : s.index = 0 ∧ s.data.length ≠ 0
  · right
    rw [if_pos h]
    refine ⟨?_, h⟩
    have h1 : (if s.data.length > 512 then 512 else s.data.length) = min 512 s.data.length := by
      split <;> omega
    rw [h1, h.1, Nat.zero_add]
  · left
    rw [if_neg h]
    exact ⟨rfl, h⟩

/-- The step `armPong` changes `pongTimer` only. -/
theorem armPong_spec (s : State) :
    armPong s = (s, []) ∨ armPong s = ({ s with pongTimer := true }, [Action.pongStart]) := by
  unfold armPong
  split
  · right; rfl
  · left; rfl

/-- After the branch of a `NEXT` or of a framed command: the actions of the branch, then at most
one write, then at most the start of the pong timer; only `index` and `pongTimer` change. -/
theorem afterDispatch_spec (s : State) (acts : List Action) (wrote : Nat) :
    ∃ (s1 : State) (w p : List Action), afterDispatch s acts wrote = (s1, acts ++ w ++ p) ∧
      (p = [] ∨ p = [Action.pongStart]) ∧
      s1.looping = s.looping ∧ s1.cmds = s.cmds ∧ s1.data = s.data ∧ s1.got = s.got ∧
      s1.timeout = s.timeout ∧ s1.pingTimer = s.pingTimer ∧
      ((w = [] ∧ s1.index = s.index ∧ ¬ (s.index = 0 ∧ s.data.length ≠ 0)) ∨
        (w = [Action.write (s.data.take (min 512 s.data.length)) wrote] ∧ s1.index = wrote ∧
          s.index = 0 ∧ s.data.length ≠ 0)) := by
  unfold afterDispatch
  rcases writer_spec s wrote with ⟨hw, hc⟩ | ⟨hw, hc⟩
  · rcases armPong_spec s with hp | hp
    · simp only [hw, hp]
      exact ⟨_, [], [], rfl, Or.inl rfl, rfl, rfl, rfl, rfl, rfl, rfl, Or.inl ⟨rfl, rfl, hc⟩⟩
    · simp only [hw, hp]
      exact ⟨_, [], _, rfl, Or.inr rfl, rfl, rfl, rfl, rfl, rfl, rfl, Or.inl ⟨rfl, rfl, hc⟩⟩
  · rcases armPong_spec { s with index := wrote } with hp | hp
    · simp only [hw, hp]
      exact ⟨_, _, [], rfl, Or.inl rfl, rfl, rfl, rfl, rfl, rfl, rfl, Or.inr ⟨rfl, rfl, hc⟩⟩
    · simp only [hw, hp]
      exact ⟨_, _, _, rfl, Or.inr rfl, rfl, rfl, rfl, rfl, rfl, rfl, Or.inr ⟨rfl, rfl, hc⟩⟩

theorem iteration_reply (api : Opcodes) (json : Json) (version : Nat) (s : State)
    (cmd : hyperstartCmd) (wrote : Nat)
    (hcode : cmd.Code = api.INIT_ACK ∨ cmd.Code = api.INIT_ERROR) :
    iteration api json version s cmd wrote = some (handleReply api s (withResult cmd)) := by
  unfold iteration
  simp only [withResult_Code, hcode, if_true]

theorem afterDispatch_cases (s : State) (acts : List Action) (wrote : Nat) :
    ∃ (s1 : State) (w p : List Action), afterDispatch s acts wrote = (s1, acts ++ (w ++ p)) ∧
      p.all isTimer = true ∧
      s1.looping = s.looping ∧ s1.cmds = s.cmds ∧ s1.data = s.data ∧ s1.got = s.got ∧
      Wrote s.index s.data wrote w s1.index := by
  obtain ⟨s1, w, p, h, hp, h1, h2, h3, h4, -, -, hw⟩ := afterDispatch_spec s acts wrote
  refine ⟨s1, w, p, by rw [h, List.append_assoc], ?_, h1, h2, h3, h4, hw⟩
  rcases hp with rfl | rfl <;> rfl

theorem handleOutbound_cases (api : Opcodes) (json : Json) (version : Nat) (s : State)
    (cmd : hyperstartCmd) :
    handleOutbound api json version s cmd = .skip [Action.delay cmd] ∨
    (∃ e, handleOutbound api json version s cmd = .skip [Action.failed cmd e]) ∨
    (∃ message, handleOutbound api json version s cmd =
      .framed { s with cmds := s.cmds ++ [cmd],
                       data := s.data ++ NewVmMessage { Code := cmd.Code, Message := message },
                       timeout := true }
        [Action.send cmd (NewVmMessage { Code := cmd.Code, Message := message })]) := by
  unfold handleOutbound
  split
  · exact Or.inl rfl
  · cases encodePayload api json version cmd with
    | error e => exact Or.inr (Or.inl ⟨e, rfl⟩)
    | ok message => exact Or.inr (Or.inr ⟨message, rfl⟩)

theorem iteration_cases (api : Opcodes) (json : Json) (version : Nat) (s : State)
    (cmd : hyperstartCmd) (wrote : Nat) (s1 : State) (acts : List Action)
    (h : iteration api json version s cmd wrote = some (s1, acts)) :
    (∃ head rest d t, s.cmds = head :: rest ∧
      ((d = [] ∧ head.Code = api.INIT_PING) ∨ ∃ e, d = [Action.result head cmd.retMsg e]) ∧
      t.all isTimer = true ∧ acts = d ++ Action.pop head :: t ∧
      s1.cmds = rest ∧ s1.data = s.data ∧ s1.index = s.index ∧ s1.got = s.got ∧
      s1.looping = (if head.Code = api.INIT_DESTROYPOD then false else s.looping)) ∨
    (s1 = s ∧ (acts = [Action.unsolicited] ∨ acts = [Action.delay (withResult cmd)] ∨
      ∃ e, acts = [Action.failed (withResult cmd) e])) ∨
    (∃ count w p, acts = Action.next count :: (w ++ p) ∧ p.all isTimer = true ∧
      (s.index : Int) ≠ wrapInt (s.got + count) ∧ s1.cmds = s.cmds ∧ s1.data = s.data ∧
      s1.got = wrapInt (s.got + count) ∧ s1.looping = s.looping ∧
      Wrote s.index s.data wrote w s1.index) ∨
    (∃ count w p, acts = Action.next count :: Action.retire s.index :: (w ++ p) ∧
      p.all isTimer = true ∧ (s.index : Int) = wrapInt (s.got + count) ∧
      s.index ≤ s.data.length ∧
      s1.cmds = s.cmds ∧ s1.data = s.data.drop s.index ∧ s1.got = 0 ∧
      s1.looping = s.looping ∧ Wrote 0 (s.data.drop s.index) wrote w s1.index) ∨
    (∃ message w p,
      acts = Action.send (withResult cmd)
        (NewVmMessage { Code := cmd.Code, Message := message }) :: (w ++ p) ∧
      p.all isTimer = true ∧ s1.cmds = s.cmds ++ [withResult cmd] ∧
      s1.data = s.data ++ NewVmMessage { Code := cmd.Code, Message := message } ∧
      s1.got = s.got ∧ s1.looping = s.looping ∧
      Wrote s.index (s.data ++ NewVmMessage { Code := cmd.Code, Message := message }) wrote w
        s1.index) := by
  unfold iteration at h
  simp only [withResult_Code] at h
  split at h
  · -- a reply
    simp only [Option.some.injEq] at h
    unfold handleReply at h
    cases hc : s.cmds with
    | nil =>
      simp only [hc, Prod.mk.injEq] at h
      exact Or.inr (Or.inl ⟨h.1.symm, Or.inl h.2.symm⟩)
    | cons head rest =>
      simp only [hc, Prod.mk.injEq, withResult_Code, withResult_retMsg] at h
      obtain ⟨hs, ha⟩ := h
      refine Or.inl ⟨head, rest,
        (if cmd.Code = api.INIT_ACK then
          if head.Code ≠ api.INIT_PING then [Action.result head cmd.retMsg none] else []
        else [Action.result head cmd.retMsg (some (.reply cmd.retMsg))]),
        ((if s.pongTimer = true then [Action.pongStop] else []) ++
          (if s.pingTimer = true then [Action.pingReset] else [Action.pingStart])),
        rfl, ?_, ?_, ?_, ?_⟩
      pick_goal 3
      · rw [← ha]
        simp only [List.append_assoc, List.singleton_append, List.cons_append, List.nil_append]
      · by_cases h1 : cmd.Code = api.INIT_ACK
        · by_cases h2 : head.Code = api.INIT_PING
          · left; simp [h1, h2]
          · right; exact ⟨none, by simp [h1, h2]⟩
        · right; exact ⟨some (.reply cmd.retMsg), by simp [h1]⟩
      · cases s.pongTimer <;> cases s.pingTimer <;> rfl
      · rw [← hs]; exact ⟨rfl, rfl, rfl, rfl, rfl⟩
  · split at h
    · -- a NEXT
      cases hn : handleNext s (withResult cmd) with
      | none => simp [hn] at h
      | some r =>
        obtain ⟨s0, a0⟩ := r
        simp only [hn, Option.some.injEq] at h
        obtain ⟨s2, w, p, had, hp, hl, hcm, hd, hg, hw⟩ := afterDispatch_cases s0 a0 wrote
        rw [had, Prod.mk.injEq] at h
        obtain ⟨rfl, rfl⟩ := h
        unfold handleNext at hn
        cases hu : uint32BE (withResult cmd).retMsg with
        | none => simp [hu] at hn
        | some count =>
          simp only [hu] at hn
          by_cases hi : (s.index : Int) = wrapInt (s.got + count)
          · rw [if_pos hi] at hn
            by_cases hb : s.index ≤ s.data.length
            · rw [if_pos hb, Option.some.injEq, Prod.mk.injEq] at hn
              obtain ⟨rfl, rfl⟩ := hn
              exact Or.inr (Or.inr (Or.inr (Or.inl
                ⟨count, w, p, rfl, hp, hi, hb, hcm, hd, hg, hl, hw⟩)))
            · rw [if_neg hb] at hn; exact absurd hn (by simp)
          · rw [if_neg hi, Option.some.injEq, Prod.mk.injEq] at hn
            obtain ⟨rfl, rfl⟩ := hn
            exact Or.inr (Or.inr (Or.inl ⟨count, w, p, rfl, hp, hi, hcm, hd, hg, hl, hw⟩))
    · -- an outbound command
      rcases handleOutbound_cases api json version s (withResult cmd) with ho | ⟨e, ho⟩ |
        ⟨message, ho⟩
      · simp only [ho, Option.some.injEq, Prod.mk.injEq] at h
        exact Or.inr (Or.inl ⟨h.1.symm, Or.inr (Or.inl h.2.symm)⟩)
      · simp only [ho, Option.some.injEq, Prod.mk.injEq] at h
        exact Or.inr (Or.inl ⟨h.1.symm, Or.inr (Or.inr ⟨e, h.2.symm⟩)⟩)
      · simp only [ho, Option.some.injEq, withResult_Code] at h
        obtain ⟨s2, w, p, had, hp, hl, hcm, hd, hg, hw⟩ := afterDispatch_cases
          { s with cmds := s.cmds ++ [withResult cmd],
                   data := s.data ++ NewVmMessage { Code := cmd.Code, Message := message },
                   timeout := true }
          [Action.send (withResult cmd)
            (NewVmMessage { Code := cmd.Code, Message := message })] wrote
        rw [had, Prod.mk.injEq] at h
        obtain ⟨rfl, rfl⟩ := h
        exact Or.inr (Or.inr (Or.inr (Or.inr
          ⟨message, w, p, rfl, hp, hcm, hd, hg, hl, hw⟩)))

theorem isTimer_append (a b : List Action) (ha : a.all isTimer = true)
    (hb : b.all isTimer = true) : (a ++ b).all isTimer = true := by
  rw [List.all_append, ha, hb]; rfl

theorem stopTimers_isTimer (s : State) : (stopTimers s).all isTimer = true := by
  unfold stopTimers
  cases s.pingTimer <;> cases s.pongTimer <;> rfl

/-- What one input does to the trace and to the queue, the buffer and the counters: nothing
but timer calls; or one of the five ways through the body of the loop. -/
theorem step_cases (api : Opcodes) (json : Json) (c c1 : Config) (i : Input)
    (h : step api json c i = some c1) :
    ∃ acts, c1.trace = c.trace ++ acts ∧
    ((acts.all isTimer = true ∧ c1.st.cmds = c.st.cmds ∧ c1.st.data = c.st.data ∧
        c1.st.index = c.st.index ∧ c1.st.got = c.st.got) ∨
      ∃ cmd wrote, i = .recv cmd wrote ∧ c.exited = false ∧
      ((∃ head rest d t, c.st.cmds = head :: rest ∧
        ((d = [] ∧ head.Code = api.INIT_PING) ∨ ∃ e, d = [Action.result head cmd.retMsg e]) ∧
        t.all isTimer = true ∧ acts = d ++ Action.pop head :: t ∧
        c1.st.cmds = rest ∧ c1.st.data = c.st.data ∧ c1.st.index = c.st.index ∧
        c1.st.got = c.st.got ∧
        c1.exited = (if head.Code = api.INIT_DESTROYPOD then true else !c.st.looping)) ∨
      (c1.st = c.st ∧ ∃ t, t.all isTimer = true ∧
        (acts = Action.delay (withResult cmd) :: t ∨
          ∃ e, acts = Action.failed (withResult cmd) e :: t)) ∨
      (∃ count w p, acts = Action.next count :: (w ++ p) ∧ p.all isTimer = true ∧
        (c.st.index : Int) ≠ wrapInt (c.st.got + count) ∧ c1.st.cmds = c.st.cmds ∧
        c1.st.data = c.st.data ∧ c1.st.got = wrapInt (c.st.got + count) ∧
        Wrote c.st.index c.st.data wrote w c1.st.index) ∨
      (∃ count w p, acts = Action.next count :: Action.retire c.st.index :: (w ++ p) ∧
        p.all isTimer = true ∧ (c.st.index : Int) = wrapInt (c.st.got + count) ∧
        c.st.index ≤ c.st.data.length ∧
        c1.st.cmds = c.st.cmds ∧ c1.st.data = c.st.data.drop c.st.index ∧ c1.st.got = 0 ∧
        Wrote 0 (c.st.data.drop c.st.index) wrote w c1.st.index) ∨
      (∃ message w p,
        acts = Action.send (withResult cmd)
          (NewVmMessage { Code := cmd.Code, Message := message }) :: (w ++ p) ∧
        p.all isTimer = true ∧ c1.st.cmds = c.st.cmds ++ [withResult cmd] ∧
        c1.st.data = c.st.data ++ NewVmMessage { Code := cmd.Code, Message := message } ∧
        c1.st.got = c.st.got ∧
        Wrote c.st.index (c.st.data ++ NewVmMessage { Code := cmd.Code, Message := message })
          wrote w c1.st.index))) := by
  cases i with
  | closed =>
    unfold step at h
    by_cases hx : c.exited = true
    · simp only [hx, if_true, Option.some.injEq] at h
      subst h
      exact ⟨[], (List.append_nil _).symm, Or.inl ⟨rfl, rfl, rfl, rfl, rfl⟩⟩
    · have hx1 : c.exited = false := by simpa using hx
      simp only [hx1, Bool.false_eq_true, if_false, Option.some.injEq] at h
      subst h
      exact ⟨stopTimers c.st, rfl, Or.inl ⟨stopTimers_isTimer _, rfl, rfl, rfl, rfl⟩⟩
  | version v =>
    unfold step at h
    simp only [Option.some.injEq] at h
    subst h
    exact ⟨[], (List.append_nil _).symm, Or.inl ⟨rfl, rfl, rfl, rfl, rfl⟩⟩
  | pingFired =>
    unfold step at h
    by_cases hx : c.exited = true
    · simp only [hx, if_true, Option.some.injEq] at h
      subst h
      exact ⟨[], (List.append_nil _).symm, Or.inl ⟨rfl, rfl, rfl, rfl, rfl⟩⟩
    · have hx1 : c.exited = false := by simpa using hx
      simp only [hx1, Bool.false_eq_true, if_false, Option.some.injEq] at h
      subst h
      exact ⟨[], (List.append_nil _).symm, Or.inl ⟨rfl, rfl, rfl, rfl, rfl⟩⟩
  | recv cmd wrote =>
    unfold step at h
    by_cases hx : c.exited = true
    · simp only [hx, if_true, Option.some.injEq] at h
      subst h
      exact ⟨[], (List.append_nil _).symm, Or.inl ⟨rfl, rfl, rfl, rfl, rfl⟩⟩
    · have hx1 : c.exited = false := by simpa using hx
      simp only [hx1, Bool.false_eq_true, if_false] at h
      cases hit : iteration api json c.vmHyperstartAPIVersion c.st cmd wrote with
      | none => simp [hit] at h
      | some r =>
        obtain ⟨s1, acts⟩ := r
        simp only [hit] at h
        -- the timers stopped when the loop ends
        have key : ∃ t, t.all isTimer = true ∧ c1.st = s1 ∧ c1.trace = c.trace ++ (acts ++ t) ∧
            c1.exited = !s1.looping := by
          by_cases hl : s1.looping = true
          · simp only [hl, if_true, Option.some.injEq] at h
            subst h
            exact ⟨[], rfl, rfl, by simp, by simp [hl, hx1]⟩
          · have hl1 : s1.looping = false := by simpa using hl
            simp only [hl1, Bool.false_eq_true, if_false, Option.some.injEq] at h
            subst h
            exact ⟨stopTimers s1, stopTimers_isTimer _, rfl, by simp, by simp [hl1]⟩
        obtain ⟨t, ht, hst, htr, hex⟩ := key
        refine ⟨acts ++ t, htr, ?_⟩
        rw [hst]
        rcases iteration_cases api json _ _ cmd wrote s1 acts hit with
          ⟨head, rest, d, t0, h1, h2, h3, h4, h5, h6, h7, h8, h9⟩ | ⟨h1, h2⟩ |
          ⟨count, w, p, h1, h2, h3, h4, h5, h6, h7, h8⟩ |
          ⟨count, w, p, h1, h2, h3, h4, h5, h6, h7, h8, h9⟩ |
          ⟨message, w, p, h1, h2, h3, h4, h5, h6, h7⟩
        · refine Or.inr ⟨cmd, wrote, rfl, hx1, Or.inl ⟨head, rest, d, t0 ++ t, h1, h2,
            isTimer_append _ _ h3 ht, ?_, h5, h6, h7, h8, ?_⟩⟩
          · rw [h4]; simp
          · rw [hex, h9]; split <;> simp
        · rw [h1]
          rcases h2 with h2 | h2 | ⟨e, h2⟩
          · exact Or.inl ⟨by rw [h2]; exact isTimer_append _ _ rfl ht, rfl, rfl, rfl, rfl⟩
          · exact Or.inr ⟨cmd, wrote, rfl, hx1, Or.inr (Or.inl
              ⟨rfl, t, ht, Or.inl (by rw [h2]; rfl)⟩)⟩
          · exact Or.inr ⟨cmd, wrote, rfl, hx1, Or.inr (Or.inl
              ⟨rfl, t, ht, Or.inr ⟨e, by rw [h2]; rfl⟩⟩)⟩
        · exact Or.inr ⟨cmd, wrote, rfl, hx1, Or.inr (Or.inr (Or.inl
            ⟨count, w, p ++ t, by rw [h1]; simp, isTimer_append _ _ h2 ht, h3, h4, h5, h6, h8⟩))⟩
        · exact Or.inr ⟨cmd, wrote, rfl, hx1, Or.inr (Or.inr (Or.inr (Or.inl
            ⟨count, w, p ++ t, by rw [h1]; simp, isTimer_append _ _ h2 ht, h3, h4, h5, h6, h7,
              h9⟩)))⟩
        · exact Or.inr ⟨cmd, wrote, rfl, hx1, Or.inr (Or.inr (Or.inr (Or.inr
            ⟨message, w, p ++ t, by rw [h1]; simp, isTimer_append _ _ h2 ht, h3, h4, h5, h7⟩)))⟩

theorem run_invariant (api : Opcodes) (json : Json) (P : Config → Prop)
    (hstep : ∀ c i c1, P c → step api json c i = some c1 → P c1) :
    ∀ (ins : List Input) (c c1 : Config), P c → run api json c ins = some c1 → P c1 := by
  intro ins
  induction ins with
  | nil =>
    intro c c1 hP h
    simp only [run, Option.some.injEq] at h
    exact h ▸ hP
  | cons i ins ih =>
    intro c c1 hP h
    rw [run] at h
    cases hs : step api json c i with
    | none => simp [hs] at h
    | some c2 =>
      simp only [hs] at h
      exact ih c2 c1 (hstep c i c2 hP hs) h

theorem filterMap_timers {β : Type} (f : Action → Option β)
    (hf : ∀ a, isTimer a = true → f a = none) (t : List Action)
    (h : t.all isTimer = true) : t.filterMap f = [] := by
  rw [List.filterMap_eq_nil_iff]
  intro a ha
  exact hf a (List.all_eq_true.mp h a ha)

theorem writes_timers (t : List Action) (h : t.all isTimer = true) : writes t = [] :=
  filterMap_timers _ (fun a ha => by cases a <;> simp_all [isTimer]) t h

theorem sendCmds_timers (t : List Action) (h : t.all isTimer = true) : sendCmds t = [] :=
  filterMap_timers _ (fun a ha => by cases a <;> simp_all [isTimer]) t h

theorem sendBytes_timers (t : List Action) (h : t.all isTimer = true) : sendBytes t = [] := by
  unfold sendBytes
  rw [filterMap_timers _ (fun a ha => by cases a <;> simp_all [isTimer]) t h]
  rfl

theorem pops_timers (t : List Action) (h : t.all isTimer = true) : pops t = [] :=
  filterMap_timers _ (fun a ha => by cases a <;> simp_all [isTimer]) t h

theorem results_timers (t : List Action) (h : t.all isTimer = true) : results t = [] :=
  filterMap_timers _ (fun a ha => by cases a <;> simp_all [isTimer]) t h

theorem written_timers (t : List Action) (h : t.all isTimer = true) : written t = [] := by
  unfold written
  rw [writes_timers t h]
  rfl

theorem writes_cons (a : Action) (t : List Action) : writes (a :: t) = writes [a] ++ writes t :=
  writes_append [a] t

/-- The writes of one input: none, or one of at most 512 octets. -/
theorem step_writes (api : Opcodes) (json : Json) (c c1 : Config) (i : Input)
    (h : step api json c i = some c1) :
    ∃ acts, c1.trace = c.trace ++ acts ∧ ∀ w ∈ writes acts, w.1.length ≤ 512 := by
  obtain ⟨acts, htr, hc⟩ := step_cases api json c c1 i h
  refine ⟨acts, htr, ?_⟩
  have hW : ∀ (ix : Nat) (d : List Byte) (wr : Nat) (w p : List Action) (ix1 : Nat),
      Wrote ix d wr w ix1 → p.all isTimer = true →
      ∀ x ∈ writes (w ++ p), x.1.length ≤ 512 := by
    intro ix d wr w p ix1 hw hp x hx
    rw [writes_append, writes_timers p hp, List.append_nil] at hx
    rcases hw with ⟨rfl, -⟩ | ⟨rfl, -⟩
    · simp [writes] at hx
    · simp only [writes, List.filterMap_cons, List.filterMap_nil, List.mem_singleton] at hx
      rw [hx, List.length_take]
      omega
  rcases hc with ⟨ht, -⟩ | ⟨cmd, wrote, -, -, hc⟩
  · rw [writes_timers acts ht]; simp
  · rcases hc with ⟨head, rest, d, t, -, hd, ht, rfl, -⟩ | ⟨-, t, ht, hacts⟩ |
      ⟨count, w, p, rfl, hp, -, -, -, -, hw⟩ | ⟨count, w, p, rfl, hp, -, -, -, -, -, hw⟩ |
      ⟨message, w, p, rfl, hp, -, -, -, hw⟩
    · intro x hx
      rw [writes_append, writes_cons, writes_timers t ht] at hx
      rcases hd with ⟨rfl, -⟩ | ⟨e, rfl⟩ <;> simp [writes] at hx
    · intro x hx
      rcases hacts with rfl | ⟨e, rfl⟩ <;>
        · rw [writes_cons, writes_timers t ht] at hx
          simp [writes] at hx
    · intro x hx
      rw [writes_cons] at hx
      exact hW _ _ _ _ _ _ hw hp x (by simpa [writes] using hx)
    · intro x hx
      rw [writes_cons, writes_cons] at hx
      exact hW _ _ _ _ _ _ hw hp x (by simpa [writes] using hx)
    · intro x hx
      rw [writes_cons] at hx
      exact hW _ _ _ _ _ _ hw hp x (by simpa [writes] using hx)

set_option maxRecDepth 100000 in
theorem run_bigPing :
    run sampleOpcodes noJson (Config.init 4243) [.recv bigPing 512] =
      some { vmHyperstartAPIVersion := 4243,
             st := { looping := true, cmds := [bigPing],
                     data := NewVmMessage ⟨12, List.replicate 600 0⟩,
                     timeout := true, index := 512, got := 0, pingTimer := false,
                     pongTimer := true },
             trace := [Action.send bigPing (NewVmMessage ⟨12, List.replicate 600 0⟩),
               Action.write ((NewVmMessage ⟨12, List.replicate 600 0⟩).take 512) 512,
               Action.pongStart],
             exited := false } := by
  rfl

theorem tally_append (a b : List Action) : ∀ x, tally x (a ++ b) = tally (tally x a) b := by
  induction a with
  | nil => intro x; rfl
  | cons e a ih => intro x; cases e <;> simp only [List.cons_append, tally] <;> exact ih _

theorem windowsOk_append (a b : List Action) :
    ∀ x, windowsOk x (a ++ b) ↔ windowsOk x a ∧ windowsOk (tally x a) b := by
  induction a with
  | nil => intro x; simp [windowsOk, tally]
  | cons e a ih =>
    intro x
    cases e <;> simp only [List.cons_append, windowsOk, tally, and_assoc] <;>
      first
      | exact ih _
      | exact and_congr_right (fun _ => ih _)
      | exact and_congr_right (fun _ => and_congr_right (fun _ => ih _))

theorem tally_skip (e : Action) (t : List Action) (x : Nat × Int) (h : isCounter e = false) :
    tally x (e :: t) = tally x t := by
  cases e <;> simp_all [isCounter, tally]

theorem windowsOk_skip (e : Action) (t : List Action) (x : Nat × Int)
    (h : isCounter e = false) : windowsOk x (e :: t) ↔ windowsOk x t := by
  cases e <;> simp_all [isCounter, windowsOk]

theorem tally_timers (t : List Action) (h : t.all isTimer = true) :
    ∀ x, tally x t = x := by
  induction t with
  | nil => intro x; rfl
  | cons e t ih =>
    intro x
    simp only [List.all_cons, Bool.and_eq_true] at h
    rw [tally_skip e t x (by cases e <;> simp_all [isTimer, isCounter])]
    exact ih h.2 x

theorem windowsOk_timers (t : List Action) (h : t.all isTimer = true) :
    ∀ x, windowsOk x t := by
  induction t with
  | nil => intro x; trivial
  | cons e t ih =>
    intro x
    simp only [List.all_cons, Bool.and_eq_true] at h
    rw [windowsOk_skip e t x (by cases e <;> simp_all [isTimer, isCounter])]
    exact ih h.2 x

/-- The writer and the timers after a branch keep the replayed counters in step with the
variables. -/
theorem tally_Wrote (ix : Nat) (d : List Byte) (wr : Nat) (w p : List Action) (ix1 : Nat)
    (g : Int)
    (hw : Wrote ix d wr w ix1) (hp : p.all isTimer = true) :
    windowsOk (ix, g) (w ++ p) ∧ tally (ix, g) (w ++ p) = (ix1, g) := by
  rcases hw with ⟨rfl, rfl, -⟩ | ⟨rfl, rfl, rfl, -⟩
  · exact ⟨windowsOk_timers p hp _, tally_timers p hp _⟩
  · simp only [List.singleton_append, windowsOk, tally, Nat.zero_add, true_and]
    exact ⟨windowsOk_timers p hp _, tally_timers p hp _⟩

/-- The counters replayed over the trace are the variables `index` and `got`; every write comes
with `index == 0` and every retirement with `index == got`. -/
theorem step_windows (api : Opcodes) (json : Json) (c c1 : Config) (i : Input)
    (hP : windowsOk (0, 0) c.trace ∧ tally (0, 0) c.trace = (c.st.index, c.st.got))
    (h : step api json c i = some c1) :
    windowsOk (0, 0) c1.trace ∧ tally (0, 0) c1.trace = (c1.st.index, c1.st.got) := by
  obtain ⟨acts, htr, hc⟩ := step_cases api json c c1 i h
  rw [htr, windowsOk_append, tally_append, hP.2]
  refine ⟨⟨hP.1, ?_⟩, ?_⟩ <;>
  rcases hc with ⟨ht, -, -, hi, hg⟩ | ⟨cmd, wrote, -, -, hc⟩
  · exact windowsOk_timers acts ht _
  · rcases hc with ⟨head, rest, d, t, -, hd, ht, rfl, -, -, hi, hg, -⟩ | ⟨hst, t, ht, hacts⟩ |
      ⟨count, w, p, rfl, hp, hne, -, -, hg, hw⟩ |
      ⟨count, w, p, rfl, hp, heq, -, -, -, hg, hw⟩ |
      ⟨message, w, p, rfl, hp, -, -, hg, hw⟩
    · rcases hd with ⟨rfl, -⟩ | ⟨e, rfl⟩ <;>
        simp only [List.nil_append, List.singleton_append, windowsOk] <;>
        exact windowsOk_timers t ht _
    · rcases hacts with rfl | ⟨e, rfl⟩ <;> simp only [windowsOk] <;>
        exact windowsOk_timers t ht _
    · simp only [windowsOk]
      exact (tally_Wrote _ _ _ _ _ _ _ hw hp).1
    · simp only [windowsOk]
      exact ⟨⟨trivial, heq⟩, (tally_Wrote _ _ _ _ _ _ _ hw hp).1⟩
    · simp only [windowsOk]
      exact (tally_Wrote _ _ _ _ _ _ _ hw hp).1
  · rw [tally_timers acts ht, hi, hg]
  · rcases hc with ⟨head, rest, d, t, -, hd, ht, rfl, -, -, hi, hg, -⟩ | ⟨hst, t, ht, hacts⟩ |
      ⟨count, w, p, rfl, hp, hne, -, -, hg, hw⟩ |
      ⟨count, w, p, rfl, hp, heq, -, -, -, hg, hw⟩ |
      ⟨message, w, p, rfl, hp, -, -, hg, hw⟩
    · rcases hd with ⟨rfl, -⟩ | ⟨e, rfl⟩ <;>
        simp only [List.nil_append, List.singleton_append, tally] <;>
        rw [tally_timers t ht, hi, hg]
    · rcases hacts with rfl | ⟨e, rfl⟩ <;> simp only [tally] <;>
        rw [tally_timers t ht, hst]
    · simp only [tally]
      rw [(tally_Wrote _ _ _ _ _ _ _ hw hp).2, hg]
    · simp only [tally]
      rw [(tally_Wrote _ _ _ _ _ _ _ hw hp).2, hg]
    · simp only [tally]
      rw [(tally_Wrote _ _ _ _ _ _ _ hw hp).2, hg]

theorem wrapInt_wrapInt_add (a b : Int) : wrapInt (wrapInt a + b) = wrapInt (a + b) := by
  unfold wrapInt; omega

theorem wrapInt_wrapInt (a : Int) : wrapInt (wrapInt a) = wrapInt a := by
  unfold wrapInt; omega

/-- Inside the 64 bits the addition of Go `int`s is exact. -/
theorem wrapInt_of_lt (x : Int) (h0 : -2 ^ 63 ≤ x) (h1 : x < 2 ^ 63) : wrapInt x = x := by
  unfold wrapInt; omega

/-- The replayed `got` is a Go `int` when it starts as one. -/
theorem tally_range (t : List Action) :
    ∀ x : Nat × Int, wrapInt x.2 = x.2 → wrapInt (tally x t).2 = (tally x t).2 := by
  induction t with
  | nil => intro x hx; exact hx
  | cons e t ih =>
    intro x hx
    cases e with
    | next count => exact ih (x.1, wrapInt (x.2 + count)) (wrapInt_wrapInt _)
    | retire i => exact ih (0, 0) rfl
    | write p wrote => exact ih (x.1 + wrote, x.2) hx
    | _ => exact ih x hx

/-- With a window in flight and no retirement, a well-formed stretch of trace has no write,
`index` stays, and `got` grows by the `NEXT` counts of the stretch, in the arithmetic of the Go
`int`. -/
theorem windowsOk_in_flight (mid : List Action) :
    ∀ x : Nat × Int, 0 < x.1 → noRetire mid = true → windowsOk x mid →
      noWrite mid = true ∧ (tally x mid).1 = x.1 ∧
        wrapInt (tally x mid).2 = wrapInt (x.2 + nextSum mid) := by
  induction mid with
  | nil => intro x _ _ _; exact ⟨rfl, rfl, by simp [tally, nextSum]⟩
  | cons e mid ih =>
    intro x hx hr hok
    cases e with
    | next count =>
      simp only [noRetire, noWrite, List.all_cons, Bool.and_eq_true, Bool.true_and,
        windowsOk, tally, nextSum] at hr hok ⊢
      obtain ⟨h1, h2, h3⟩ := ih (x.1, wrapInt (x.2 + count)) hx hr hok
      refine ⟨h1, h2, ?_⟩
      rw [h3, wrapInt_wrapInt_add, Nat.cast_add, Int.add_assoc]
    | retire i =>
      simp only [noRetire, List.all_cons, Bool.and_eq_true] at hr
      exact absurd hr.1 (by decide)
    | write p wrote =>
      simp only [windowsOk] at hok
      omega
    | _ =>
      simp only [noRetire, noWrite, List.all_cons, Bool.and_eq_true, Bool.true_and,
        windowsOk, tally, nextSum] at hr hok ⊢
      exact ih x hx hr hok

/-- A write of `w > 0` octets, then a stretch with no retirement: in a well-formed trace the
stretch has no write; and when a retirement follows, it retires `w` octets, and `w` is the
`got` left from before the write plus the `NEXT` counts of the stretch, in the arithmetic of
the Go `int`. -/
theorem windowsOk_window (pre mid : List Action) (p : List Byte) (w : Nat)
    (hok : windowsOk (0, 0) (pre ++ Action.write p w :: mid))
    (hw : 0 < w) (hmid : noRetire mid = true) :
    noWrite mid = true := by
  rw [windowsOk_append] at hok
  obtain ⟨-, hok⟩ := hok
  simp only [windowsOk] at hok
  obtain ⟨h0, hok⟩ := hok
  rw [h0, Nat.zero_add] at hok
  exact (windowsOk_in_flight mid (w, (tally (0, 0) pre).2) hw hmid hok).1

theorem windowsOk_catch_up (pre mid post : List Action) (p : List Byte) (w i : Nat)
    (hok : windowsOk (0, 0) (pre ++ Action.write p w :: (mid ++ Action.retire i :: post)))
    (hw : 0 < w) (hmid : noRetire mid = true) :
    noWrite mid = true ∧ i = w ∧
      (w : Int) = wrapInt ((tally (0, 0) pre).2 + nextSum mid) := by
  rw [windowsOk_append] at hok
  obtain ⟨-, hok⟩ := hok
  simp only [windowsOk] at hok
  obtain ⟨h0, hok⟩ := hok
  rw [h0, Nat.zero_add, windowsOk_append] at hok
  obtain ⟨h1, h2⟩ := hok
  obtain ⟨hnw, ht1, ht2⟩ := windowsOk_in_flight mid (w, (tally (0, 0) pre).2) hw hmid h1
  simp only [windowsOk] at h2
  obtain ⟨⟨hi, he⟩, -⟩ := h2
  have hr := tally_range mid (w, (tally (0, 0) pre).2) (tally_range pre (0, 0) rfl)
  rw [ht1] at hi he
  refine ⟨hnw, hi, ?_⟩
  rw [he, ← hr, ht2]

theorem sendCmds_cons (a : Action) (t : List Action) :
    sendCmds (a :: t) = sendCmds [a] ++ sendCmds t := sendCmds_append [a] t

theorem pops_cons (a : Action) (t : List Action) : pops (a :: t) = pops [a] ++ pops t :=
  pops_append [a] t

theorem results_cons (a : Action) (t : List Action) :
    results (a :: t) = results [a] ++ results t := results_append [a] t

theorem sendBytes_cons (a : Action) (t : List Action) :
    sendBytes (a :: t) = sendBytes [a] ++ sendBytes t := sendBytes_append [a] t

theorem written_cons (a : Action) (t : List Action) :
    written (a :: t) = written [a] ++ written t := written_append [a] t

/-- What the writer and the timers after a branch add to the readings of the trace. -/
theorem readers_Wrote (ix : Nat) (d : List Byte) (wr : Nat) (w p : List Action) (ix1 : Nat)
    (hw : Wrote ix d wr w ix1) (hp : p.all isTimer = true) :
    sendCmds (w ++ p) = [] ∧ pops (w ++ p) = [] ∧ results (w ++ p) = [] ∧
    sendBytes (w ++ p) = [] := by
  rw [sendCmds_append, pops_append, results_append, sendBytes_append, sendCmds_timers p hp,
    pops_timers p hp, results_timers p hp, sendBytes_timers p hp]
  rcases hw with ⟨rfl, -⟩ | ⟨rfl, -⟩ <;> exact ⟨rfl, rfl, rfl, rfl⟩

/-- The framed commands are the popped ones followed by the pending ones, and a popped
command that is not a `PING` got one value when it was popped. -/
theorem step_queue (api : Opcodes) (json : Json) (c c1 : Config) (i : Input)
    (hP : sendCmds c.trace = pops c.trace ++ c.st.cmds ∧
      (results c.trace).filter (nonPing api) = (pops c.trace).filter (nonPing api))
    (h : step api json c i = some c1) :
    sendCmds c1.trace = pops c1.trace ++ c1.st.cmds ∧
      (results c1.trace).filter (nonPing api) = (pops c1.trace).filter (nonPing api) := by
  obtain ⟨acts, htr, hc⟩ := step_cases api json c c1 i h
  rw [htr, sendCmds_append, pops_append, results_append, List.filter_append, List.filter_append,
    hP.1, hP.2]
  rcases hc with ⟨ht, hcm, -⟩ | ⟨cmd, wrote, -, -, hc⟩
  · rw [sendCmds_timers acts ht, pops_timers acts ht, results_timers acts ht, hcm]
    simp
  · rcases hc with ⟨head, rest, d, t, hcm, hd, ht, rfl, hcm1, -⟩ | ⟨hst, t, ht, hacts⟩ |
      ⟨count, w, p, rfl, hp, -, hcm, -, -, hw⟩ |
      ⟨count, w, p, rfl, hp, -, -, hcm, -, -, hw⟩ |
      ⟨message, w, p, rfl, hp, hcm, -, -, hw⟩
    · rw [show d ++ Action.pop head :: t = (d ++ [Action.pop head]) ++ t by simp,
        sendCmds_append, pops_append, results_append,
        sendCmds_timers t ht, pops_timers t ht, results_timers t ht, hcm, hcm1]
      rcases hd with ⟨rfl, hping⟩ | ⟨e, rfl⟩
      · simp [sendCmds, pops, results, nonPing, hping]
      · simp [sendCmds, pops, results]
    · rw [hst]
      rcases hacts with rfl | ⟨e, rfl⟩
      · rw [show Action.delay (withResult cmd) :: t = [Action.delay (withResult cmd)] ++ t
          from rfl, sendCmds_append, pops_append, results_append,
          sendCmds_timers t ht, pops_timers t ht, results_timers t ht]
        simp [sendCmds, pops, results]
      · rw [show Action.failed (withResult cmd) e :: t = [Action.failed (withResult cmd) e] ++ t
          from rfl, sendCmds_append, pops_append, results_append,
          sendCmds_timers t ht, pops_timers t ht, results_timers t ht]
        simp [sendCmds, pops, results]
    · obtain ⟨r1, r2, r3, -⟩ := readers_Wrote _ _ _ _ _ _ hw hp
      rw [show Action.next count :: (w ++ p) = [Action.next count] ++ (w ++ p) from rfl,
        sendCmds_append, pops_append, results_append, r1, r2, r3, hcm]
      simp [sendCmds, pops, results]
    · obtain ⟨r1, r2, r3, -⟩ := readers_Wrote _ _ _ _ _ _ hw hp
      rw [show Action.next count :: Action.retire c.st.index :: (w ++ p) =
          [Action.next count, Action.retire c.st.index] ++ (w ++ p) from rfl,
        sendCmds_append, pops_append, results_append, r1, r2, r3, hcm]
      simp [sendCmds, pops, results]
    · obtain ⟨r1, r2, r3, -⟩ := readers_Wrote _ _ _ _ _ _ hw hp
      rw [show Action.send (withResult cmd)
            (NewVmMessage { Code := cmd.Code, Message := message }) :: (w ++ p) =
          [Action.send (withResult cmd)
            (NewVmMessage { Code := cmd.Code, Message := message })] ++ (w ++ p) from rfl,
        sendCmds_append, pops_append, results_append, r1, r2, r3, hcm]
      simp [sendCmds, pops, results]

theorem run_queue (api : Opcodes) (json : Json) (v : Nat) (ins : List Input) (c : Config)
    (hrun : run api json (Config.init v) ins = some c) :
    sendCmds c.trace = pops c.trace ++ c.st.cmds ∧
      (results c.trace).filter (nonPing api) = (pops c.trace).filter (nonPing api) :=
  run_invariant api json
    (fun c => sendCmds c.trace = pops c.trace ++ c.st.cmds ∧
      (results c.trace).filter (nonPing api) = (pops c.trace).filter (nonPing api))
    (fun c0 i c1 hP hs => step_queue api json c0 c1 i hP hs) ins (Config.init v) c
    ⟨rfl, rfl⟩ hrun

theorem written_Wrote (ix : Nat) (d : List Byte) (wr : Nat) (w p : List Action) (ix1 : Nat)
    (hw : Wrote ix d wr w ix1) (hp : p.all isTimer = true) (hon : honest (w ++ p))
    (hix : ix ≤ d.length) :
    ix1 ≤ d.length ∧ written (w ++ p) ++ d.drop ix1 = d.drop ix := by
  rw [written_append, written_timers p hp, List.append_nil]
  rcases hw with ⟨rfl, hi1, -⟩ | ⟨rfl, hi1, hi0, -⟩
  · rw [hi1]; exact ⟨hix, rfl⟩
  · have h1 : wr ≤ (d.take (min 512 d.length)).length :=
      hon (d.take (min 512 d.length), wr) (by simp [writes])
    rw [List.length_take] at h1
    rw [hi1, hi0]
    refine ⟨by omega, ?_⟩
    simp only [written, writes, List.filterMap_cons, List.filterMap_nil, List.map_cons,
      List.map_nil, List.flatten_cons, List.flatten_nil, List.append_nil, List.take_take,
      List.drop_zero]
    rw [show min wr (min 512 d.length) = wr by omega]
    exact List.take_append_drop wr d

theorem honest_append (a b : List Action) (h : honest (a ++ b)) : honest a ∧ honest b := by
  unfold honest at h ⊢
  rw [writes_append] at h
  exact ⟨fun w hw => h w (List.mem_append_left _ hw), fun w hw => h w (List.mem_append_right _ hw)⟩

theorem honest_cons (a : Action) (t : List Action) (h : honest (a :: t)) : honest t :=
  (honest_append [a] t h).2

/-- The buffer `data` is a tail of the framed octets; when the writes are honest, the octets
written followed by `data[index:]` are the framed octets, and `index` is within `data`. -/
theorem step_buffer (api : Opcodes) (json : Json) (c c1 : Config) (i : Input)
    (hP : (∃ pre, sendBytes c.trace = pre ++ c.st.data) ∧
      (honest c.trace → c.st.index ≤ c.st.data.length ∧
        written c.trace ++ c.st.data.drop c.st.index = sendBytes c.trace))
    (h : step api json c i = some c1) :
    (∃ pre, sendBytes c1.trace = pre ++ c1.st.data) ∧
      (honest c1.trace → c1.st.index ≤ c1.st.data.length ∧
        written c1.trace ++ c1.st.data.drop c1.st.index = sendBytes c1.trace) := by
  obtain ⟨acts, htr, hc⟩ := step_cases api json c c1 i h
  obtain ⟨⟨pre, hpre⟩, hP2⟩ := hP
  rw [htr, sendBytes_append, written_append]
  -- the cases in which the buffer, the counters and the octets of the trace stay
  have same : sendBytes acts = [] → written acts = [] → c1.st.data = c.st.data →
      c1.st.index = c.st.index →
      (∃ pre, sendBytes c.trace ++ sendBytes acts = pre ++ c1.st.data) ∧
      (honest (c.trace ++ acts) → c1.st.index ≤ c1.st.data.length ∧
        written c.trace ++ written acts ++ c1.st.data.drop c1.st.index =
          sendBytes c.trace ++ sendBytes acts) := by
    intro h1 h2 h3 h4
    rw [h1, h2, h3, h4, List.append_nil, List.append_nil]
    exact ⟨⟨pre, hpre⟩, fun hon => hP2 (honest_append _ _ hon).1⟩
  rcases hc with ⟨ht, -, hd, hi, -⟩ | ⟨cmd, wrote, -, -, hc⟩
  · exact same (sendBytes_timers acts ht) (written_timers acts ht) hd hi
  · rcases hc with ⟨head, rest, d, t, -, hd, ht, rfl, -, hdt, hi, -⟩ | ⟨hst, t, ht, hacts⟩ |
      ⟨count, w, p, rfl, hp, -, -, hdt, -, hw⟩ |
      ⟨count, w, p, rfl, hp, -, hb, -, hdt, -, hw⟩ |
      ⟨message, w, p, rfl, hp, -, hdt, -, hw⟩
    · refine same ?_ ?_ hdt hi
      · rw [show d ++ Action.pop head :: t = (d ++ [Action.pop head]) ++ t by simp,
          sendBytes_append, sendBytes_timers t ht]
        rcases hd with ⟨rfl, -⟩ | ⟨e, rfl⟩ <;> rfl
      · rw [show d ++ Action.pop head :: t = (d ++ [Action.pop head]) ++ t by simp,
          written_append, written_timers t ht]
        rcases hd with ⟨rfl, -⟩ | ⟨e, rfl⟩ <;> rfl
    · refine same ?_ ?_ (by rw [hst]) (by rw [hst])
      · rcases hacts with rfl | ⟨e, rfl⟩ <;>
          · rw [sendBytes_cons, sendBytes_timers t ht]; rfl
      · rcases hacts with rfl | ⟨e, rfl⟩ <;>
          · rw [written_cons, written_timers t ht]; rfl
    · obtain ⟨-, -, -, r4⟩ := readers_Wrote _ _ _ _ _ _ hw hp
      have e1 : sendBytes (Action.next count :: (w ++ p)) = [] := by
        rw [sendBytes_cons, r4]; rfl
      have e2 : written (Action.next count :: (w ++ p)) = written (w ++ p) := by
        rw [written_cons]; rfl
      rw [e1, e2, hdt, List.append_nil]
      refine ⟨⟨pre, hpre⟩, fun hon => ?_⟩
      obtain ⟨hon1, hon2⟩ := honest_append _ _ hon
      obtain ⟨hix, hwr⟩ := hP2 hon1
      obtain ⟨g1, g2⟩ := written_Wrote _ _ _ _ _ _ hw hp (honest_cons _ _ hon2) hix
      exact ⟨g1, by rw [List.append_assoc, g2, hwr]⟩
    · obtain ⟨-, -, -, r4⟩ := readers_Wrote _ _ _ _ _ _ hw hp
      have e1 : sendBytes (Action.next count :: Action.retire c.st.index :: (w ++ p)) = [] := by
        rw [show Action.next count :: Action.retire c.st.index :: (w ++ p) =
          [Action.next count, Action.retire c.st.index] ++ (w ++ p) from rfl,
          sendBytes_append, r4]
        rfl
      have e2 : written (Action.next count :: Action.retire c.st.index :: (w ++ p)) =
          written (w ++ p) := by
        rw [show Action.next count :: Action.retire c.st.index :: (w ++ p) =
          [Action.next count, Action.retire c.st.index] ++ (w ++ p) from rfl, written_append]
        rfl
      rw [e1, e2, hdt, List.append_nil]
      refine ⟨⟨pre ++ c.st.data.take c.st.index, ?_⟩, fun hon => ?_⟩
      · rw [hpre, List.append_assoc, List.take_append_drop]
      obtain ⟨hon1, hon2⟩ := honest_append _ _ hon
      obtain ⟨hix, hwr⟩ := hP2 hon1
      obtain ⟨g1, g2⟩ := written_Wrote _ _ _ _ _ _ hw hp (honest_cons _ _ (honest_cons _ _ hon2))
        (Nat.zero_le _)
      rw [List.drop_zero] at g2
      exact ⟨g1, by rw [List.append_assoc, g2, hwr]⟩
    · obtain ⟨-, -, -, r4⟩ := readers_Wrote _ _ _ _ _ _ hw hp
      have e1 : sendBytes (Action.send (withResult cmd)
          (NewVmMessage { Code := cmd.Code, Message := message }) :: (w ++ p)) =
          NewVmMessage { Code := cmd.Code, Message := message } := by
        rw [sendBytes_cons, r4]; simp [sendBytes]
      have e2 : written (Action.send (withResult cmd)
          (NewVmMessage { Code := cmd.Code, Message := message }) :: (w ++ p)) =
          written (w ++ p) := by
        rw [written_cons]; rfl
      rw [e1, e2, hdt]
      refine ⟨⟨pre, by rw [hpre, List.append_assoc]⟩, fun hon => ?_⟩
      obtain ⟨hon1, hon2⟩ := honest_append _ _ hon
      obtain ⟨hix, hwr⟩ := hP2 hon1
      obtain ⟨g1, g2⟩ := written_Wrote _ _ _ _ _ _ hw hp (honest_cons _ _ hon2)
        (show c.st.index ≤
          (c.st.data ++ NewVmMessage { Code := cmd.Code, Message := message }).length by
          rw [List.length_append]; omega)
      refine ⟨g1, ?_⟩
      rw [List.append_assoc, g2, List.drop_append_of_le_length hix, ← List.append_assoc, hwr]

theorem received_cons (i : Input) (ins : List Input) :
    received (i :: ins) = received [i] ++ received ins :=
  List.filterMap_append [i] ins _

/-- One input frames at most one command: the one it receives. -/
theorem step_sends (api : Opcodes) (json : Json) (c c1 : Config) (i : Input)
    (h : step api json c i = some c1) :
    ∃ l, sendCmds c1.trace = sendCmds c.trace ++ l ∧ l.Sublist (received [i]) := by
  obtain ⟨acts, htr, hc⟩ := step_cases api json c c1 i h
  refine ⟨sendCmds acts, by rw [htr, sendCmds_append], ?_⟩
  rcases hc with ⟨ht, -⟩ | ⟨cmd, wrote, rfl, -, hc⟩
  · rw [sendCmds_timers acts ht]; exact List.nil_sublist _
  · rcases hc with ⟨head, rest, d, t, -, hd, ht, rfl, -⟩ | ⟨-, t, ht, hacts⟩ |
      ⟨count, w, p, rfl, hp, -, -, -, -, hw⟩ |
      ⟨count, w, p, rfl, hp, -, -, -, -, -, hw⟩ |
      ⟨message, w, p, rfl, hp, -, -, -, hw⟩
    · rw [show d ++ Action.pop head :: t = (d ++ [Action.pop head]) ++ t by simp,
        sendCmds_append, sendCmds_timers t ht]
      rcases hd with ⟨rfl, -⟩ | ⟨e, rfl⟩ <;> exact List.nil_sublist _
    · rcases hacts with rfl | ⟨e, rfl⟩ <;>
        · rw [sendCmds_cons, sendCmds_timers t ht]; exact List.nil_sublist _
    · obtain ⟨r1, -⟩ := readers_Wrote _ _ _ _ _ _ hw hp
      rw [sendCmds_cons, r1]; exact List.nil_sublist _
    · obtain ⟨r1, -⟩ := readers_Wrote _ _ _ _ _ _ hw hp
      rw [show Action.next count :: Action.retire c.st.index :: (w ++ p) =
        [Action.next count, Action.retire c.st.index] ++ (w ++ p) from rfl, sendCmds_append, r1]
      exact List.nil_sublist _
    · obtain ⟨r1, -⟩ := readers_Wrote _ _ _ _ _ _ hw hp
      rw [sendCmds_cons, r1]
      exact List.Sublist.refl _

/-- The commands that a run frames are, in the order of framing, among the commands that it
receives, in the order of reception. -/
theorem run_sends (api : Opcodes) (json : Json) :
    ∀ (ins : List Input) (c c1 : Config), run api json c ins = some c1 →
      ∃ l, sendCmds c1.trace = sendCmds c.trace ++ l ∧ l.Sublist (received ins) := by
  intro ins
  induction ins with
  | nil =>
    intro c c1 h
    simp only [run, Option.some.injEq] at h
    exact ⟨[], by rw [h, List.append_nil], List.nil_sublist _⟩
  | cons i ins ih =>
    intro c c1 h
    rw [run] at h
    cases hs : step api json c i with
    | none => simp [hs] at h
    | some c2 =>
      simp only [hs] at h
      obtain ⟨l1, h1, s1⟩ := step_sends api json c c2 i hs
      obtain ⟨l2, h2, s2⟩ := ih c2 c1 h
      refine ⟨l1 ++ l2, by rw [h2, h1, List.append_assoc], ?_⟩
      rw [received_cons]
      exact List.Sublist.append s1 s2

theorem run_exited (api : Opcodes) (json : Json) :
    ∀ (more : List Input) (c : Config), c.exited = true →
      ∃ c1, run api json c more = some c1 ∧ c1.trace = c.trace ∧ c1.exited = true := by
  intro more
  induction more with
  | nil => intro c hc; exact ⟨c, rfl, rfl, hc⟩
  | cons i more ih =>
    intro c hc
    cases i with
    | version v =>
      obtain ⟨c1, h1, h2, h3⟩ := ih { c with vmHyperstartAPIVersion := v % 2 ^ 32 } hc
      exact ⟨c1, by rw [run]; exact h1, h2, h3⟩
    | recv cmd wrote =>
      obtain ⟨c1, h1, h2, h3⟩ := ih c hc
      exact ⟨c1, by rw [run]; simp only [step, hc, if_true]; exact h1, h2, h3⟩
    | closed =>
      obtain ⟨c1, h1, h2, h3⟩ := ih c hc
      exact ⟨c1, by rw [run]; simp only [step, hc, if_true]; exact h1, h2, h3⟩
    | pingFired =>
      obtain ⟨c1, h1, h2, h3⟩ := ih c hc
      exact ⟨c1, by rw [run]; simp only [step, hc, if_true]; exact h1, h2, h3⟩

/-! ## The dispatcher: the properties -/

/-- C4. FIFO reply matching: in every state with a pending command, an `INIT_ACK` or
`INIT_ERROR` reply touches the head of `cmds` only. On `INIT_ACK` with a head that is not a
`PING` the head gets the payload as `retMsg` and `nil` on its result; on `INIT_ERROR` it gets
the payload and an error whose text is `Error: ` followed by the payload; the head is popped and
the commands behind it stay, in order, with no value sent to any of them; the buffer and the
counters stay and nothing is written. -/
theorem C4_fifo_reply (api : Opcodes) (hapi : api.distinct) (json : Json) (version : Nat)
    (s : State) (head : hyperstartCmd) (rest : List hyperstartCmd) (cmd : hyperstartCmd)
    (wrote : Nat) (hcmds : s.cmds = head :: rest)
    (hcode : cmd.Code = api.INIT_ACK ∨ cmd.Code = api.INIT_ERROR) :
    ∃ s1 acts, iteration api json version s cmd wrote = some (s1, acts) ∧
      s1.cmds = rest ∧ s1.data = s.data ∧ s1.index = s.index ∧ s1.got = s.got ∧
      pops acts = [head] ∧ writes acts = [] ∧
      (cmd.Code = api.INIT_ACK → head.Code ≠ api.INIT_PING →
        deliveries acts = [(head, none)]) ∧
      (cmd.Code = api.INIT_ACK → head.Code = api.INIT_PING → deliveries acts = []) ∧
      (cmd.Code = api.INIT_ERROR →
        deliveries acts = [(head, some (DispatchError.reply cmd.retMsg))]) ∧
      (∀ c r e, Action.result c r e ∈ acts → c = head ∧ r = cmd.retMsg) ∧
      (DispatchError.reply cmd.retMsg).Error.map Fin.val =
        [69, 114, 114, 111, 114, 58, 32] ++ cmd.retMsg.map Fin.val := by
  have hne := (distinct_ne api hapi).1
  rw [iteration_reply api json version s cmd wrote hcode]
  refine ⟨_, _, rfl, ?_, ?_, ?_, ?_, ?_, ?_, ?_, ?_, ?_, ?_, ?_⟩
  · simp [handleReply, hcmds]
  · simp [handleReply, hcmds]
  · simp [handleReply, hcmds]
  · simp [handleReply, hcmds]
  · simp only [handleReply, hcmds, withResult_Code, withResult_retMsg]
    cases s.pongTimer <;> cases s.pingTimer <;> split <;> (try split) <;> simp [pops]
  · simp only [handleReply, hcmds, withResult_Code, withResult_retMsg]
    cases s.pongTimer <;> cases s.pingTimer <;> split <;> (try split) <;> simp [writes]
  · intro h1 h2
    simp only [handleReply, hcmds, withResult_Code, withResult_retMsg]
    cases s.pongTimer <;> cases s.pingTimer <;> simp [deliveries, h1, h2]
  · intro h1 h2
    simp only [handleReply, hcmds, withResult_Code, withResult_retMsg]
    cases s.pongTimer <;> cases s.pingTimer <;> simp [deliveries, h1, h2]
  · intro h1
    have h2 : ¬ cmd.Code = api.INIT_ACK := by rw [h1]; exact fun e => hne e.symm
    simp only [handleReply, hcmds, withResult_Code, withResult_retMsg]
    cases s.pongTimer <;> cases s.pingTimer <;> simp [deliveries, h2]
  · intro c r e hmem
    simp only [handleReply, hcmds, withResult_Code, withResult_retMsg] at hmem
    cases hp : s.pongTimer <;> cases hq : s.pingTimer <;> simp only [hp, hq] at hmem <;>
      split at hmem <;> (try split at hmem) <;> simp at hmem <;> simp [hmem]
  · rw [DispatchError.Error, List.map_append]
    rfl

/-- C4, at an `INIT_ERROR` reply with two commands pending. -/
theorem C4_fifo_reply_witness :
    ∃ s1 acts, iteration sampleOpcodes noJson 4243
        { State.init with cmds := [⟨0, .raw [], [], .chan 1⟩, ⟨12, .raw [], [], .hub⟩] }
        ⟨10, .raw [], [7], .nil⟩ 0 = some (s1, acts) ∧
      s1.cmds = [⟨12, .raw [], [], .hub⟩] ∧ s1.data = [] ∧ s1.index = 0 ∧ s1.got = 0 ∧
      pops acts = [⟨0, .raw [], [], .chan 1⟩] ∧ writes acts = [] ∧
      ((⟨10, .raw [], [7], .nil⟩ : hyperstartCmd).Code = sampleOpcodes.INIT_ACK →
        (⟨0, .raw [], [], .chan 1⟩ : hyperstartCmd).Code ≠ sampleOpcodes.INIT_PING →
        deliveries acts = [(⟨0, .raw [], [], .chan 1⟩, none)]) ∧
      ((⟨10, .raw [], [7], .nil⟩ : hyperstartCmd).Code = sampleOpcodes.INIT_ACK →
        (⟨0, .raw [], [], .chan 1⟩ : hyperstartCmd).Code = sampleOpcodes.INIT_PING →
        deliveries acts = []) ∧
      ((⟨10, .raw [], [7], .nil⟩ : hyperstartCmd).Code = sampleOpcodes.INIT_ERROR →
        deliveries acts = [(⟨0, .raw [], [], .chan 1⟩, some (DispatchError.reply [7]))]) ∧
      (∀ c r e, Action.result c r e ∈ acts →
        c = ⟨0, .raw [], [], .chan 1⟩ ∧ r = [7]) ∧
      (DispatchError.reply [7]).Error.map Fin.val =
        [69, 114, 114, 111, 114, 58, 32] ++ ([7] : List Byte).map Fin.val :=
  C4_fifo_reply sampleOpcodes (by decide) noJson 4243
    { State.init with cmds := [⟨0, .raw [], [], .chan 1⟩, ⟨12, .raw [], [], .hub⟩] }
    ⟨0, .raw [], [], .chan 1⟩ [⟨12, .raw [], [], .hub⟩] ⟨10, .raw [], [7], .nil⟩ 0 rfl
    (Or.inr rfl)

/-- C5. Write window: in every run of the dispatcher, every call of `init.Write` is given at
most 512 octets, whatever the sizes of the framed commands. -/
theorem C5_write_window (api : Opcodes) (json : Json) (v : Nat) (ins : List Input)
    (c : Config) (hrun : waitCmdToInit api json v ins = some c) :
    ∀ p wrote, Action.write p wrote ∈ c.trace → p.length ≤ 512 := by
  have hinv : ∀ w ∈ writes c.trace, w.1.length ≤ 512 := by
    refine run_invariant api json (fun c => ∀ w ∈ writes c.trace, w.1.length ≤ 512) ?_ ins
      (Config.init v) c (by simp [Config.init, writes]) hrun
    intro c0 i c1 hP hs
    obtain ⟨acts, htr, hw⟩ := step_writes api json c0 c1 i hs
    intro w hmem
    rw [htr, writes_append, List.mem_append] at hmem
    exact hmem.elim (hP w) (hw w)
  intro p wrote hmem
  exact hinv (p, wrote) (List.mem_filterMap.mpr ⟨_, hmem, rfl⟩)

/-- C5, at a frame of 608 octets: the write is given its first 512 octets. -/
theorem C5_write_window_witness :
    ((NewVmMessage ⟨12, List.replicate 600 0⟩).take 512).length ≤ 512 :=
  C5_write_window sampleOpcodes noJson 4243 [.recv bigPing 512] _ run_bigPing
    ((NewVmMessage ⟨12, List.replicate 600 0⟩).take 512) 512
    (List.mem_cons_of_mem _ (List.mem_cons_self _ _))

/-- What the dispatcher does about a window, in every run: after a write that put `w > 0`
octets on the socket it issues no further write until the window is retired, also when it never
is; and the window is retired when `got`, which is not cleared at the write, has reached `w`:
`w` is the `got` left from before the write plus the `NEXT` counts received since, in the
arithmetic of the Go `int`. -/
theorem window_law (api : Opcodes) (json : Json) (v : Nat) (ins : List Input)
    (c : Config) (hrun : waitCmdToInit api json v ins = some c)
    (pre mid : List Action) (p : List Byte) (w : Nat) (hw : 0 < w)
    (hmid : noRetire mid = true) :
    (c.trace = pre ++ Action.write p w :: mid → noWrite mid = true) ∧
    (∀ i post, c.trace = pre ++ Action.write p w :: (mid ++ Action.retire i :: post) →
      noWrite mid = true ∧ i = w ∧
        (w : Int) = wrapInt ((tally (0, 0) pre).2 + nextSum mid)) := by
  have hinv := run_invariant api json
    (fun c => windowsOk (0, 0) c.trace ∧ tally (0, 0) c.trace = (c.st.index, c.st.got))
    (fun c0 i c1 hP hs => step_windows api json c0 c1 i hP hs) ins (Config.init v) c
    ⟨trivial, rfl⟩ hrun
  have hok : windowsOk (0, 0) c.trace := hinv.1
  refine ⟨fun htrace => ?_, fun i post htrace => ?_⟩
  · rw [htrace] at hok
    exact windowsOk_window pre mid p w hok hw hmid
  · rw [htrace] at hok
    exact windowsOk_catch_up pre mid post p w i hok hw hmid

/-- C6, the failing input. A `NEXT` of five octets arrives with nothing in flight and its count
stays in `got`; the next command's frame of eight octets is written whole; a `NEXT` of three
octets then makes `got` eight, which is `index`, and the window is retired: the `NEXT` counts
received after the write and before the retirement sum to three, not to eight. -/
theorem C6_stale_got :
    ∃ c, waitCmdToInit sampleOpcodes noJson 4243 strayNext = some c ∧
      c.trace =
        [Action.next 5, Action.send ⟨12, .raw [], [], .chan 1⟩ [0, 0, 0, 12, 0, 0, 0, 8],
          Action.write [0, 0, 0, 12, 0, 0, 0, 8] 8, Action.pongStart, Action.next 3,
          Action.retire 8] ∧
      nextSum [Action.pongStart, Action.next 3] = 3 ∧
      c.st.index = 0 ∧ c.st.got = 0 ∧ c.st.data = [] ∧
      ¬ (∀ (pre mid post : List Action) (p : List Byte) (w i : Nat),
        c.trace = pre ++ Action.write p w :: (mid ++ Action.retire i :: post) →
        0 < w → noRetire mid = true → noWrite mid = true ∧ nextSum mid = w) := by
  refine ⟨_, rfl, rfl, rfl, rfl, rfl, rfl, fun h => ?_⟩
  have h1 := h [Action.next 5, Action.send ⟨12, .raw [], [], .chan 1⟩ [0, 0, 0, 12, 0, 0, 0, 8]]
    [Action.pongStart, Action.next 3] [] [0, 0, 0, 12, 0, 0, 0, 8] 8 8 rfl (by decide) rfl
  exact absurd h1.2 (by decide)

/-- C7. The `NEXT` step: an iteration on an `INIT_NEXT` runs the `NEXT` branch (lines 228-238)
and then the writer. In the branch, for a payload of at least four octets, the count they hold,
big endian, is added to `got` and `timeout` is cleared; when the new `got` differs from `index`
nothing else changes; when it equals `index` the window is retired, `data` becomes
`data[index:]` and `index` and `got` become 0; `cmds` is never touched. The slice `data[index:]`
exists when `index ≤ len(data)`; otherwise the statement panics. The addition is that of Go
`int`s: it is exact while the sum stays inside 64 bits, and wraps around otherwise. -/
theorem C7_next_step (api : Opcodes) (hapi : api.distinct) (json : Json) (version : Nat)
    (s : State) (cmd : hyperstartCmd) (wrote : Nat) (b0 b1 b2 b3 : Byte) (tail : List Byte)
    (hcode : cmd.Code = api.INIT_NEXT) (hp : cmd.retMsg = b0 :: b1 :: b2 :: b3 :: tail) :
    iteration api json version s cmd wrote =
      (handleNext s (withResult cmd)).map (fun r => afterDispatch r.1 r.2 wrote) ∧
    (wrapInt (s.got + ((b0.val * 2 ^ 24 + b1.val * 2 ^ 16 + b2.val * 2 ^ 8 + b3.val : Nat) : Int))
        ≠ (s.index : Int) →
      handleNext s (withResult cmd) = some
        ({ s with
            got := wrapInt (s.got +
              ((b0.val * 2 ^ 24 + b1.val * 2 ^ 16 + b2.val * 2 ^ 8 + b3.val : Nat) : Int)),
            timeout := false },
          [Action.next (b0.val * 2 ^ 24 + b1.val * 2 ^ 16 + b2.val * 2 ^ 8 + b3.val)])) ∧
    (wrapInt (s.got + ((b0.val * 2 ^ 24 + b1.val * 2 ^ 16 + b2.val * 2 ^ 8 + b3.val : Nat) : Int))
        = (s.index : Int) →
      s.index ≤ s.data.length →
      handleNext s (withResult cmd) = some
        ({ s with got := 0, timeout := false, data := s.data.drop s.index, index := 0 },
          [Action.next (b0.val * 2 ^ 24 + b1.val * 2 ^ 16 + b2.val * 2 ^ 8 + b3.val),
            Action.retire s.index])) ∧
    (wrapInt (s.got + ((b0.val * 2 ^ 24 + b1.val * 2 ^ 16 + b2.val * 2 ^ 8 + b3.val : Nat) : Int))
        = (s.index : Int) →
      s.data.length < s.index → handleNext s (withResult cmd) = none) ∧
    (-2 ^ 63 ≤ s.got →
      s.got + ((b0.val * 2 ^ 24 + b1.val * 2 ^ 16 + b2.val * 2 ^ 8 + b3.val : Nat) : Int)
        < 2 ^ 63 →
      wrapInt (s.got +
          ((b0.val * 2 ^ 24 + b1.val * 2 ^ 16 + b2.val * 2 ^ 8 + b3.val : Nat) : Int)) =
        s.got + ((b0.val * 2 ^ 24 + b1.val * 2 ^ 16 + b2.val * 2 ^ 8 + b3.val : Nat) : Int)) := by
  obtain ⟨_, h1, h2, _⟩ := distinct_ne api hapi
  refine ⟨?_, fun h => ?_, fun h hb => ?_, fun h hb => ?_, fun h0 h1 => ?_⟩
  · simp only [iteration, withResult_Code, hcode, h1, h2, or_self, if_false, if_true]
    cases handleNext s (withResult cmd) with
    | none => rfl
    | some r => rfl
  · simp only [handleNext, withResult_retMsg, hp, uint32BE]
    rw [if_neg (fun e => h e.symm)]
  · simp only [handleNext, withResult_retMsg, hp, uint32BE]
    rw [if_pos h.symm, if_pos hb]
  · simp only [handleNext, withResult_retMsg, hp, uint32BE]
    rw [if_pos h.symm, if_neg (by omega)]
  · exact wrapInt_of_lt _ (by omega) h1

/-- C7, at a window of eight octets that a count of three completes. -/
theorem C7_next_step_witness :
    handleNext { State.init with index := 8, got := 5, data := [0, 0, 0, 0, 0, 0, 0, 9, 1] }
        (withResult ⟨14, .raw [], [0, 0, 0, 3], .nil⟩) =
      some ({ State.init with index := 0, got := 0, data := [1] },
        [Action.next 3, Action.retire 8]) :=
  (C7_next_step sampleOpcodes (by decide) noJson 4243
    { State.init with index := 8, got := 5, data := [0, 0, 0, 0, 0, 0, 0, 9, 1] }
    ⟨14, .raw [], [0, 0, 0, 3], .nil⟩ 0 0 0 0 3 [] rfl rfl).2.2.1 (by decide) (by decide)

/-- C8, amended. Command order: in every run of the dispatcher the commands are framed in the
order of the receptions at which they pass the version gate (a command put off by the gate is
framed when it comes back, after the commands received in between): the framed commands are, in
the order of framing, among the commands received, in the order of reception; `cmds` is a tail
of the framed commands and `data` a tail of their frames, both in the order of framing; and
when every write reports a count of at most the octets offered, the octets written to the
socket followed by `data[index:]` are the frames in the order of framing. So of two framed
commands the one framed first comes first in `cmds`, in `data` and on the socket. -/
theorem C8_command_order (api : Opcodes) (json : Json) (v : Nat) (ins : List Input)
    (c : Config) (hrun : waitCmdToInit api json v ins = some c) :
    (sendCmds c.trace).Sublist (received ins) ∧
    (∃ k, c.st.cmds = (sendCmds c.trace).drop k) ∧
    (∃ n, c.st.data = (sendBytes c.trace).drop n) ∧
    (honest c.trace → written c.trace ++ c.st.data.drop c.st.index = sendBytes c.trace) := by
  obtain ⟨l, hl, hsub⟩ := run_sends api json ins (Config.init v) c hrun
  obtain ⟨hq, -⟩ := run_queue api json v ins c hrun
  obtain ⟨⟨pre, hpre⟩, hw⟩ := run_invariant api json
    (fun c => (∃ pre, sendBytes c.trace = pre ++ c.st.data) ∧
      (honest c.trace → c.st.index ≤ c.st.data.length ∧
        written c.trace ++ c.st.data.drop c.st.index = sendBytes c.trace))
    (fun c0 i c1 hP hs => step_buffer api json c0 c1 i hP hs) ins (Config.init v) c
    ⟨⟨[], rfl⟩, fun _ => ⟨Nat.le_refl _, rfl⟩⟩ hrun
  refine ⟨?_, ⟨(pops c.trace).length, ?_⟩, ⟨pre.length, ?_⟩, fun hon => (hw hon).2⟩
  · rw [hl]; exact hsub
  · rw [hq, List.drop_left]
  · rw [hpre, List.drop_left]

/-- C8, at the run in which the version gate puts a command off. -/
theorem C8_command_order_witness :
    (sendCmds [Action.delay gatedExec, Action.send versionProbe (NewVmMessage ⟨0, []⟩),
        Action.write (NewVmMessage ⟨0, []⟩) 8, Action.pongStart,
        Action.send gatedExec (NewVmMessage ⟨6, [1]⟩)]).Sublist (received gateRun) :=
  (C8_command_order sampleOpcodes noJson 0 gateRun
    { vmHyperstartAPIVersion := 4243,
      st := { looping := true, cmds := [versionProbe, gatedExec],
              data := NewVmMessage ⟨0, []⟩ ++ NewVmMessage ⟨6, [1]⟩, timeout := true,
              index := 8, got := 0, pingTimer := false, pongTimer := true },
      trace := [Action.delay gatedExec, Action.send versionProbe (NewVmMessage ⟨0, []⟩),
        Action.write (NewVmMessage ⟨0, []⟩) 8, Action.pongStart,
        Action.send gatedExec (NewVmMessage ⟨6, [1]⟩)],
      exited := false } (by decide)).1

/-- C8 as stated fails at the version gate: the `INIT_EXECCMD` is received first, but with
version 0 it is put off; the version probe received after it is framed at once, and the
`INIT_EXECCMD` is framed when it comes back: it is behind the probe in `cmds` and in `data`. -/
theorem C8_counterexample :
    ∃ c, waitCmdToInit sampleOpcodes noJson 0 gateRun = some c ∧
      List.indexOf gatedExec (received gateRun) < List.indexOf versionProbe (received gateRun) ∧
      gatedExec ∈ sendCmds c.trace ∧ versionProbe ∈ sendCmds c.trace ∧
      List.indexOf versionProbe c.st.cmds < List.indexOf gatedExec c.st.cmds ∧
      c.st.data = NewVmMessage ⟨0, []⟩ ++ NewVmMessage ⟨6, [1]⟩ ∧
      delays c.trace = [gatedExec] := by
  refine ⟨_, rfl, ?_⟩
  decide

/-- C9, amended. At most one result, one on reply: in every run of the dispatcher the framed
commands that are not a `PING` are, in the order of framing, those that got a value from a reply
(`INIT_ACK` or `INIT_ERROR` processed with the command at the head of `cmds`), one value each,
followed by those still pending in `cmds`, which got none. So a framed command that is not a
`PING` gets at most one value, and exactly one when its reply is processed. -/
theorem C9_one_result (api : Opcodes) (json : Json) (v : Nat) (ins : List Input) (c : Config)
    (hrun : waitCmdToInit api json v ins = some c) :
    (sendCmds c.trace).filter (nonPing api) =
      (results c.trace).filter (nonPing api) ++ c.st.cmds.filter (nonPing api) := by
  obtain ⟨h1, h2⟩ := run_queue api json v ins c hrun
  rw [h1, List.filter_append, h2]

/-- C9, at a run that ends with one command replied to and one pending. -/
theorem C9_one_result_witness :
    ∃ c, waitCmdToInit sampleOpcodes noJson 4243 destroyRun = some c ∧
      (sendCmds c.trace).filter (nonPing sampleOpcodes) =
        (results c.trace).filter (nonPing sampleOpcodes) ++
          c.st.cmds.filter (nonPing sampleOpcodes) :=
  ⟨_, rfl, C9_one_result sampleOpcodes noJson 4243 destroyRun _ rfl⟩

/-- C9 as stated fails for a command that is pending when the dispatcher leaves its loop: the
version probe is framed behind an `INIT_DESTROYPOD`, the `INIT_ACK` of the latter ends the
loop, and the probe has got no value; whatever comes next, the dispatcher does nothing more. -/
theorem C9_counterexample :
    ∃ c, waitCmdToInit sampleOpcodes noJson 4243 destroyRun = some c ∧
      versionProbe ∈ sendCmds c.trace ∧ versionProbe.Code ≠ sampleOpcodes.INIT_PING ∧
      valuesFor versionProbe c.trace = 0 ∧ c.exited = true ∧
      ∀ more, ∃ c1, run sampleOpcodes noJson c more = some c1 ∧ c1.trace = c.trace := by
  refine ⟨_, rfl, by decide, by decide, by decide, rfl, fun more => ?_⟩
  exact Exists.imp (fun c1 h => ⟨h.1, h.2.1⟩)
    (run_exited sampleOpcodes noJson more _ (by rfl))

/-- C10. Version gate: with `vmHyperstartAPIVersion == 0` a command `INIT_EXECCMD` or
`INIT_NEWCONTAINER` leaves the state as it is (`cmds`, `data`, `index`, `got`, `timeout`),
nothing is written, no value is sent on a result channel, and the one action is the command
scheduled to come back on `ctx.vm`. A command with any other outbound code is never put off:
it is framed, or refused with an error on its result. -/
theorem C10_version_gate (api : Opcodes) (hapi : api.distinct) (json : Json) (s : State)
    (cmd : hyperstartCmd) (wrote : Nat) :
    (cmd.Code = api.INIT_EXECCMD ∨ cmd.Code = api.INIT_NEWCONTAINER →
      iteration api json 0 s cmd wrote = some (s, [Action.delay (withResult cmd)])) ∧
    (∀ version, cmd.Code ≠ api.INIT_EXECCMD → cmd.Code ≠ api.INIT_NEWCONTAINER →
      cmd.Code ≠ api.INIT_ACK → cmd.Code ≠ api.INIT_ERROR → cmd.Code ≠ api.INIT_NEXT →
      ∃ s1 acts, iteration api json version s cmd wrote = some (s1, acts) ∧ delays acts = [] ∧
        ((∃ e, s1 = s ∧ acts = [Action.failed (withResult cmd) e]) ∨
          (∃ message, s1.cmds = s.cmds ++ [withResult cmd] ∧
            s1.data = s.data ++ NewVmMessage { Code := cmd.Code, Message := message } ∧
            sendCmds acts = [withResult cmd]))) := by
  obtain ⟨_, _, _, h1, h2, h3, h4, h5, h6⟩ := distinct_ne api hapi
  constructor
  · intro hcode
    have hn : ¬ (cmd.Code = api.INIT_ACK ∨ cmd.Code = api.INIT_ERROR) := by
      rcases hcode with h | h <;> rw [h] <;> simp [h1, h2, h4, h5]
    have hx : ¬ cmd.Code = api.INIT_NEXT := by
      rcases hcode with h | h <;> rw [h] <;> simp [h3, h6]
    simp only [iteration, withResult_Code, hn, hx, if_false, handleOutbound, hcode, and_self,
      if_true]
  · intro version e1 e2 e3 e4 e5
    simp only [iteration, withResult_Code, e3, e4, e5, or_self, if_false, handleOutbound, e1, e2,
      and_false]
    cases henc : encodePayload api json version (withResult cmd) with
    | error e => exact ⟨_, _, rfl, rfl, Or.inl ⟨e, rfl, rfl⟩⟩
    | ok message =>
      obtain ⟨s1, w, p, hs, hp, -, hcmds, hdata, -, -, -, hw⟩ := afterDispatch_spec
        { s with cmds := s.cmds ++ [withResult cmd],
                 data := s.data ++ NewVmMessage { Code := cmd.Code, Message := message },
                 timeout := true }
        [Action.send (withResult cmd)
          (NewVmMessage { Code := cmd.Code, Message := message })] wrote
      refine ⟨s1, _, congrArg some hs, ?_, Or.inr ⟨message, hcmds, hdata, ?_⟩⟩
      · rcases hp with rfl | rfl <;> rcases hw with ⟨rfl, -⟩ | ⟨rfl, -⟩ <;> rfl
      · rcases hp with rfl | rfl <;> rcases hw with ⟨rfl, -⟩ | ⟨rfl, -⟩ <;> rfl

/-- C10, at an `INIT_EXECCMD` received by the dispatcher in its first state. -/
theorem C10_version_gate_witness :
    iteration sampleOpcodes noJson 0 State.init ⟨6, .raw [1], [], .nil⟩ 0 =
      some (State.init, [Action.delay ⟨6, .raw [1], [], .hub⟩]) :=
  (C10_version_gate sampleOpcodes (by decide) noJson State.init ⟨6, .raw [1], [], .nil⟩ 0).1
    (Or.inl rfl)

/-- The loop of `ReadVmMessage` on a stream that starts with a header whose length field is at
most eight stops after the eight octets of the header and returns a message with an empty
payload. -/
theorem readLoop_short (h : List Byte) (hlen : h.length = 8) (L : Nat)
    (hL : uint32BE (h.drop 4) = some L) (hle : L ≤ 8) (rest : List Byte) :
    ∀ (fuel : Nat) (conn : UnixConn) (length read : Nat) (res : List Byte),
      conn.stream.length + conn.ready.length < fuel →
      res = h.take read →
      conn.stream = h.drop read ++ rest →
      ((length = 0 ∧ read < 8) ∨ read = 8) →
      ∃ k, readLoop fuel conn 8 length read res =
        .ok ({ Code := (uint32BE h).getD 0, Message := [] },
          { stream := rest, ready := conn.ready.drop k }) := by
  intro fuel
  induction fuel with
  | zero => intro conn _ _ _ h; omega
  | succ fuel ih =>
    intro conn length read res hfuel hres hstream hph
    rw [readLoop]
    by_cases hlt : read < 8
    · rw [if_pos hlt]
      have h0 : length = 0 := by
        rcases hph with ⟨h0, _⟩ | h8
        · exact h0
        · omega
      have hslen : conn.stream.length = 8 - read + rest.length := by
        rw [hstream, List.length_append, List.length_drop, hlen]
      have hne : conn.stream ≠ [] := by
        intro e; rw [e] at hslen; simp at hslen; omega
      obtain ⟨nr, hnr1, hnr2, hmeas, hread⟩ := Read_spec conn
        (if 8 - read > 512 then 512 else 8 - read) (by split <;> omega) hne
      have hnr3 : nr ≤ 8 - read := by
        split at hnr1 <;> omega
      have htake : res ++ conn.stream.take nr = h.take (read + nr) := by
        rw [hres, hstream, List.take_add,
          List.take_append_of_le_length (by rw [List.length_drop, hlen]; omega)]
      have hdrop : conn.stream.drop nr = h.drop (read + nr) ++ rest := by
        rw [hstream, List.drop_append_of_le_length (by rw [List.length_drop, hlen]; omega),
          List.drop_drop]
      have hlen1 : (conn.stream.take nr).length = nr := by
        rw [List.length_take]; omega
      simp only [hread, hlen1, htake]
      have hfuel1 : (conn.stream.drop nr).length + conn.ready.tail.length < fuel := by
        rw [List.length_drop]; omega
      have hk : ∀ k, (conn.ready.tail).drop k = conn.ready.drop (k + 1) := by
        intro k; cases conn.ready <;> simp
      by_cases h8 : read + nr ≥ 8
      · rw [if_pos ⟨h0, h8⟩]
        have hrn : read + nr = 8 := by omega
        have hfield : uint32BE ((h.take (read + nr)).drop 4) = some L := by
          rw [hrn, List.take_of_length_le (by omega)]; exact hL
        simp only [hfield, Option.getD_some]
        rw [if_neg (by omega)]
        obtain ⟨k, hk1⟩ := ih ⟨conn.stream.drop nr, conn.ready.tail⟩ L (read + nr) _ hfuel1
          rfl hdrop (Or.inr hrn)
        exact ⟨k + 1, by rw [hk1, hk]⟩
      · rw [if_neg (fun e => h8 e.2)]
        obtain ⟨k, hk1⟩ := ih ⟨conn.stream.drop nr, conn.ready.tail⟩ length (read + nr) _
          hfuel1 rfl hdrop (Or.inl ⟨h0, by omega⟩)
        exact ⟨k + 1, by rw [hk1, hk]⟩
    · rw [if_neg hlt]
      have hrd : read = 8 := by
        rcases hph with ⟨_, h1⟩ | h8
        · omega
        · exact h8
      have hres1 : res = h := by
        rw [hres]; exact List.take_of_length_le (by omega)
      have hs1 : conn.stream = rest := by
        rw [hstream, List.drop_of_length_le (by omega), List.nil_append]
      refine ⟨0, ?_⟩
      rw [hres1, List.drop_of_length_le (by omega), List.drop_zero, ← hs1]

/-- C14, amended. A short length is not rejected: for every stream whose first eight octets
carry a total-length field smaller than 8, and for every way in which the socket hands out the
octets, `ReadVmMessage` signals no error: it returns the message with the code of the header and
an empty payload, and has read the eight octets of the header and no more. -/
theorem C14_short_length (b0 b1 b2 b3 b4 b5 b6 b7 : Byte) (rest : List Byte)
    (ready : List Nat)
    (hshort : b4.val * 2 ^ 24 + b5.val * 2 ^ 16 + b6.val * 2 ^ 8 + b7.val < 8) :
    ∃ k, ReadVmMessage
        { stream := b0 :: b1 :: b2 :: b3 :: b4 :: b5 :: b6 :: b7 :: rest, ready := ready } =
      .ok ({ Code := b0.val * 2 ^ 24 + b1.val * 2 ^ 16 + b2.val * 2 ^ 8 + b3.val,
             Message := [] },
        { stream := rest, ready := ready.drop k }) := by
  unfold ReadVmMessage
  exact readLoop_short [b0, b1, b2, b3, b4, b5, b6, b7] rfl _ rfl (Nat.le_of_lt hshort) rest _
    { stream := b0 :: b1 :: b2 :: b3 :: b4 :: b5 :: b6 :: b7 :: rest, ready := ready } 0 0 []
    (Nat.lt_succ_self _) rfl rfl (Or.inl ⟨rfl, by omega⟩)

/-- C14, at a header with code 9 and length field 3, followed by one more octet. -/
theorem C14_short_length_witness :
    ∃ k, ReadVmMessage { stream := [0, 0, 0, 9, 0, 0, 0, 3, 7], ready := [5, 1] } =
      .ok ({ Code := (0 : Byte).val * 2 ^ 24 + (0 : Byte).val * 2 ^ 16 + (0 : Byte).val * 2 ^ 8 +
               (9 : Byte).val,
             Message := [] },
        { stream := [7], ready := ([5, 1] : List Nat).drop k }) :=
  C14_short_length 0 0 0 9 0 0 0 3 [7] [5, 1] (by decide)

/-- C14 as stated fails: a header with code 9 and total length 3 is read as a message with an
empty payload, without error. -/
theorem C14_counterexample :
    ReadVmMessage { stream := [0, 0, 0, 9, 0, 0, 0, 3], ready := [] } =
      .ok ({ Code := 9, Message := [] }, { stream := [], ready := [] }) := by
  decide

/-- C12. Version probe: the `INIT_ACK` processed with the `INIT_VERSION` command at the head of
`cmds` leaves its payload `r` in the command and sends `nil` on its result; with that,
`getVMHyperstartAPIVersion` returns no error and stores the big-endian `uint32` of `r[0..4]`
when `len(r) >= 4` (the payload `[0x00,0x00,0x10,0x92]` gives 4242); it returns an error and
leaves the version as it is when `len(r) < 4`, and when the result is an error. -/
theorem C12_version_probe (api : Opcodes) (hapi : api.distinct) (json : Json) (version : Nat)
    (s : State) (chan : Nat) (rest : List hyperstartCmd) (ack : hyperstartCmd) (wrote : Nat)
    (hcmds : s.cmds = versionCmd api chan :: rest) (hack : ack.Code = api.INIT_ACK) :
    (∃ s1 acts, iteration api json version s ack wrote = some (s1, acts) ∧
      Action.result (versionCmd api chan) ack.retMsg none ∈ acts ∧
      deliveries acts = [(versionCmd api chan, none)]) ∧
    (∀ b0 b1 b2 b3 tail, ack.retMsg = b0 :: b1 :: b2 :: b3 :: tail →
      getVMHyperstartAPIVersion version ack.retMsg none =
        (none, b0.val * 2 ^ 24 + b1.val * 2 ^ 16 + b2.val * 2 ^ 8 + b3.val)) ∧
    (ack.retMsg.length < 4 →
      getVMHyperstartAPIVersion version ack.retMsg none =
        (some (.unexpected ack.retMsg), version)) ∧
    (∀ r e, getVMHyperstartAPIVersion version r (some e) = (some (.result e), version)) ∧
    getVMHyperstartAPIVersion version [0x00, 0x00, 0x10, 0x92] none = (none, 4242) := by
  have hping : (versionCmd api chan).Code ≠ api.INIT_PING := by
    have h1 := hapi.1
    simp only [List.nodup_cons, List.mem_cons, List.mem_singleton, not_or] at h1
    intro e
    simp_all [versionCmd]
  refine ⟨?_, ?_, ?_, ?_, ?_⟩
  · rw [iteration_reply api json version s ack wrote (Or.inl hack)]
    refine ⟨_, _, rfl, ?_, ?_⟩
    · simp only [handleReply, hcmds, withResult_Code, withResult_retMsg, hack, if_true]
      rw [if_pos hping]
      simp
    · simp only [handleReply, hcmds, withResult_Code, withResult_retMsg, hack, if_true]
      rw [if_pos hping]
      cases s.pongTimer <;> cases s.pingTimer <;> simp [deliveries]
  · intro b0 b1 b2 b3 tail hr
    simp [getVMHyperstartAPIVersion, hr, uint32BE]
  · intro hlt
    simp [getVMHyperstartAPIVersion, hlt]
  · intro r e; rfl
  · rfl

/-- C12, at the `INIT_ACK` that answers the version probe with 4242. -/
theorem C12_version_probe_witness :
    getVMHyperstartAPIVersion 0 [0x00, 0x00, 0x10, 0x92] none = (none, 4242) :=
  (C12_version_probe sampleOpcodes (by decide) noJson 0
    { State.init with cmds := [versionCmd sampleOpcodes 1] } 1 []
    ⟨9, .raw [], [0x00, 0x00, 0x10, 0x92], .nil⟩ 0 rfl rfl).2.2.2.2

/-- C13. Destroy is terminal: in the loop, with a command pending, an `INIT_ACK` or
`INIT_ERROR` reply makes the dispatcher leave the loop if and only if the head of `cmds` has
code `INIT_DESTROYPOD`; when it leaves the loop neither the ping timer nor the pong timer
runs any more. -/
theorem C13_destroy_terminal (api : Opcodes) (json : Json) (c : Config)
    (head : hyperstartCmd) (rest : List hyperstartCmd) (cmd : hyperstartCmd) (wrote : Nat)
    (hin : c.exited = false) (hloop : c.st.looping = true) (hcmds : c.st.cmds = head :: rest)
    (hcode : cmd.Code = api.INIT_ACK ∨ cmd.Code = api.INIT_ERROR) :
    ∃ c1 acts, step api json c (.recv cmd wrote) = some c1 ∧ c1.trace = c.trace ++ acts ∧
      (c1.exited = true ↔ head.Code = api.INIT_DESTROYPOD) ∧
      (c1.exited = true →
        timersAfter (c.st.pingTimer, c.st.pongTimer) acts = (false, false)) := by
  simp only [step, hin, Bool.false_eq_true, if_false,
    iteration_reply api json c.vmHyperstartAPIVersion c.st cmd wrote hcode]
  by_cases hd : head.Code = api.INIT_DESTROYPOD
  · have hl : (handleReply api c.st (withResult cmd)).1.looping = false := by
      simp [handleReply, hcmds, hd]
    simp only [hl, Bool.false_eq_true, if_false]
    refine ⟨_, (handleReply api c.st (withResult cmd)).2 ++
      stopTimers (handleReply api c.st (withResult cmd)).1, rfl, ?_, ?_, ?_⟩
    · simp
    · simp [hd]
    · intro _
      simp only [handleReply, hcmds, stopTimers]
      cases c.st.pongTimer <;> cases c.st.pingTimer <;>
        by_cases h1 : (withResult cmd).Code = api.INIT_ACK <;>
        by_cases h2 : head.Code = api.INIT_PING <;>
        simp [h1, h2, timersAfter]
  · have hl : (handleReply api c.st (withResult cmd)).1.looping = true := by
      simp [handleReply, hcmds, hd, hloop]
    simp only [hl, if_true]
    refine ⟨_, (handleReply api c.st (withResult cmd)).2, rfl, rfl, ?_, ?_⟩
    · simp [hd, hin]
    · intro h; simp [hin] at h

/-- C13, at the `INIT_ACK` that answers an `INIT_DESTROYPOD` while the pong timer runs. -/
theorem C13_destroy_terminal_witness :
    ∃ c1 acts, step sampleOpcodes noJson
        { vmHyperstartAPIVersion := 4243,
          st := { State.init with cmds := [⟨4, .raw [], [], .chan 1⟩], pongTimer := true },
          trace := [], exited := false }
        (.recv ⟨9, .raw [], [], .nil⟩ 0) = some c1 ∧
      c1.trace = [] ++ acts ∧
      (c1.exited = true ↔
        (⟨4, .raw [], [], .chan 1⟩ : hyperstartCmd).Code = sampleOpcodes.INIT_DESTROYPOD) ∧
      (c1.exited = true → timersAfter (false, true) acts = (false, false)) :=
  C13_destroy_terminal sampleOpcodes noJson
    { vmHyperstartAPIVersion := 4243,
      st := { State.init with cmds := [⟨4, .raw [], [], .chan 1⟩], pongTimer := true },
      trace := [], exited := false }
    ⟨4, .raw [], [], .chan 1⟩ [] ⟨9, .raw [], [], .nil⟩ 0 rfl rfl rfl (Or.inl rfl)

theorem deleteProcessId_length (m : JMap) : (deleteProcessId m).length = m.length := by
  induction m with
  | nil => rfl
  | cons kv m ih =>
    obtain ⟨k, v⟩ := kv
    unfold deleteProcessId
    split
    · split <;> rfl
    · simp [ih]

/-- A failure of the encoding is an error of `encodePayload`. -/
theorem encodePayload_fails (api : Opcodes) (json : Json) (version : Nat)
    (cmd : hyperstartCmd) (h : EncodingFails api json version cmd) :
    ∃ e, encodePayload api json version cmd = .error e := by
  unfold EncodingFails marshalled at h
  unfold encodePayload
  rcases h with h | ⟨hv, hc, payload, hp, h⟩
  · simp only [h]
    exact ⟨_, rfl⟩
  · simp only [hp, hv, if_true, hc]
    rcases h with h | ⟨m, hm, hne, hmm⟩
    · simp only [h, Option.map_none']
      exact ⟨_, rfl⟩
    · have hlen : (deleteProcessId m).length ≠ 0 := by
        rw [deleteProcessId_length]
        exact fun e => hne (List.length_eq_zero.mp e)
      simp only [hm, Option.map_some', hlen, ne_eq, not_false_eq_true, if_true, hmm]
      exact ⟨_, rfl⟩

/-- C15, amended. Encoding failures are local: in the loop, for every outbound command that
passes the version gate (it is not an `INIT_EXECCMD` or `INIT_NEWCONTAINER` received while the
version is 0) and whose payload fails to encode, exactly one action happens: an error is sent on
the result of that command. The command is not framed (`cmds`, `data`, `index`, `got` and
everything else in the state stay), nothing is written, and the dispatcher stays in the loop. -/
theorem C15_encoding_failure (api : Opcodes) (json : Json) (c : Config) (cmd : hyperstartCmd)
    (wrote : Nat) (hin : c.exited = false) (hloop : c.st.looping = true)
    (hack : cmd.Code ≠ api.INIT_ACK) (herr : cmd.Code ≠ api.INIT_ERROR)
    (hnext : cmd.Code ≠ api.INIT_NEXT)
    (hgate : ¬ (c.vmHyperstartAPIVersion = 0 ∧
      (cmd.Code = api.INIT_EXECCMD ∨ cmd.Code = api.INIT_NEWCONTAINER)))
    (hfails : EncodingFails api json c.vmHyperstartAPIVersion cmd) :
    ∃ e, step api json c (.recv cmd wrote) =
        some { c with trace := c.trace ++ [Action.failed (withResult cmd) e] } ∧
      deliveries [Action.failed (withResult cmd) e] = [(withResult cmd, some e)] := by
  have hfails1 : EncodingFails api json c.vmHyperstartAPIVersion (withResult cmd) := by
    unfold EncodingFails marshalled at hfails ⊢
    rw [withResult_Message, withResult_Code]
    exact hfails
  obtain ⟨e, he⟩ := encodePayload_fails api json _ _ hfails1
  refine ⟨e, ?_, rfl⟩
  have hit : iteration api json c.vmHyperstartAPIVersion c.st cmd wrote =
      some (c.st, [Action.failed (withResult cmd) e]) := by
    simp only [iteration, withResult_Code, hack, herr, hnext, or_self, if_false,
      handleOutbound, hgate, he]
  simp only [step, hin, Bool.false_eq_true, if_false, hit, hloop, if_true]

/-- C15, at an `INIT_EXECCMD` with a payload that does not parse, under version 4242. -/
theorem C15_encoding_failure_witness :
    ∃ e, step sampleOpcodes pickyJson
        { vmHyperstartAPIVersion := 4242, st := State.init, trace := [], exited := false }
        (.recv ⟨6, .raw [0], [], .chan 1⟩ 0) =
        some { vmHyperstartAPIVersion := 4242, st := State.init,
               trace := [] ++ [Action.failed (withResult ⟨6, .raw [0], [], .chan 1⟩) e],
               exited := false } ∧
      deliveries [Action.failed (withResult ⟨6, .raw [0], [], .chan 1⟩) e] =
        [(withResult ⟨6, .raw [0], [], .chan 1⟩, some e)] :=
  C15_encoding_failure sampleOpcodes pickyJson
    { vmHyperstartAPIVersion := 4242, st := State.init, trace := [], exited := false }
    ⟨6, .raw [0], [], .chan 1⟩ 0 rfl rfl (by decide) (by decide) (by decide) (by decide)
    (Or.inr ⟨by decide, Or.inl rfl, [0], rfl, Or.inl rfl⟩)

/-- C15 as stated fails at the version gate: while the version is 0, an `INIT_EXECCMD` whose
value `json.Marshal` refuses is put off by the gate (lines 240-247) before any encoding is
tried: the only action is the delay, no error is delivered, the state is unchanged. -/
theorem C15_counterexample :
    EncodingFails sampleOpcodes noJson 0 ⟨6, .value 0, [], .chan 1⟩ ∧
    step sampleOpcodes noJson (Config.init 0) (.recv ⟨6, .value 0, [], .chan 1⟩ 0) =
      some { vmHyperstartAPIVersion := 0, st := State.init,
             trace := [Action.delay ⟨6, .value 0, [], .chan 1⟩], exited := false } ∧
    deliveries [Action.delay ⟨6, .value 0, [], .chan 1⟩] = [] :=
  ⟨Or.inl rfl, rfl, rfl⟩

theorem handleReply_writes (api : Opcodes) (s : State) (cmd : hyperstartCmd) :
    writes (handleReply api s cmd).2 = [] ∧ (handleReply api s cmd).1.index = s.index ∧
      (handleReply api s cmd).1.data = s.data := by
  unfold handleReply
  cases s.cmds with
  | nil => exact ⟨rfl, rfl, rfl⟩
  | cons head rest =>
    refine ⟨?_, rfl, rfl⟩
    cases s.pongTimer <;> cases s.pingTimer <;>
      by_cases h1 : cmd.Code = api.INIT_ACK <;>
      by_cases h2 : head.Code = api.INIT_PING <;>
      simp [h1, h2, writes]

/-- C16, amended. The writer runs after a `NEXT` and after a framed command: for every state
and every message that is an `INIT_NEXT` or an outbound command that is framed, if after the
branch of the message `index == 0` and `data` is not empty, the dispatcher writes the first
`min(512, len(data))` octets of `data` to the socket and adds the count written to `index`.
After an `INIT_ACK` or `INIT_ERROR` reply the writer is not run: nothing is written, and `index`
and `data` stay. -/
theorem C16_writer_step (api : Opcodes) (hapi : api.distinct) (json : Json) (version : Nat)
    (s : State) (cmd : hyperstartCmd) (wrote : Nat) :
    (∀ s1 a1,
      ((cmd.Code = api.INIT_NEXT ∧ handleNext s (withResult cmd) = some (s1, a1)) ∨
        (cmd.Code ≠ api.INIT_ACK ∧ cmd.Code ≠ api.INIT_ERROR ∧ cmd.Code ≠ api.INIT_NEXT ∧
          handleOutbound api json version s (withResult cmd) = .framed s1 a1)) →
      s1.index = 0 → s1.data ≠ [] →
      ∃ s2 p, iteration api json version s cmd wrote =
          some (s2, a1 ++ Action.write (s1.data.take (min 512 s1.data.length)) wrote :: p) ∧
        p.all isTimer = true ∧ s2.index = s1.index + wrote ∧ s2.data = s1.data) ∧
    (cmd.Code = api.INIT_ACK ∨ cmd.Code = api.INIT_ERROR →
      ∃ s2 acts, iteration api json version s cmd wrote = some (s2, acts) ∧
        writes acts = [] ∧ s2.index = s.index ∧ s2.data = s.data) := by
  obtain ⟨_, h1, h2, _⟩ := distinct_ne api hapi
  constructor
  · intro s1 a1 hbranch hindex hdata
    have hlen : s1.data.length ≠ 0 := fun e => hdata (List.length_eq_zero.mp e)
    obtain ⟨s2, w, p, had, hp, -, -, hd, -, hw⟩ := afterDispatch_cases s1 a1 wrote
    have hw1 : w = [Action.write (s1.data.take (min 512 s1.data.length)) wrote] ∧
        s2.index = wrote := by
      rcases hw with ⟨-, -, hno⟩ | ⟨e1, e2, -⟩
      · exact absurd ⟨hindex, hlen⟩ hno
      · exact ⟨e1, e2⟩
    have hit : iteration api json version s cmd wrote = some (afterDispatch s1 a1 wrote) := by
      rcases hbranch with ⟨hc, hn⟩ | ⟨e1, e2, e3, ho⟩
      · simp only [iteration, withResult_Code, hc, h1, h2, or_self, if_false, if_true, hn]
      · simp only [iteration, withResult_Code, e1, e2, e3, or_self, if_false, ho]
    refine ⟨s2, p, ?_, hp, by rw [hw1.2, hindex, Nat.zero_add], hd⟩
    rw [hit, had, hw1.1]
    rfl
  · intro hcode
    rw [iteration_reply api json version s cmd wrote hcode]
    obtain ⟨e1, e2, e3⟩ := handleReply_writes api s (withResult cmd)
    exact ⟨_, _, rfl, e1, e2, e3⟩

/-- C16, at the first command of a run: its frame of eight octets is written at once. -/
theorem C16_writer_step_witness :
    ∃ s2 p, iteration sampleOpcodes noJson 4243 State.init ⟨12, .raw [], [], .chan 1⟩ 8 =
        some (s2, [Action.send ⟨12, .raw [], [], .chan 1⟩ (NewVmMessage ⟨12, []⟩)] ++
          Action.write ((NewVmMessage ⟨12, []⟩).take (min 512 (NewVmMessage ⟨12, []⟩).length))
            8 :: p) ∧
      p.all isTimer = true ∧ s2.index = 0 + 8 ∧ s2.data = NewVmMessage ⟨12, []⟩ :=
  (C16_writer_step sampleOpcodes (by decide) noJson 4243 State.init
    ⟨12, .raw [], [], .chan 1⟩ 8).1
    { State.init with cmds := [⟨12, .raw [], [], .chan 1⟩], data := NewVmMessage ⟨12, []⟩,
                      timeout := true }
    [Action.send ⟨12, .raw [], [], .chan 1⟩ (NewVmMessage ⟨12, []⟩)]
    (Or.inr ⟨by decide, by decide, by decide, rfl⟩) rfl (by decide)

/-- C16 as stated fails after a reply: a write that reports 0 octets leaves `index == 0` with
`data` not empty, and the `INIT_ACK` processed next writes nothing, although `index == 0` and
`data` is not empty after it. -/
theorem C16_counterexample :
    ∃ c1 c2,
      waitCmdToInit sampleOpcodes noJson 4243 [.recv ⟨12, .raw [], [], .chan 1⟩ 0] = some c1 ∧
      step sampleOpcodes noJson c1 (.recv ⟨9, .raw [], [], .nil⟩ 8) = some c2 ∧
      c2.st.index = 0 ∧ c2.st.data = NewVmMessage ⟨12, []⟩ ∧ c2.st.data ≠ [] ∧
      writes c2.trace = writes c1.trace := by
  refine ⟨_, _, rfl, rfl, ?_⟩
  decide

/-- C17, amended. Event loop on a closed Hub: for every context with a handler, when the Hub is
closed the loop returns and leaves the handler of the context as it is (it is not cleared);
`nil` events read before that do not call the handler and do not end the loop. -/
theorem C17_loop_closed (become : Nat → Nat → Option Nat) (ctx : VmContext) (h : Nat)
    (n : Nat) (rest : List HubRead) (hh : ctx.handler = some h) :
    VmContext.loop become ctx (List.replicate n .nilEvent ++ .closed :: rest) =
      { ctx with returned := true } ∧
    VmContext.loop become ctx (List.replicate n .nilEvent) = ctx := by
  induction n with
  | zero =>
    constructor
    · simp only [List.replicate_zero, List.nil_append, VmContext.loop, hh]
    · simp only [List.replicate_zero, VmContext.loop, hh]
  | succ n ih =>
    constructor
    · have e := ih.1
      rw [List.replicate_succ, List.cons_append, VmContext.loop]
      simp only [hh] at e ⊢
      exact e
    · rw [List.replicate_succ, VmContext.loop]
      simp only [hh]
      exact ih.2

/-- C17, at two `nil` events followed by the close of the Hub. -/
theorem C17_loop_closed_witness :
    VmContext.loop (fun _ _ => none) { handler := some 1, handled := [], returned := false }
        (List.replicate 2 .nilEvent ++ .closed :: []) =
      { handler := some 1, handled := [], returned := true } ∧
    VmContext.loop (fun _ _ => none) { handler := some 1, handled := [], returned := false }
        (List.replicate 2 .nilEvent) =
      { handler := some 1, handled := [], returned := false } :=
  C17_loop_closed (fun _ _ => none) { handler := some 1, handled := [], returned := false } 1 2
    [] rfl

/-- C17 as stated fails: when the Hub is closed the loop returns with the handler still set. -/
theorem C17_counterexample :
    (VmContext.loop (fun _ _ => none) { handler := some 1, handled := [], returned := false }
        [.closed]).returned = true ∧
    (VmContext.loop (fun _ _ => none) { handler := some 1, handled := [], returned := false }
        [.closed]).handler ≠ none := by
  decide

theorem mem_sendCmds_of_send (cmd : hyperstartCmd) (frame : List Byte) (t : List Action)
    (h : Action.send cmd frame ∈ t) : cmd ∈ sendCmds t :=
  List.mem_filterMap.mpr ⟨_, h, rfl⟩

/-- The frames that one input appends are frames of `NewVmMessage` with the code of their
command. -/
theorem step_frames (api : Opcodes) (json : Json) (c c1 : Config) (i : Input)
    (h : step api json c i = some c1) :
    ∃ acts, c1.trace = c.trace ++ acts ∧ ∀ cmd frame, Action.send cmd frame ∈ acts →
      ∃ message, frame = NewVmMessage { Code := cmd.Code, Message := message } := by
  obtain ⟨acts, htr, hc⟩ := step_cases api json c c1 i h
  refine ⟨acts, htr, ?_⟩
  have none_of : sendCmds acts = [] → ∀ cmd frame, Action.send cmd frame ∈ acts →
      ∃ message, frame = NewVmMessage { Code := cmd.Code, Message := message } := by
    intro h0 cmd frame hm
    have := mem_sendCmds_of_send cmd frame acts hm
    rw [h0] at this
    exact absurd this (List.not_mem_nil _)
  rcases hc with ⟨ht, -⟩ | ⟨cmd, wrote, -, -, hc⟩
  · exact none_of (sendCmds_timers acts ht)
  · rcases hc with ⟨head, rest, d, t, -, hd, ht, rfl, -⟩ | ⟨-, t, ht, hacts⟩ |
      ⟨count, w, p, rfl, hp, -, -, -, -, hw⟩ |
      ⟨count, w, p, rfl, hp, -, -, -, -, -, hw⟩ |
      ⟨message, w, p, rfl, hp, -, -, -, hw⟩
    · apply none_of
      rw [show d ++ Action.pop head :: t = (d ++ [Action.pop head]) ++ t by simp,
        sendCmds_append, sendCmds_timers t ht]
      rcases hd with ⟨rfl, -⟩ | ⟨e, rfl⟩ <;> rfl
    · apply none_of
      rcases hacts with rfl | ⟨e, rfl⟩ <;>
        · rw [sendCmds_cons, sendCmds_timers t ht]; rfl
    · apply none_of
      obtain ⟨r1, -⟩ := readers_Wrote _ _ _ _ _ _ hw hp
      rw [sendCmds_cons, r1]; rfl
    · apply none_of
      obtain ⟨r1, -⟩ := readers_Wrote _ _ _ _ _ _ hw hp
      rw [show Action.next count :: Action.retire c.st.index :: (w ++ p) =
        [Action.next count, Action.retire c.st.index] ++ (w ++ p) from rfl, sendCmds_append, r1]
      rfl
    · intro cmd1 frame hm
      rcases List.mem_cons.mp hm with e | hm1
      · injection e with e1 e2
        exact ⟨message, by rw [e2, e1, withResult_Code]⟩
      · obtain ⟨r1, -⟩ := readers_Wrote _ _ _ _ _ _ hw hp
        have := mem_sendCmds_of_send cmd1 frame _ hm1
        rw [r1] at this
        exact absurd this (List.not_mem_nil _)

theorem index_Wrote (ix : Nat) (d : List Byte) (wr : Nat) (w p : List Action) (ix1 : Nat)
    (hw : Wrote ix d wr w ix1) (hon : honest (w ++ p))
    (hix : ix ≤ 512) : ix1 ≤ 512 := by
  rcases hw with ⟨-, hi1, -⟩ | ⟨rfl, hi1, -, -⟩
  · omega
  · have h1 : wr ≤ (d.take (min 512 d.length)).length :=
      hon (d.take (min 512 d.length), wr) (by simp [writes])
    rw [List.length_take] at h1
    omega

/-- With honest writes `index` is at most 512. -/
theorem step_index (api : Opcodes) (json : Json) (c c1 : Config) (i : Input)
    (hP : honest c.trace → c.st.index ≤ 512) (h : step api json c i = some c1) :
    honest c1.trace → c1.st.index ≤ 512 := by
  obtain ⟨acts, htr, hc⟩ := step_cases api json c c1 i h
  intro hon
  rw [htr] at hon
  obtain ⟨hon1, hon2⟩ := honest_append _ _ hon
  have hix := hP hon1
  rcases hc with ⟨-, -, -, hi, -⟩ | ⟨cmd, wrote, -, -, hc⟩
  · omega
  · rcases hc with ⟨head, rest, d, t, -, -, -, -, -, -, hi, -⟩ | ⟨hst, -⟩ |
      ⟨count, w, p, rfl, -, -, -, -, -, hw⟩ |
      ⟨count, w, p, rfl, -, -, -, -, -, -, hw⟩ |
      ⟨message, w, p, rfl, -, -, -, -, hw⟩
    · omega
    · rw [hst]; exact hix
    · exact index_Wrote _ _ _ _ _ _ hw (honest_cons _ _ hon2) hix
    · exact index_Wrote _ _ _ _ _ _ hw (honest_cons _ _ (honest_cons _ _ hon2))
        (Nat.zero_le _)
    · exact index_Wrote _ _ _ _ _ _ hw (honest_cons _ _ hon2) hix

/-- The invariants of the buffer in a run from the first state, with honest writes. -/
theorem run_buffer (api : Opcodes) (json : Json) (v : Nat) (ins : List Input) (c : Config)
    (hrun : run api json (Config.init v) ins = some c) (hon : honest c.trace) :
    c.st.index ≤ 512 ∧ c.st.index ≤ c.st.data.length ∧
      written c.trace ++ c.st.data.drop c.st.index = sendBytes c.trace := by
  have h1 := run_invariant api json (fun c => honest c.trace → c.st.index ≤ 512)
    (fun c0 i c1 hP hs => step_index api json c0 c1 i hP hs) ins (Config.init v) c
    (fun _ => Nat.zero_le _) hrun hon
  have h2 := (run_invariant api json
    (fun c => (∃ pre, sendBytes c.trace = pre ++ c.st.data) ∧
      (honest c.trace → c.st.index ≤ c.st.data.length ∧
        written c.trace ++ c.st.data.drop c.st.index = sendBytes c.trace))
    (fun c0 i c1 hP hs => step_buffer api json c0 c1 i hP hs) ins (Config.init v) c
    ⟨⟨[], rfl⟩, fun _ => ⟨Nat.le_refl _, rfl⟩⟩ hrun).2 hon
  exact ⟨h1, h2.1, h2.2⟩

set_option maxRecDepth 200000 in
theorem flowRun_end :
    ∃ c, waitCmdToInit sampleOpcodes noJson 4243 flowRun = some c ∧
      writes c.trace =
        [((NewVmMessage ⟨12, List.replicate 892 0⟩).take 512, 512),
          ((NewVmMessage ⟨12, List.replicate 892 0⟩).drop 512, 388)] ∧
      ((NewVmMessage ⟨12, List.replicate 892 0⟩).take 512).length = 512 ∧
      ((NewVmMessage ⟨12, List.replicate 892 0⟩).drop 512).length = 388 ∧
      c.st.data = [] ∧ c.st.index = 0 ∧ c.st.got = 0 :=
  ⟨_, rfl, rfl, rfl, rfl, rfl, rfl, rfl⟩

/-- C18. No octet lost, duplicated or reordered: in every run of the dispatcher in which each
write reports a count of at most the octets offered, the octets written to the socket so far
followed by `data[index:]` are exactly the frames of the framed commands, in the order of
framing, and each of these frames is a `NewVmMessage` frame with the code of its command. For
one frame of 900 octets answered by `NEXT{512}` then `NEXT{388}` the writes are of 512 then 388
octets and the final state has `data` empty, `index = 0` and `got = 0`. -/
theorem C18_no_byte_lost (api : Opcodes) (json : Json) (v : Nat) (ins : List Input)
    (c : Config) (hrun : waitCmdToInit api json v ins = some c) (hon : honest c.trace) :
    written c.trace ++ c.st.data.drop c.st.index = sendBytes c.trace ∧
    (∀ cmd frame, Action.send cmd frame ∈ c.trace →
      ∃ message, frame = NewVmMessage { Code := cmd.Code, Message := message }) ∧
    (∃ c3, waitCmdToInit sampleOpcodes noJson 4243 flowRun = some c3 ∧
      writes c3.trace =
        [((NewVmMessage ⟨12, List.replicate 892 0⟩).take 512, 512),
          ((NewVmMessage ⟨12, List.replicate 892 0⟩).drop 512, 388)] ∧
      ((NewVmMessage ⟨12, List.replicate 892 0⟩).take 512).length = 512 ∧
      ((NewVmMessage ⟨12, List.replicate 892 0⟩).drop 512).length = 388 ∧
      c3.st.data = [] ∧ c3.st.index = 0 ∧ c3.st.got = 0) := by
  refine ⟨(run_buffer api json v ins c hrun hon).2.2, ?_, flowRun_end⟩
  refine run_invariant api json
    (fun c => ∀ cmd frame, Action.send cmd frame ∈ c.trace →
      ∃ message, frame = NewVmMessage { Code := cmd.Code, Message := message }) ?_ ins
    (Config.init v) c (fun _ _ hm => absurd hm (List.not_mem_nil _)) hrun
  intro c0 i c1 hP hs cmd frame hm
  obtain ⟨acts, htr, ha⟩ := step_frames api json c0 c1 i hs
  rw [htr] at hm
  exact (List.mem_append.mp hm).elim (hP cmd frame) (ha cmd frame)

/-- C18, at the run in which the version gate puts a command off: one write, of eight octets. -/
theorem C18_no_byte_lost_witness :
    ∃ c, waitCmdToInit sampleOpcodes noJson 0 gateRun = some c ∧
      written c.trace ++ c.st.data.drop c.st.index = sendBytes c.trace :=
  ⟨_, rfl, (C18_no_byte_lost sampleOpcodes noJson 0 gateRun _ rfl (by decide)).1⟩

/-- C19. The index stays in bounds: in every state that a run of the dispatcher reaches with
each write reporting a count of at most the octets offered, `index ≤ min(512, len(data))`; so
the slice `data[index:]` of a retirement is in bounds: a `NEXT` with a payload of at least four
octets never panics. -/
theorem C19_index_in_bounds (api : Opcodes) (json : Json) (v : Nat) (ins : List Input)
    (c : Config) (hrun : waitCmdToInit api json v ins = some c) (hon : honest c.trace) :
    c.st.index ≤ min 512 c.st.data.length ∧
    ∀ (cmd : hyperstartCmd) (b0 b1 b2 b3 : Byte) (tail : List Byte),
      cmd.retMsg = b0 :: b1 :: b2 :: b3 :: tail → (handleNext c.st cmd).isSome = true := by
  obtain ⟨h1, h2, -⟩ := run_buffer api json v ins c hrun hon
  refine ⟨by omega, ?_⟩
  intro cmd b0 b1 b2 b3 tail hp
  simp only [handleNext, hp, uint32BE]
  split_ifs
  · rfl
  · rfl

/-- C19, at the run in which the version gate puts a command off. -/
theorem C19_index_in_bounds_witness :
    ∃ c, waitCmdToInit sampleOpcodes noJson 0 gateRun = some c ∧
      c.st.index ≤ min 512 c.st.data.length :=
  ⟨_, rfl, (C19_index_in_bounds sampleOpcodes noJson 0 gateRun _ rfl (by decide)).1⟩

theorem noRetire_timers (t : List Action) (h : t.all isTimer = true) : noRetire t = true := by
  unfold noRetire
  rw [List.all_eq_true] at h ⊢
  intro a ha
  have := h a ha
  cases a <;> first | rfl | (simp [isTimer] at this)

theorem noWrite_timers (t : List Action) (h : t.all isTimer = true) : noWrite t = true := by
  unfold noWrite
  rw [List.all_eq_true] at h ⊢
  intro a ha
  have := h a ha
  cases a <;> first | rfl | (simp [isTimer] at this)

theorem nextSum_append (a b : List Action) : nextSum (a ++ b) = nextSum a + nextSum b := by
  induction a with
  | nil => simp [nextSum]
  | cons x t ih =>
    cases x with
    | next count =>
      show count + nextSum (t ++ b) = (count + nextSum t) + nextSum b
      rw [ih, Nat.add_assoc]
    | _ => exact ih

theorem nextSum_timers (t : List Action) (h : t.all isTimer = true) : nextSum t = 0 := by
  induction t with
  | nil => rfl
  | cons x t ih =>
    rw [List.all_cons, Bool.and_eq_true] at h
    cases x <;> first | exact ih h.2 | (simp [isTimer] at h)

theorem noRetire_append (a b : List Action) :
    noRetire (a ++ b) = (noRetire a && noRetire b) := by
  unfold noRetire; rw [List.all_append]

theorem noWrite_append (a b : List Action) :
    noWrite (a ++ b) = (noWrite a && noWrite b) := by
  unfold noWrite; rw [List.all_append]

/-- One input in a state whose window has been overshot, when `got` and the counts of the
`NEXT`s that the input adds stay below `2 ^ 63`: `index` and the overshoot stay, `got` grows by
the counts, `data` only grows, nothing is retired or written. -/
theorem step_overshoot (api : Opcodes) (json : Json) (c c1 : Config) (i : Input)
    (hix : 0 < c.st.index) (hgot : (c.st.index : Int) < c.st.got)
    (h : step api json c i = some c1) (acts : List Action)
    (htr : c1.trace = c.trace ++ acts) (hb : c.st.got + nextSum acts < 2 ^ 63) :
    c1.st.index = c.st.index ∧ (∃ extra, c1.st.data = c.st.data ++ extra) ∧
    noRetire acts = true ∧ noWrite acts = true ∧ c1.st.got = c.st.got + nextSum acts := by
  obtain ⟨acts1, htr1, hc⟩ := step_cases api json c c1 i h
  obtain rfl : acts1 = acts := List.append_cancel_left (htr1.symm.trans htr)
  have stay : ∀ ix d wr w ix1, Wrote ix d wr w ix1 → 0 < ix → w = [] ∧ ix1 = ix := by
    intro ix d wr w ix1 hw h0
    rcases hw with ⟨e1, e2, -⟩ | ⟨-, -, e3, -⟩
    · exact ⟨e1, e2⟩
    · omega
  rcases hc with ⟨ht, -, hd, hi, hg⟩ | ⟨cmd, wrote, -, -, hc⟩
  · exact ⟨hi, ⟨[], by rw [hd, List.append_nil]⟩, noRetire_timers _ ht,
      noWrite_timers _ ht, by rw [hg, nextSum_timers _ ht]; simp⟩
  · rcases hc with ⟨head, rest, d, t, -, hd, ht, rfl, -, hda, hi, hg, -⟩ | ⟨hst, t, ht, hacts⟩ |
      ⟨count, w, p, rfl, hp, hne, -, hda, hg, hw⟩ |
      ⟨count, w, p, rfl, hp, heq, -⟩ |
      ⟨message, w, p, rfl, hp, -, hda, hg, hw⟩
    · refine ⟨hi, ⟨[], by rw [hda, List.append_nil]⟩, ?_, ?_, ?_⟩
      · rw [show d ++ Action.pop head :: t = (d ++ [Action.pop head]) ++ t by simp,
          noRetire_append, noRetire_timers t ht]
        rcases hd with ⟨rfl, -⟩ | ⟨e, rfl⟩ <;> rfl
      · rw [show d ++ Action.pop head :: t = (d ++ [Action.pop head]) ++ t by simp,
          noWrite_append, noWrite_timers t ht]
        rcases hd with ⟨rfl, -⟩ | ⟨e, rfl⟩ <;> rfl
      · rw [show d ++ Action.pop head :: t = (d ++ [Action.pop head]) ++ t by simp,
          nextSum_append, nextSum_timers t ht, hg]
        rcases hd with ⟨rfl, -⟩ | ⟨e, rfl⟩ <;> simp [nextSum]
    · refine ⟨by rw [hst], ⟨[], by rw [hst, List.append_nil]⟩, ?_, ?_, ?_⟩
      · rcases hacts with rfl | ⟨e, rfl⟩ <;>
          · rw [show ∀ (a : Action), a :: t = [a] ++ t from fun _ => rfl, noRetire_append,
              noRetire_timers t ht]; rfl
      · rcases hacts with rfl | ⟨e, rfl⟩ <;>
          · rw [show ∀ (a : Action), a :: t = [a] ++ t from fun _ => rfl, noWrite_append,
              noWrite_timers t ht]; rfl
      · rcases hacts with rfl | ⟨e, rfl⟩ <;>
          · rw [show ∀ (a : Action), a :: t = [a] ++ t from fun _ => rfl, nextSum_append,
              nextSum_timers t ht, hst]; simp [nextSum]
    · obtain ⟨rfl, hi⟩ := stay _ _ _ _ _ hw hix
      have hs := nextSum_timers p hp
      rw [List.nil_append] at hb ⊢
      simp only [nextSum, hs, Nat.add_zero] at hb ⊢
      refine ⟨hi, ⟨[], by rw [hda, List.append_nil]⟩, noRetire_timers p hp,
        noWrite_timers p hp, ?_⟩
      rw [hg]
      exact wrapInt_of_lt _ (by omega) hb
    · exfalso
      have hs : count ≤ nextSum (Action.next count :: Action.retire c.st.index :: (w ++ p)) := by
        simp only [nextSum]; omega
      have h1 : c.st.got + (count : Int) < 2 ^ 63 := by omega
      rw [wrapInt_of_lt _ (by omega) h1] at heq
      omega
    · obtain ⟨rfl, hi⟩ := stay _ _ _ _ _ hw hix
      have hs := nextSum_timers p hp
      rw [List.nil_append]
      simp only [nextSum, hs]
      exact ⟨hi, ⟨_, hda⟩, noRetire_timers p hp, noWrite_timers p hp, by rw [hg]; simp⟩

/-- What a run from an overshot state has added to the trace, and what holds of it while the
Go `int` does not overflow. -/
theorem run_overshoot (api : Opcodes) (json : Json) (c : Config)
    (hix : 0 < c.st.index) (hgot : (c.st.index : Int) < c.st.got) :
    ∀ (ins : List Input) (c1 : Config), run api json c ins = some c1 →
      ∃ acts, c1.trace = c.trace ++ acts ∧
        (c.st.got + nextSum acts < 2 ^ 63 →
          c1.st.index = c.st.index ∧ (∃ extra, c1.st.data = c.st.data ++ extra) ∧
          noRetire acts = true ∧ noWrite acts = true ∧
          c1.st.got = c.st.got + nextSum acts) := by
  intro ins c1 hrun
  refine run_invariant api json
    (fun c1 => ∃ acts, c1.trace = c.trace ++ acts ∧
      (c.st.got + nextSum acts < 2 ^ 63 →
        c1.st.index = c.st.index ∧ (∃ extra, c1.st.data = c.st.data ++ extra) ∧
        noRetire acts = true ∧ noWrite acts = true ∧
        c1.st.got = c.st.got + nextSum acts)) ?_ ins c c1
    ⟨[], (List.append_nil _).symm, fun _ => ⟨rfl, ⟨[], (List.append_nil _).symm⟩, rfl, rfl,
      by simp [nextSum]⟩⟩ hrun
  intro c0 i c2 hP hs
  obtain ⟨acts, p3, hP⟩ := hP
  obtain ⟨acts1, q3, -⟩ := step_cases api json c0 c2 i hs
  refine ⟨acts ++ acts1, by rw [q3, p3, List.append_assoc], fun hb => ?_⟩
  rw [nextSum_append, Nat.cast_add] at hb
  obtain ⟨p1, ⟨extra, p2⟩, p4, p5, p6⟩ := hP (by omega)
  obtain ⟨q1, ⟨extra1, q2⟩, q4, q5, q6⟩ :=
    step_overshoot api json c0 c2 i (by omega) (by omega) hs acts1 q3 (by omega)
  refine ⟨by rw [q1, p1], ⟨extra ++ extra1, by rw [q2, p2, List.append_assoc]⟩, ?_, ?_, ?_⟩
  · rw [noRetire_append, p4, q4]; rfl
  · rw [noWrite_append, p5, q5]; rfl
  · rw [q6, p6, nextSum_append, Nat.cast_add, Int.add_assoc]

/-- C20, amended. Overshoot stalls the channel until the counter overflows: from every state of
the dispatcher with `index > 0` and `got > index`, and for every sequence of inputs after which
`got` plus the counts of the `NEXT`s received since is below `2 ^ 63` (the Go `int` has not
overflowed), `index` is unchanged, `got` has not decreased (it is the old `got` plus those
counts), `data` has only grown, and the dispatcher has neither retired the window nor written
to the socket; and a `NEXT` with a payload of at least four octets that keeps `got` below
`2 ^ 63` does not panic there and only adds its count. The actions since the state are
`c1.trace` without the trace of the state. -/
theorem C20_overshoot_stalls (api : Opcodes) (json : Json) (c : Config) (ins : List Input)
    (c1 : Config) (hix : 0 < c.st.index) (hgot : (c.st.index : Int) < c.st.got)
    (hrun : run api json c ins = some c1)
    (hbound : c.st.got + nextSum (c1.trace.drop c.trace.length) < 2 ^ 63) :
    c1.trace = c.trace ++ c1.trace.drop c.trace.length ∧
    noRetire (c1.trace.drop c.trace.length) = true ∧
    noWrite (c1.trace.drop c.trace.length) = true ∧
    c1.st.index = c.st.index ∧ c.st.got ≤ c1.st.got ∧
    c1.st.got = c.st.got + nextSum (c1.trace.drop c.trace.length) ∧
    (∃ extra, c1.st.data = c.st.data ++ extra) ∧
    ∀ (cmd : hyperstartCmd) (b0 b1 b2 b3 : Byte) (tail : List Byte),
      cmd.retMsg = b0 :: b1 :: b2 :: b3 :: tail →
      c1.st.got + ((b0.val * 2 ^ 24 + b1.val * 2 ^ 16 + b2.val * 2 ^ 8 + b3.val : Nat) : Int)
        < 2 ^ 63 →
      handleNext c1.st cmd = some
        ({ c1.st with
            got := c1.st.got +
              ((b0.val * 2 ^ 24 + b1.val * 2 ^ 16 + b2.val * 2 ^ 8 + b3.val : Nat) : Int),
            timeout := false },
          [Action.next (b0.val * 2 ^ 24 + b1.val * 2 ^ 16 + b2.val * 2 ^ 8 + b3.val)]) := by
  obtain ⟨acts, h3, hP⟩ := run_overshoot api json c hix hgot ins c1 hrun
  have hd : c1.trace.drop c.trace.length = acts := by rw [h3, List.drop_left]
  rw [hd] at hbound ⊢
  obtain ⟨h1, h2, h4, h5, h6⟩ := hP hbound
  refine ⟨h3, h4, h5, h1, by omega, h6, h2, ?_⟩
  intro cmd b0 b1 b2 b3 tail hp hlt
  simp only [handleNext, hp, uint32BE]
  rw [wrapInt_of_lt _ (by omega) hlt, if_neg (by omega)]

/-- C20, at a window of eight octets overshot by two: after a `NEXT`, a command, an `ACK` and a
`NEXT` of `2 ^ 32 - 1` octets the index is still eight and nothing has been written. -/
theorem C20_overshoot_stalls_witness :
    ∃ c1, run sampleOpcodes noJson overshot overshotRun = some c1 ∧
      c1.st.index = 8 ∧ c1.st.got = 10 + (2 + (2 ^ 32 - 1)) ∧
      noWrite (c1.trace.drop overshot.trace.length) = true :=
  ⟨_, rfl, (C20_overshoot_stalls sampleOpcodes noJson overshot overshotRun _
    (by decide) (by decide) rfl (by decide)).2.2.2.1, rfl,
    (C20_overshoot_stalls sampleOpcodes noJson overshot overshotRun _
    (by decide) (by decide) rfl (by decide)).2.2.1⟩

theorem run_append (api : Opcodes) (json : Json) :
    ∀ (a b : List Input) (c : Config),
      run api json c (a ++ b) = (run api json c a).bind (fun c1 => run api json c1 b) := by
  intro a
  induction a with
  | nil => intro b c; rfl
  | cons i a ih =>
    intro b c
    simp only [List.cons_append, run]
    cases step api json c i with
    | none => rfl
    | some c1 => exact ih b c1

/-- A `NEXT` of two octets that does not bring `got` to eight only adds two to `got`. -/
theorem step_nextTwo (g : Int) (t : List Action) (h : wrapInt (g + 2) ≠ 8) :
    step sampleOpcodes noJson (overshotAt g t) nextTwo =
      some (overshotAt (wrapInt (g + 2)) (t ++ [Action.next 2])) := by
  have h1 : ¬ ((8 : Int) = wrapInt (g + 2)) := fun e => h e.symm
  simp [step, overshotAt, overshot, nextTwo, iteration, withResult, handleNext, uint32BE,
    sampleOpcodes, afterDispatch, writer, armPong, State.init, h1]

/-- A `NEXT` of two octets that brings `got` to eight retires the window, and the writer sends
the three octets that waited. -/
theorem step_nextTwo_retire (t : List Action) :
    step sampleOpcodes noJson (overshotAt 6 t) nextTwo =
      some { vmHyperstartAPIVersion := 4243,
             st := { State.init with index := 3, got := 0, data := [1, 2, 3] },
             trace := t ++ [Action.next 2, Action.retire 8, Action.write [1, 2, 3] 3],
             exited := false } := rfl

/-- So many `NEXT`s of two octets, none of which brings `got` to eight, add up in `got`, in the
arithmetic of the Go `int`. -/
theorem run_nextTwo (n : Nat) :
    ∀ (g : Int) (t : List Action), wrapInt g = g →
      (∀ k : Nat, 1 ≤ k → k ≤ n → wrapInt (g + 2 * (k : Int)) ≠ 8) →
      run sampleOpcodes noJson (overshotAt g t) (List.replicate n nextTwo) =
        some (overshotAt (wrapInt (g + 2 * (n : Int)))
          (t ++ List.replicate n (Action.next 2))) := by
  induction n with
  | zero =>
    intro g t hg _
    simp only [List.replicate_zero, run, List.append_nil, Nat.cast_zero, Int.mul_zero,
      Int.add_zero, hg]
  | succ n ih =>
    intro g t hg hk
    have h1 : wrapInt (g + 2) ≠ 8 := by
      have := hk 1 (Nat.le_refl 1) (by omega)
      simpa using this
    rw [List.replicate_succ, run, step_nextTwo g t h1]
    simp only []
    rw [ih (wrapInt (g + 2)) (t ++ [Action.next 2]) (wrapInt_wrapInt _)]
    · rw [wrapInt_wrapInt_add, List.append_assoc, List.singleton_append,
        show g + 2 + 2 * (n : Int) = g + 2 * ((n + 1 : Nat) : Int) by push_cast; ring,
        List.replicate_succ]
    · intro k hk1 hk2
      rw [wrapInt_wrapInt_add,
        show g + 2 + 2 * (k : Int) = g + 2 * ((k + 1 : Nat) : Int) by push_cast; ring]
      exact hk (k + 1) (by omega) (by omega)

/-- C20 as stated fails once the Go `int` overflows. In the state `brimful`, where `index` is 8
and `got` is `2 ^ 63 - 1`, a `NEXT` of two octets makes `got` negative: it has decreased. And
from the state `overshot`, where `index` is 8 and `got` is 10, `2 ^ 63 - 1` messages `NEXT` of
two octets bring `got` around to 8: the last one retires the window, `data` loses its first
eight octets, and the dispatcher writes the remaining three to the socket. -/
theorem C20_counterexample :
    (0 < brimful.index ∧ (brimful.index : Int) < brimful.got ∧
      handleNext brimful ⟨14, .raw [], [0, 0, 0, 2], .nil⟩ =
        some ({ brimful with got := -2 ^ 63 + 1 }, [Action.next 2]) ∧
      (-2 ^ 63 + 1 : Int) < brimful.got) ∧
    (0 < overshot.st.index ∧ (overshot.st.index : Int) < overshot.st.got ∧
      ∃ c1, run sampleOpcodes noJson overshot
          (List.replicate (2 ^ 63 - 2) nextTwo ++ [nextTwo]) = some c1 ∧
        c1.st.index = 3 ∧ c1.st.got = 0 ∧ c1.st.data = [1, 2, 3] ∧
        c1.trace = overshot.trace ++ List.replicate (2 ^ 63 - 2) (Action.next 2) ++
          [Action.next 2, Action.retire 8, Action.write [1, 2, 3] 3]) := by
  refine ⟨⟨by decide, by decide, by decide, by decide⟩, by decide, by decide,
    { vmHyperstartAPIVersion := 4243,
      st := { State.init with index := 3, got := 0, data := [1, 2, 3] },
      trace := overshot.trace ++ List.replicate (2 ^ 63 - 2) (Action.next 2) ++
        [Action.next 2, Action.retire 8, Action.write [1, 2, 3] 3],
      exited := false }, ?_, rfl, rfl, rfl, rfl⟩
  have h6 : wrapInt (10 + 2 * ((2 ^ 63 - 2 : Nat) : Int)) = 6 := by decide
  have hrun := run_nextTwo (2 ^ 63 - 2) 10 [] (by decide)
    (fun k _ hk2 => by unfold wrapInt; omega)
  rw [h6] at hrun
  rw [run_append, show overshot = overshotAt 10 [] from rfl, hrun]
  show run sampleOpcodes noJson (overshotAt 6 _) [nextTwo] = _
  rw [run, step_nextTwo_retire]
  rfl

/-- Filtering out the key `id` leaves no value under `id`. -/
theorem lookup_filter_id (p : List (String × JVal)) :
    (p.filter (fun kv => kv.1 ≠ "id")).lookup "id" = none := by
  induction p with
  | nil => rfl
  | cons a t ih =>
    obtain ⟨k, v⟩ := a
    rw [List.filter_cons]
    by_cases h : k = "id"
    · rw [if_neg (by simp [h])]
      exact ih
    · have h2 : ("id" == k) = false := by simpa using fun e => h e.symm
      rw [if_pos (by simp [h])]
      simp only [List.lookup, h2]
      exact ih

/-- Filtering out the key `id` keeps the value under every other key. -/
theorem lookup_filter_ne (p : List (String × JVal)) (k : String) (hk : k ≠ "id") :
    (p.filter (fun kv => kv.1 ≠ "id")).lookup k = p.lookup k := by
  induction p with
  | nil => rfl
  | cons a t ih =>
    obtain ⟨k1, v⟩ := a
    rw [List.filter_cons]
    by_cases h : k1 = "id"
    · have h2 : (k == k1) = false := by rw [h]; simpa using hk
      have e : List.lookup k ((k1, v) :: t) = List.lookup k t := by simp only [List.lookup, h2]
      rw [if_neg (by simp [h]), e]
      exact ih
    · rw [if_pos (by simp [h])]
      by_cases h3 : k = k1
      · subst h3
        simp only [List.lookup, beq_self_eq_true]
      · have h2 : (k == k1) = false := by simpa using h3
        simp only [List.lookup, h2]
        exact ih

theorem deleteProcessId_lookup_ne (m : JMap) (k : String) (hk : k ≠ "process") :
    (deleteProcessId m).lookup k = m.lookup k := by
  induction m with
  | nil => rfl
  | cons a t ih =>
    obtain ⟨k1, v⟩ := a
    unfold deleteProcessId
    by_cases h : k1 = "process"
    · have h2 : (k == k1) = false := by rw [h]; simpa using hk
      rw [if_pos h]
      cases v <;> simp [List.lookup, h2]
    · rw [if_neg h]
      by_cases h3 : k = k1
      · simp [List.lookup, h3]
      · have h2 : (k == k1) = false := by simpa using h3
        simp [List.lookup, h2, ih]

theorem deleteProcessId_lookup_object (m : JMap) (p : List (String × JVal))
    (h : m.lookup "process" = some (.object p)) :
    (deleteProcessId m).lookup "process" =
      some (.object (p.filter (fun kv => kv.1 ≠ "id"))) := by
  induction m with
  | nil => simp [List.lookup] at h
  | cons a t ih =>
    obtain ⟨k1, v⟩ := a
    unfold deleteProcessId
    by_cases h1 : k1 = "process"
    · subst h1
      simp only [List.lookup, beq_self_eq_true, Option.some.injEq] at h
      subst h
      simp [List.lookup]
    · have h2 : ("process" == k1) = false := by simpa using fun e => h1 e.symm
      simp only [List.lookup, h2] at h
      rw [if_neg h1]
      simp only [List.lookup, h2]
      exact ih h

theorem deleteProcessId_other (m : JMap)
    (h : ∀ p, m.lookup "process" ≠ some (.object p)) : deleteProcessId m = m := by
  induction m with
  | nil => rfl
  | cons a t ih =>
    obtain ⟨k1, v⟩ := a
    unfold deleteProcessId
    by_cases h1 : k1 = "process"
    · subst h1
      rw [if_pos rfl]
      cases v with
      | object p => exact absurd (by simp [List.lookup]) (h p)
      | _ => rfl
    · have h2 : ("process" == k1) = false := by simpa using fun e => h1 e.symm
      rw [if_neg h1, ih]
      intro p hp
      exact h p (by simp only [List.lookup, h2]; exact hp)

theorem deleteProcessId_keys (m : JMap) :
    (deleteProcessId m).map Prod.fst = m.map Prod.fst := by
  induction m with
  | nil => rfl
  | cons a t ih =>
    obtain ⟨k1, v⟩ := a
    unfold deleteProcessId
    split
    · cases v <;> rfl
    · simp [ih]

/-- The payload of a command to which the compatibility rewrite applies, when it parses as the
object `m`: the serialisation of `m` without `process.id`, or the payload itself when `m` is
empty. -/
theorem encodePayload_rewrite (api : Opcodes) (json : Json) (version : Nat)
    (cmd : hyperstartCmd) (payload : List Byte) (m : JMap)
    (hcode : cmd.Code = api.INIT_EXECCMD ∨ cmd.Code = api.INIT_NEWCONTAINER)
    (hv : version ≤ 4242) (hp : marshalled json cmd = some payload)
    (hobj : json.Unmarshal payload = some m) :
    encodePayload api json version cmd =
      if m.length ≠ 0 then
        match json.MarshalMap (deleteProcessId m) with
        | some message1 => .ok message1
        | none => .error (.handle4242 cmd.Code)
      else .ok payload := by
  unfold marshalled at hp
  unfold encodePayload
  simp only [hp, hv, if_true, hcode, hobj, Option.map_some', deleteProcessId_length]

/-- Above version 4242 the payload is framed as it was marshalled. -/
theorem encodePayload_plain (api : Opcodes) (json : Json) (version : Nat)
    (cmd : hyperstartCmd) (payload : List Byte)
    (hv : 4242 < version) (hp : marshalled json cmd = some payload) :
    encodePayload api json version cmd = .ok payload := by
  unfold marshalled at hp
  unfold encodePayload
  simp only [hp, Nat.not_le.mpr hv, if_false]

/-- An iteration on an outbound command that passes the version gate and whose payload is
encoded as `framed`. -/
theorem iteration_framed (api : Opcodes) (json : Json) (version : Nat) (s : State)
    (cmd : hyperstartCmd) (wrote : Nat) (framed : List Byte)
    (hack : cmd.Code ≠ api.INIT_ACK) (herr : cmd.Code ≠ api.INIT_ERROR)
    (hnext : cmd.Code ≠ api.INIT_NEXT)
    (hgate : ¬ (version = 0 ∧
      (cmd.Code = api.INIT_EXECCMD ∨ cmd.Code = api.INIT_NEWCONTAINER)))
    (he : encodePayload api json version (withResult cmd) = .ok framed) :
    iteration api json version s cmd wrote =
      some (afterDispatch
        { s with cmds := s.cmds ++ [withResult cmd],
                 data := s.data ++ NewVmMessage { Code := cmd.Code, Message := framed },
                 timeout := true }
        [Action.send (withResult cmd) (NewVmMessage { Code := cmd.Code, Message := framed })]
        wrote) := by
  simp only [iteration, withResult_Code, hack, herr, hnext, or_self, if_false,
    handleOutbound, hgate, he]

/-- C11. Compatibility rewrite: for every agent version `v` with `0 < v ≤ 4242`, every command
with code `INIT_EXECCMD` or `INIT_NEWCONTAINER` and every payload that `encoding/json` parses
as an object `m`, the dispatcher frames a payload that parses as `deleteProcessId m`, given that
`encoding/json` serialises that object to a document that parses back to it; for `v > 4242` the
payload is framed as it is. The object `deleteProcessId m` has the keys of `m` in their order
and the value of `m` under every key but `process`; when `m["process"]` is an object `p`, its
value under `process` is `p` without the key `id` and with the value of `p` under every other
key; when `m["process"]` is missing or is no object, it is `m`. -/
theorem C11_compat_rewrite (api : Opcodes) (hapi : api.distinct) (json : Json) (version : Nat)
    (s : State) (cmd : hyperstartCmd) (wrote : Nat) (payload : List Byte) (m : JMap)
    (hcode : cmd.Code = api.INIT_EXECCMD ∨ cmd.Code = api.INIT_NEWCONTAINER)
    (hpayload : marshalled json cmd = some payload)
    (hobj : json.Unmarshal payload = some m)
    (hser : m ≠ [] → ∃ b, json.MarshalMap (deleteProcessId m) = some b ∧
      json.Unmarshal b = some (deleteProcessId m)) :
    (0 < version → version ≤ 4242 → ∃ framed,
      encodePayload api json version (withResult cmd) = .ok framed ∧
      iteration api json version s cmd wrote =
        some (afterDispatch
          { s with cmds := s.cmds ++ [withResult cmd],
                   data := s.data ++ NewVmMessage { Code := cmd.Code, Message := framed },
                   timeout := true }
          [Action.send (withResult cmd)
            (NewVmMessage { Code := cmd.Code, Message := framed })] wrote) ∧
      json.Unmarshal framed = some (deleteProcessId m)) ∧
    (4242 < version →
      encodePayload api json version (withResult cmd) = .ok payload ∧
      iteration api json version s cmd wrote =
        some (afterDispatch
          { s with cmds := s.cmds ++ [withResult cmd],
                   data := s.data ++ NewVmMessage { Code := cmd.Code, Message := payload },
                   timeout := true }
          [Action.send (withResult cmd)
            (NewVmMessage { Code := cmd.Code, Message := payload })] wrote)) ∧
    (deleteProcessId m).map Prod.fst = m.map Prod.fst ∧
    (∀ k, k ≠ "process" → (deleteProcessId m).lookup k = m.lookup k) ∧
    (∀ p, m.lookup "process" = some (.object p) →
      (deleteProcessId m).lookup "process" =
        some (.object (p.filter (fun kv => kv.1 ≠ "id"))) ∧
      (p.filter (fun kv => kv.1 ≠ "id")).lookup "id" = none ∧
      ∀ k, k ≠ "id" → (p.filter (fun kv => kv.1 ≠ "id")).lookup k = p.lookup k) ∧
    ((∀ p, m.lookup "process" ≠ some (.object p)) → deleteProcessId m = m) := by
  obtain ⟨-, -, -, h1, h2, h3, h4, h5, h6⟩ := distinct_ne api hapi
  have hack : cmd.Code ≠ api.INIT_ACK := by rcases hcode with e | e <;> rw [e] <;> assumption
  have herr : cmd.Code ≠ api.INIT_ERROR := by rcases hcode with e | e <;> rw [e] <;> assumption
  have hnext : cmd.Code ≠ api.INIT_NEXT := by rcases hcode with e | e <;> rw [e] <;> assumption
  have hcode1 : (withResult cmd).Code = api.INIT_EXECCMD ∨
      (withResult cmd).Code = api.INIT_NEWCONTAINER := by rw [withResult_Code]; exact hcode
  have hp1 : marshalled json (withResult cmd) = some payload := by
    unfold marshalled at hpayload ⊢
    rw [withResult_Message]; exact hpayload
  refine ⟨fun h0 hv => ?_, fun hv => ?_, deleteProcessId_keys m,
    deleteProcessId_lookup_ne m, fun p hp => ⟨deleteProcessId_lookup_object m p hp,
      lookup_filter_id p, lookup_filter_ne p⟩, deleteProcessId_other m⟩
  · have hgate : ¬ (version = 0 ∧
        (cmd.Code = api.INIT_EXECCMD ∨ cmd.Code = api.INIT_NEWCONTAINER)) :=
      fun h => absurd h.1 (by omega)
    have hrw := encodePayload_rewrite api json version (withResult cmd) payload m hcode1 hv
      hp1 hobj
    cases m with
    | nil =>
      have he : encodePayload api json version (withResult cmd) = .ok payload := by
        rw [hrw]; rfl
      exact ⟨payload, he,
        iteration_framed api json version s cmd wrote payload hack herr hnext hgate he, hobj⟩
    | cons kv rest =>
      obtain ⟨b, hb1, hb2⟩ := hser (List.cons_ne_nil _ _)
      have he : encodePayload api json version (withResult cmd) = .ok b := by
        rw [hrw, if_pos (by simp), hb1]
      exact ⟨b, he,
        iteration_framed api json version s cmd wrote b hack herr hnext hgate he, hb2⟩
  · have hgate : ¬ (version = 0 ∧
        (cmd.Code = api.INIT_EXECCMD ∨ cmd.Code = api.INIT_NEWCONTAINER)) :=
      fun h => absurd h.1 (by omega)
    have he := encodePayload_plain api json version (withResult cmd) payload hv hp1
    exact ⟨he, iteration_framed api json version s cmd wrote payload hack herr hnext hgate he⟩

/-- C11, at the `INIT_EXECCMD` of the scenario under version 4242: the framed payload parses as
the object without `process.id`. -/
theorem C11_compat_rewrite_witness :
    (∃ framed,
      encodePayload sampleOpcodes execJson 4242 (withResult execCmd) = .ok framed ∧
      iteration sampleOpcodes execJson 4242 State.init execCmd 512 =
        some (afterDispatch
          { State.init with cmds := State.init.cmds ++ [withResult execCmd],
                            data := State.init.data ++
                              NewVmMessage { Code := execCmd.Code, Message := framed },
                            timeout := true }
          [Action.send (withResult execCmd)
            (NewVmMessage { Code := execCmd.Code, Message := framed })] 512) ∧
      execJson.Unmarshal framed = some (deleteProcessId execObject)) ∧
    deleteProcessId execObject = execObjectStripped :=
  ⟨(C11_compat_rewrite sampleOpcodes (by decide) execJson 4242 State.init execCmd 512 execDoc
    execObject (Or.inl rfl) rfl rfl (fun _ => ⟨execDocStripped, rfl, rfl⟩)).1
    (by decide) (by decide), rfl⟩

end hypervisor
